import Mathlib

/-!
Verification development for the in-memory relational store engine of the
`sqlalchemy-memory` repository (files `base/store.py`, `base/indexes.py`,
`base/pending_changes.py`, `base/query.py`, `helpers/utils.py`,
`helpers/ordered_set.py`).

Modelling conventions, chosen once and used throughout:

* The store is keyed by table name in the source (`defaultdict` per table);
  every operation touches only the entries of the table it is given, and all
  claims are statements about a single table, so the embedding models one
  table.  The table's schema (primary-key column, declared single-column
  indexes, constant column defaults) is a parameter `sch : Schema`.
* Python objects are mutable records with identity.  We model identity as a
  natural number `Rid` (the role played by `id(obj)` in the source) and keep
  the mutable attribute state in an association-list heap
  `Heap := List (Rid × Rec)`; `getattr`/`setattr` become heap reads/writes.
  A missing attribute reads as `Val.none`, matching the source's uses of
  `obj.__dict__.get(name, None)` and of ORM attributes that default to None.
* Column values are `Val`: SQL NULL / Python `None`, integers, strings.
  Python booleans behave as the integers 0/1 and are modelled as such.
* Python's `sortedcontainers.SortedDict` (the range index) compares keys when
  a new key is inserted or when a bound is given to `irange`; comparing
  `None` with an `int`/`str`, or values of different types, raises
  `TypeError`.  The embedding's range index mirrors this: inserting a key (or
  querying with a bound) that is not order-compatible with the keys already
  present returns an error, exactly where the source raises.  (Python's
  bisection compares only a subset of the keys; the difference is observable
  only on indexes that already hold order-incompatible keys, which the add
  path never lets arise.)
* Fallible code paths return an error value carrying the partial state, since
  `InMemoryStore.commit` mutates in place and an exception mid-commit leaves
  the already-applied mutations visible (`CommitResult.err`).
-/

namespace SqlMem

/-- Object identity, playing the role of Python `id(obj)`. -/
abbrev Rid := Nat

/-- A column value: SQL NULL (Python None), an integer, or a string. -/
inductive Val where
  | none : Val
  | int : Int → Val
  | str : String → Val
deriving DecidableEq, Repr

/-- Three-way comparison of values, defined exactly where Python's `<`/`<=`
are: on two ints or two strings.  `Option.none` marks the pairs on which
Python raises `TypeError` (any comparison involving `None`, or mixed types). -/
def valCmp : Val → Val → Option Ordering
  | Val.int a, Val.int b => some (compare a b)
  | Val.str a, Val.str b => some (compare a b)
  | _, _ => Option.none

/-- Python `x <= y` as a partial Boolean: `Option.none` where Python raises. -/
def valLe (x y : Val) : Option Bool :=
  (valCmp x y).map (fun o => o ≠ Ordering.gt)

/-- Python `x < y` as a partial Boolean. -/
def valLt (x y : Val) : Option Bool :=
  (valCmp x y).map (fun o => o = Ordering.lt)

/-- Two values are order-compatible iff Python can compare them. -/
def valComparable (x y : Val) : Bool :=
  (valCmp x y).isSome

/-- Attribute state of one record: field name to value, no duplicate keys by
construction of the update function. -/
abbrev Rec := List (String × Val)

/-- `getattr(obj, f)`; absent attributes read as None (see module comment). -/
def recGet (r : Rec) (f : String) : Val :=
  match r.find? (fun p => p.1 = f) with
  | some p => p.2
  | Option.none => Val.none

/-- `setattr(obj, f, v)` / `obj.__dict__[f] = v`: overwrite or append. -/
def recSet (r : Rec) (f : String) (v : Val) : Rec :=
  match r with
  | [] => [(f, v)]
  | p :: t => if p.1 = f then (f, v) :: t else p :: recSet t f v

/-- The mutable object heap: identity to attribute state. -/
abbrev Heap := List (Rid × Rec)

/-- Read a record off the heap (an unknown identity reads as the empty record;
unreachable for the identities the operations use). -/
def heapGet (h : Heap) (r : Rid) : Rec :=
  match h.find? (fun p => p.1 = r) with
  | some p => p.2
  | Option.none => []

/-- Replace (or create) the record stored at identity `r`. -/
def heapSet (h : Heap) (r : Rid) (rec : Rec) : Heap :=
  match h with
  | [] => [(r, rec)]
  | p :: t => if p.1 = r then (r, rec) :: t else p :: heapSet t r rec

/-- `getattr` through the heap. -/
def hGet (h : Heap) (r : Rid) (f : String) : Val :=
  recGet (heapGet h r) f

/-- `setattr` through the heap. -/
def hSet (h : Heap) (r : Rid) (f : String) (v : Val) : Heap :=
  heapSet h r (recSet (heapGet h r) f v)

/-- Whether the attribute is present in the record's `__dict__` (as opposed
to never set, which the attribute system reports as `NO_VALUE`; note that an
attribute explicitly set to None is present). -/
def recHas (rec : Rec) (f : String) : Bool :=
  (rec.find? (fun p => p.1 = f)).isSome

/-- `__dict__` presence through the heap. -/
def hHas (h : Heap) (r : Rid) (f : String) : Bool :=
  recHas (heapGet h r) f

/-- Table schema handed in by the integration layer: the primary-key column
name, the declared single-column indexes as (index name, column name) pairs
(in declaration order, compound indexes already dropped as in
`IndexManager.get_indexes`), and the constant column defaults applied by
`_apply_column_defaults` (callable and server-side defaults are out of the
claims' scope and omitted). -/
structure Schema where
  pkName : String
  declIndexes : List (String × String)
  defaults : List (String × Val)
deriving DecidableEq, Repr

/-- `IndexManager.get_indexes`: the declared indexes, plus the primary key as
an implicit index under its own name unless a declared index is named like
the primary-key column. -/
def getIndexes (sch : Schema) : List (String × String) :=
  sch.declIndexes ++
    (if sch.declIndexes.any (fun p => p.1 = sch.pkName) then []
     else [(sch.pkName, sch.pkName)])

/-- `IndexManager._column_to_index`: the first index covering the column. -/
def columnToIndex (sch : Schema) (col : String) : Option String :=
  (getIndexes sch).find? (fun p => p.2 = col) |>.map (fun p => p.1)

/-! ### Hash index (`HashIndex`, backed by `OrderedSet` buckets) -/

/-- One index's hash buckets: value to the insertion-ordered set of records.
The whole hash index maps index name to its buckets. -/
abbrev HashIdx := List (String × List (Val × List Rid))

/-- Bucket lookup inside one index's bucket list. -/
def bucketsGet (bs : List (Val × List Rid)) (v : Val) : List Rid :=
  match bs.find? (fun p => p.1 = v) with
  | some p => p.2
  | Option.none => []

/-- `OrderedSet.add` into the bucket for `v` (append if absent, no duplicate). -/
def bucketsAdd (bs : List (Val × List Rid)) (v : Val) (r : Rid) :
    List (Val × List Rid) :=
  match bs with
  | [] => [(v, [r])]
  | p :: t =>
    if p.1 = v then (v, if r ∈ p.2 then p.2 else p.2 ++ [r]) :: t
    else p :: bucketsAdd t v r

/-- `OrderedSet.discard` from the bucket for `v`, deleting the bucket when it
becomes empty (`HashIndex.remove`). -/
def bucketsRemove (bs : List (Val × List Rid)) (v : Val) (r : Rid) :
    List (Val × List Rid) :=
  match bs with
  | [] => []
  | p :: t =>
    if p.1 = v then
      (if p.2.filter (fun x => x ≠ r) = [] then t
       else (v, p.2.filter (fun x => x ≠ r)) :: t)
    else p :: bucketsRemove t v r

/-- Index-name level lookup of a hash index. -/
def hashGetBuckets (hi : HashIdx) (idx : String) : List (Val × List Rid) :=
  match hi.find? (fun p => p.1 = idx) with
  | some p => p.2
  | Option.none => []

/-- Update the bucket list of one index name. -/
def hashSetBuckets (hi : HashIdx) (idx : String)
    (bs : List (Val × List Rid)) : HashIdx :=
  match hi with
  | [] => [(idx, bs)]
  | p :: t => if p.1 = idx then (idx, bs) :: t else p :: hashSetBuckets t idx bs

/-- `HashIndex.add`. -/
def hashAdd (hi : HashIdx) (idx : String) (v : Val) (r : Rid) : HashIdx :=
  hashSetBuckets hi idx (bucketsAdd (hashGetBuckets hi idx) v r)

/-- `HashIndex.remove`. -/
def hashRemove (hi : HashIdx) (idx : String) (v : Val) (r : Rid) : HashIdx :=
  hashSetBuckets hi idx (bucketsRemove (hashGetBuckets hi idx) v r)

/-- `HashIndex.query`: the bucket for `v`, or empty. -/
def hashQuery (hi : HashIdx) (idx : String) (v : Val) : List Rid :=
  bucketsGet (hashGetBuckets hi idx) v

/-! ### Range index (`RangeIndex`, backed by `SortedDict`) -/

/-- One index's range entries: key to the list of records (a plain Python
list: appends may duplicate), kept sorted by key.  The whole range index maps
index name to its entries. -/
abbrev RangeIdx := List (String × List (Val × List Rid))

/-- Sorted insertion of a fresh key.  Requires the new key to be
order-compatible with every present key, erroring with Python's `TypeError`
otherwise (see module comment on `SortedDict`). -/
def rangeInsertKey (es : List (Val × List Rid)) (v : Val) (r : Rid) :
    Except String (List (Val × List Rid)) :=
  if es.all (fun p => valComparable v p.1) then
    Except.ok (insertSorted es v r)
  else
    Except.error "TypeError: unorderable index key"
where
  insertSorted : List (Val × List Rid) → Val → Rid → List (Val × List Rid)
    | [], v, r => [(v, [r])]
    | p :: t, v, r =>
      if valLt v p.1 = some true then (v, [r]) :: p :: t
      else p :: insertSorted t v r

/-- `RangeIndex.add`: append to an existing key's list, else sorted-insert. -/
def rangeEntriesAdd (es : List (Val × List Rid)) (v : Val) (r : Rid) :
    Except String (List (Val × List Rid)) :=
  match es.find? (fun p => p.1 = v) with
  | some _ =>
    Except.ok (es.map (fun p => if p.1 = v then (p.1, p.2 ++ [r]) else p))
  | Option.none => rangeInsertKey es v r

/-- `RangeIndex.remove`: drop the first occurrence of `r` from the key's
list (a swallowed `ValueError` if absent), deleting the key when emptied. -/
def rangeEntriesRemove (es : List (Val × List Rid)) (v : Val) (r : Rid) :
    List (Val × List Rid) :=
  es.foldr
    (fun p acc =>
      if p.1 = v then
        (if (removeFirst p.2 r) = [] then acc else (p.1, removeFirst p.2 r) :: acc)
      else p :: acc) []
where
  removeFirst : List Rid → Rid → List Rid
    | [], _ => []
    | x :: t, r => if x = r then t else x :: removeFirst t r

/-- Index-name level lookup of a range index. -/
def rangeGetEntries (ri : RangeIdx) (idx : String) : List (Val × List Rid) :=
  match ri.find? (fun p => p.1 = idx) with
  | some p => p.2
  | Option.none => []

/-- Update the entry list of one index name. -/
def rangeSetEntries (ri : RangeIdx) (idx : String)
    (es : List (Val × List Rid)) : RangeIdx :=
  match ri with
  | [] => [(idx, es)]
  | p :: t => if p.1 = idx then (idx, es) :: t else p :: rangeSetEntries t idx es

/-- `RangeIndex.add` at the index level. -/
def rangeAdd (ri : RangeIdx) (idx : String) (v : Val) (r : Rid) :
    Except String RangeIdx :=
  (rangeEntriesAdd (rangeGetEntries ri idx) v r).map (rangeSetEntries ri idx)

/-- `RangeIndex.remove` at the index level. -/
def rangeRemove (ri : RangeIdx) (idx : String) (v : Val) (r : Rid) : RangeIdx :=
  rangeSetEntries ri idx (rangeEntriesRemove (rangeGetEntries ri idx) v r)

/-- A bound check against `irange`'s `minimum`/`maximum` with inclusivity
flags; `Option.none` bound means unbounded on that side. -/
def withinBounds (minB maxB : Option Val) (incMin incMax : Bool) (k : Val) :
    Option Bool :=
  match minB, maxB with
  | Option.none, Option.none => some true
  | some lo, Option.none =>
    (if incMin then valLe lo k else valLt lo k)
  | Option.none, some hi =>
    (if incMax then valLe k hi else valLt k hi)
  | some lo, some hi => do
    let a ← (if incMin then valLe lo k else valLt lo k)
    let b ← (if incMax then valLe k hi else valLt k hi)
    pure (a && b)

/-- A query bound that is Python `None` is no bound at all: `RangeIndex.query`
tests `gte is not None` etc., and `irange` treats a `None` minimum/maximum as
unbounded — so a NULL comparison value opens that side of the window. -/
def boundOf : Option Val → Option Val
  | some Val.none => Option.none
  | b => b

/-- `RangeIndex.query`: keys in the bound window in sorted order, lists
concatenated.  A `None` bound (either not given or a NULL comparison value)
leaves that side unbounded, as `irange` does.  Errors where `irange`'s
bisection would raise `TypeError` (a bound order-incompatible with a present
key). -/
def rangeQuery (ri : RangeIdx) (idx : String)
    (gt ge lt le : Option Val) : Except String (List Rid) :=
  let es := rangeGetEntries ri idx
  let minB := match boundOf ge with | some v => some v | Option.none => boundOf gt
  let maxB := match boundOf le with | some v => some v | Option.none => boundOf lt
  let incMin := (boundOf ge).isSome
  let incMax := (boundOf le).isSome
  let checks := es.map (fun p => withinBounds minB maxB incMin incMax p.1)
  if checks.all Option.isSome then
    Except.ok ((es.filter
      (fun p => withinBounds minB maxB incMin incMax p.1 = some true)).foldr
        (fun p acc => p.2 ++ acc) [])
  else
    Except.error "TypeError: unorderable range bound"

/-! ### Index manager maintenance (`IndexManager.on_insert/on_delete/on_update`)

The manager owns one hash and one range index; both live as fields of the
store below.  Errors carry the partially updated pair, since the source
mutates in place and an exception aborts its loop midway. -/

/-- The pair of index structures owned by `IndexManager`. -/
structure IdxMgr where
  hash : HashIdx
  range : RangeIdx
deriving DecidableEq, Repr

/-- `IndexManager.on_insert`: for every index of the table, add the record
under its current value of the indexed column, first to the hash index, then
to the range index (which can raise). -/
def on_insert (sch : Schema) (im : IdxMgr) (rec : Rec) (r : Rid) :
    IdxMgr × Option String :=
  go im (getIndexes sch)
where
  go (im : IdxMgr) : List (String × String) → IdxMgr × Option String
    | [] => (im, Option.none)
    | (idx, col) :: rest =>
      let v := recGet rec col
      let h2 := hashAdd im.hash idx v r
      match rangeAdd im.range idx v r with
      | Except.ok r2 => go { hash := h2, range := r2 } rest
      | Except.error e => ({ hash := h2, range := im.range }, some e)

/-- `IndexManager.on_delete`: remove the record from both indexes under its
current value of each indexed column (never raises). -/
def on_delete (sch : Schema) (im : IdxMgr) (rec : Rec) (r : Rid) : IdxMgr :=
  (getIndexes sch).foldl
    (fun im p =>
      let v := recGet rec p.2
      { hash := hashRemove im.hash p.1 v r
        range := rangeRemove im.range p.1 v r })
    im

/-- `IndexManager.on_update`: for every index whose column appears among the
deltas, move the record from the old value's buckets to the new value's, in
source order hash-remove, range-remove, hash-add, range-add. -/
def on_update (sch : Schema) (im : IdxMgr) (r : Rid)
    (values : List (String × Val × Val)) : IdxMgr × Option String :=
  go im (getIndexes sch)
where
  go (im : IdxMgr) : List (String × String) → IdxMgr × Option String
    | [] => (im, Option.none)
    | (idx, col) :: rest =>
      match values.find? (fun e => e.1 = col) with
      | Option.none => go im rest
      | some e =>
        let old := e.2.1
        let new := e.2.2
        let h2 := hashAdd (hashRemove im.hash idx old r) idx new r
        let r1 := rangeRemove im.range idx old r
        match rangeAdd r1 idx new r with
        | Except.ok r2 => go { hash := h2, range := r2 } rest
        | Except.error err => ({ hash := h2, range := r1 }, some err)

/-! ### Pending changes (`PendingChanges`) -/

/-- The per-transaction buffer, restricted to one table: `_to_add`,
`_to_delete`, `_to_update`, and `_modifications` (the latter keyed by object
identity, each entry holding per-field `[first old value, latest new value]`
pairs; the `"__instance"` slot of the source is the `Rid` key itself here). -/
structure Pending where
  toAdd : List Rid
  toDelete : List Rid
  toUpdate : List (Val × List (String × Val))
  mods : List (Rid × List (String × Val × Val))
deriving DecidableEq, Repr

/-- The empty buffer (`PendingChanges.__init__` / after `clear`). -/
def Pending.empty : Pending := ⟨[], [], [], []⟩

/-- `PendingChanges.dirty`. -/
def Pending.dirty (p : Pending) : Bool :=
  !(p.toAdd.isEmpty && p.toDelete.isEmpty && p.toUpdate.isEmpty && p.mods.isEmpty)

/-- Update one record's modification entries: set the latest new value if the
field is present, else append `[old, new]`. -/
def modsUpdateEntry (es : List (String × Val × Val)) (col : String)
    (old new : Val) : List (String × Val × Val) :=
  match es with
  | [] => [(col, old, new)]
  | e :: t =>
    if e.1 = col then (col, e.2.1, new) :: t
    else e :: modsUpdateEntry t col old new

/-- `PendingChanges.mark_field_as_dirty`: first mutation of a field records
`[old, new]`; later mutations only overwrite the new value. -/
def mark_field_as_dirty (p : Pending) (r : Rid) (col : String)
    (old new : Val) : Pending :=
  { p with mods := go p.mods }
where
  go : List (Rid × List (String × Val × Val)) →
      List (Rid × List (String × Val × Val))
    | [] => [(r, [(col, old, new)])]
    | e :: t =>
      if e.1 = r then (r, modsUpdateEntry e.2 col old new) :: t
      else e :: go t

/-! ### The store and the transaction-level state -/

/-- Association-list lookup for the primary-key map `data_by_pk`. -/
def byPkGet (m : List (Val × Rid)) (pk : Val) : Option Rid :=
  (m.find? (fun p => p.1 = pk)).map (fun p => p.2)

/-- Dict write `data_by_pk[pk] = obj` (overwrite in place, else append). -/
def byPkSet (m : List (Val × Rid)) (pk : Val) (r : Rid) : List (Val × Rid) :=
  match m with
  | [] => [(pk, r)]
  | p :: t => if p.1 = pk then (pk, r) :: t else p :: byPkSet t pk r

/-- Dict delete `del data_by_pk[pk]` (the key is checked by the caller). -/
def byPkDel (m : List (Val × Rid)) (pk : Val) : List (Val × Rid) :=
  m.filter (fun p => p.1 ≠ pk)

/-- `InMemoryStore`, restricted to one table: the live ordered record
sequence, the primary-key map, the index manager's two indexes, the
auto-increment counter and the pending-change buffer. -/
structure Store where
  data : List Rid
  byPk : List (Val × Rid)
  im : IdxMgr
  counter : Int
  pending : Pending
deriving DecidableEq, Repr

/-- Transaction-level execution state: the store, the shared mutable object
heap, the next fresh object identity (the role of Python object allocation),
and a ghost log of the primary-key values resolved by commits, each tagged
with whether it was auto-assigned.  The log is verification instrumentation
only: no source behaviour reads it. -/
structure ExecS where
  store : Store
  heap : Heap
  nextRid : Rid
  log : List (Bool × Val)
deriving DecidableEq, Repr

/-- The initial state: a fresh `InMemoryStore._reset`. -/
def ExecS.init : ExecS :=
  { store := { data := [], byPk := [], im := ⟨[], []⟩, counter := 0,
               pending := Pending.empty }
    heap := [], nextRid := 0, log := [] }

/-- Normalize a field list the way Python keyword arguments / dict literals
do: later bindings of the same key overwrite earlier ones. -/
def normFields (fields : List (String × Val)) : Rec :=
  fields.foldl (fun rec p => recSet rec p.1 p.2) []

/-- Session-level operations a transaction can buffer before `commit()`:
constructing a new mapped object and `add`ing it, re-`add`ing an existing
object, `delete`, a field-level `update`, and a direct in-place attribute
assignment (which fires `_track_field_change_listener`). -/
inductive Op where
  | newObj (fields : List (String × Val))
  | addExisting (r : Rid)
  | delete (r : Rid)
  | update (pk : Val) (data : List (String × Val))
  | setAttr (r : Rid) (f : String) (v : Val)
deriving DecidableEq, Repr

/-- Apply one session-level operation.  Operations naming an object identity
that was never allocated are no-ops: Python cannot name an object that does
not exist.  `setAttr` models an instrumented attribute assignment: the
attribute is set, and `_track_field_change_listener` records the change
unless the old value is `NO_VALUE` (the attribute was absent from the
object's `__dict__` — a first set of a never-initialized field goes
untracked, `store.py:231`) or the old and new values are equal
(`store.py:233`; constructor-time assignments are part of `newObj` and are
not tracked, as in the source). -/
def applyOp (s : ExecS) : Op → ExecS
  | Op.newObj fields =>
    { s with
      heap := heapSet s.heap s.nextRid (normFields fields)
      nextRid := s.nextRid + 1
      store := { s.store with
        pending := { s.store.pending with
          toAdd := s.store.pending.toAdd ++ [s.nextRid] } } }
  | Op.addExisting r =>
    if r < s.nextRid then
      { s with store := { s.store with
          pending := { s.store.pending with
            toAdd := s.store.pending.toAdd ++ [r] } } }
    else s
  | Op.delete r =>
    if r < s.nextRid then
      { s with store := { s.store with
          pending := { s.store.pending with
            toDelete := s.store.pending.toDelete ++ [r] } } }
    else s
  | Op.update pk data =>
    { s with store := { s.store with
        pending := { s.store.pending with
          toUpdate := s.store.pending.toUpdate ++ [(pk, normFields data)] } } }
  | Op.setAttr r f v =>
    if r < s.nextRid then
      let old := hGet s.heap r f
      let s2 := { s with heap := hSet s.heap r f v }
      if hHas s.heap r f = false then s2
      else if old = v then s2
      else
        { s2 with store := { s2.store with
            pending := mark_field_as_dirty s2.store.pending r f old v } }
    else s

/-! ### Commit (`InMemoryStore.commit`) -/

/-- The outcome of `commit()`: success, or a raised exception together with
the partially committed state the in-place mutation leaves behind. -/
inductive CommitResult where
  | ok (s : ExecS)
  | err (msg : String) (s : ExecS)
deriving DecidableEq, Repr

/-- The state a commit result carries (final on success, partial on a
raise). -/
def CommitResult.state : CommitResult → ExecS
  | CommitResult.ok s => s
  | CommitResult.err _ s => s

/-- `InMemoryStore.update_modified_items_indexes`: for every buffered
in-place modification whose old and new values differ, move the record's
index entries.  (The source also pops the `"__instance"` slot from each
entry; that is observable only through a rollback after a failed commit,
which no behaviour in scope performs, and is not modelled.) -/
def update_modified_items_indexes (sch : Schema) (s : ExecS) : CommitResult :=
  go s s.store.pending.mods
where
  go (s : ExecS) : List (Rid × List (String × Val × Val)) → CommitResult
    | [] => CommitResult.ok s
    | (r, entries) :: rest =>
      let values := entries.filter (fun e => e.2.1 ≠ e.2.2)
      if values.isEmpty then go s rest
      else
        match on_update sch s.store.im r values with
        | (im2, Option.none) =>
          go { s with store := { s.store with im := im2 } } rest
        | (im2, some e) =>
          CommitResult.err e { s with store := { s.store with im := im2 } }

/-- First-occurrence deduplication (standing in for Python's `set(...)` of
primary-key values; the deletions it drives commute, so only the error point
could depend on the set's iteration order). -/
def dedupFirst (l : List Val) : List Val :=
  go [] l
where
  go (seen : List Val) : List Val → List Val
    | [] => []
    | x :: t => if x ∈ seen then go seen t else x :: go (x :: seen) t

/-- The deletion phase of `commit()`: filter the live sequence by primary-key
value, delete the keys from the primary-key map (a missing key raises
`KeyError` after the live sequence was already reassigned), then update the
indexes from each deleted object's current attribute values. -/
def applyDeletes (sch : Schema) (s : ExecS) : CommitResult :=
  let objs := s.store.pending.toDelete
  if objs.isEmpty then CommitResult.ok s
  else
    let pkvals := dedupFirst (objs.map (fun o => hGet s.heap o sch.pkName))
    let data2 := s.store.data.filter
      (fun row => hGet s.heap row sch.pkName ∉ pkvals)
    delKeys { s with store := { s.store with data := data2 } } pkvals objs
where
  delKeys (s : ExecS) (pks : List Val) (objs : List Rid) : CommitResult :=
    match pks with
    | [] =>
      CommitResult.ok { s with store := { s.store with
        im := objs.foldl
          (fun im o => on_delete sch im (heapGet s.heap o) o) s.store.im } }
    | pk :: rest =>
      match byPkGet s.store.byPk pk with
      | Option.none => CommitResult.err "KeyError" s
      | some _ =>
        delKeys { s with store := { s.store with
          byPk := byPkDel s.store.byPk pk } } rest objs

/-- `InMemoryStore._assign_primary_key_if_needed`: auto-assign the next
counter value when the primary-key attribute is unset, otherwise keep the
explicit value and advance the counter to at least it (`max` raises
`TypeError` on a non-integer explicit key).  Returns the resolved value.
The ghost log records the resolution. -/
def assignPk (sch : Schema) (s : ExecS) (r : Rid) :
    Except String (Val × ExecS) :=
  let cur := hGet s.heap r sch.pkName
  if cur = Val.none then
    let c2 := s.store.counter + 1
    Except.ok (Val.int c2,
      { s with
        store := { s.store with counter := c2 }
        heap := hSet s.heap r sch.pkName (Val.int c2)
        log := s.log ++ [(true, Val.int c2)] })
  else
    match cur with
    | Val.int k =>
      Except.ok (cur,
        { s with
          store := { s.store with counter := max s.store.counter k }
          log := s.log ++ [(false, cur)] })
    | _ => Except.error "TypeError: unorderable max"

/-- `InMemoryStore._apply_column_defaults`, restricted to constant defaults:
fill each defaulted column that currently reads None. -/
def applyColumnDefaults (sch : Schema) (h : Heap) (r : Rid) : Heap :=
  sch.defaults.foldl
    (fun h p => if hGet h r p.1 = Val.none then hSet h r p.1 p.2 else h) h

/-- The insertion phase of `commit()`: per buffered object (deduplicated by
identity), resolve the primary key, reject a duplicate key value (fatal),
apply column defaults, append to the live sequence, register in the map and
insert into the indexes. -/
def applyAdds (sch : Schema) (s : ExecS) : CommitResult :=
  go s [] s.store.pending.toAdd
where
  go (s : ExecS) (added : List Rid) : List Rid → CommitResult
    | [] => CommitResult.ok s
    | r :: rest =>
      if r ∈ added then go s added rest
      else
        match assignPk sch s r with
        | Except.error e => CommitResult.err e s
        | Except.ok (pkv, s1) =>
          match byPkGet s1.store.byPk pkv with
          | some _ =>
            CommitResult.err "Cannot have duplicate PK value" s1
          | Option.none =>
            let s2 := { s1 with heap := applyColumnDefaults sch s1.heap r }
            let s3 := { s2 with store := { s2.store with
              data := s2.store.data ++ [r]
              byPk := byPkSet s2.store.byPk pkv r } }
            match on_insert sch s3.store.im (heapGet s3.heap r) r with
            | (im2, Option.none) =>
              go { s3 with store := { s3.store with im := im2 } }
                (r :: added) rest
            | (im2, some e) =>
              CommitResult.err e
                { s3 with store := { s3.store with im := im2 } }

/-- The update phase of `commit()`: locate each buffered update's record by
primary key (fatal if missing), capture old values, set the new ones, and
update the indexes with the deltas.  (The attribute assignments re-fire the
change listener in the source; the entries it adds are cleared at the end of
a successful commit and are observable only after a failed one, outside the
behaviour in scope, so they are not modelled.) -/
def applyUpdates (sch : Schema) (s : ExecS) : CommitResult :=
  go s s.store.pending.toUpdate
where
  go (s : ExecS) : List (Val × List (String × Val)) → CommitResult
    | [] => CommitResult.ok s
    | (pk, data) :: rest =>
      match byPkGet s.store.byPk pk with
      | Option.none => CommitResult.err "Could not find item with PK value" s
      | some item =>
        let values := data.map (fun p => (p.1, hGet s.heap item p.1, p.2))
        let heap2 := data.foldl (fun h p => hSet h item p.1 p.2) s.heap
        let s1 := { s with heap := heap2 }
        match on_update sch s1.store.im item values with
        | (im2, Option.none) =>
          go { s1 with store := { s1.store with im := im2 } } rest
        | (im2, some e) =>
          CommitResult.err e { s1 with store := { s1.store with im := im2 } }

/-- `InMemoryStore.commit`: index deltas for in-place modifications, then
deletions, then insertions, then updates, then clear the buffer.  A raised
exception aborts the sequence, leaving the partially committed state. -/
def commit (sch : Schema) (s : ExecS) : CommitResult :=
  match update_modified_items_indexes sch s with
  | CommitResult.err m s1 => CommitResult.err m s1
  | CommitResult.ok s1 =>
    match applyDeletes sch s1 with
    | CommitResult.err m s2 => CommitResult.err m s2
    | CommitResult.ok s2 =>
      match applyAdds sch s2 with
      | CommitResult.err m s3 => CommitResult.err m s3
      | CommitResult.ok s3 =>
        match applyUpdates sch s3 with
        | CommitResult.err m s4 => CommitResult.err m s4
        | CommitResult.ok s4 =>
          CommitResult.ok { s4 with store := { s4.store with
            pending := Pending.empty } }

/-- `InMemoryStore.rollback`: restore every in-place-modified field to its
recorded first old value, then discard the whole buffer.  (The restoring
assignments re-fire the change listener in the source, but the entries it
touches are cleared immediately after, so the net state is as modelled.) -/
def rollbackHeap (mods : List (Rid × List (String × Val × Val)))
    (h : Heap) : Heap :=
  mods.foldl (fun h e => e.2.foldl (fun h m => hSet h e.1 m.1 m.2.1) h) h

/-- `InMemoryStore.rollback`, continued: restore, then clear. -/
def rollback (s : ExecS) : ExecS :=
  { s with
    heap := rollbackHeap s.store.pending.mods s.heap
    store := { s.store with pending := Pending.empty } }

/-- Buffer a list of session operations. -/
def applyOps (s : ExecS) (ops : List Op) : ExecS :=
  ops.foldl applyOp s

/-- One transaction: buffer the operations, then `commit()`. -/
def runTxn (sch : Schema) (s : ExecS) (ops : List Op) : CommitResult :=
  commit sch (applyOps s ops)

/-- Run a sequence of transactions from a given state; `Option.none` as
soon as any commit raises. -/
def runFrom (sch : Schema) (s : ExecS) : List (List Op) → Option ExecS
  | [] => some s
  | ops :: rest =>
    match runTxn sch s ops with
    | CommitResult.ok s2 => runFrom sch s2 rest
    | CommitResult.err _ _ => Option.none

/-- Run a sequence of transactions from the fresh store. -/
def run (sch : Schema) (txns : List (List Op)) : Option ExecS :=
  runFrom sch ExecS.init txns

/-- Lookup of the recorded (first old, latest new) pair for one record's
field in a raw modification list. -/
def modsFind (mods : List (Rid × List (String × Val × Val))) (r : Rid)
    (f : String) : Option (Val × Val) :=
  match mods.find? (fun e => e.1 = r) with
  | Option.none => Option.none
  | some e => (e.2.find? (fun m => m.1 = f)).map (fun m => m.2)

/-- Lookup of the recorded (first old, latest new) pair for one record's
field in the modification buffer. -/
def modsLookup (p : Pending) (r : Rid) (f : String) : Option (Val × Val) :=
  modsFind p.mods r f

/-- The relation between a committed state `s0` (empty buffer) and the
state reached from it by buffering session operations: the store structures
are untouched, the heap agrees with the modification buffer (latest new
values in the heap; first old values the pre-transaction heap values for
fields that were present in the object's `__dict__` at the last commit —
a first set of a never-initialized field is untracked by the listener's
`NO_VALUE` guard, so nothing relates it to `s0`), attribute presence only
grows, every tracked field is present, and the buffer is well-formed.  This
is what `applyOps` guarantees and what `commit`/`rollback` rely on. -/
structure OpsInv (s0 s1 : ExecS) : Prop where
  data_eq : s1.store.data = s0.store.data
  byPk_eq : s1.store.byPk = s0.store.byPk
  im_eq : s1.store.im = s0.store.im
  counter_eq : s1.store.counter = s0.store.counter
  log_eq : s1.log = s0.log
  nextRid_le : s0.nextRid ≤ s1.nextRid
  heap_pres : ∀ r f, r < s0.nextRid → hHas s0.heap r f = true →
    modsLookup s1.store.pending r f = Option.none →
    hGet s1.heap r f = hGet s0.heap r f
  mods_new : ∀ r f old new,
    modsLookup s1.store.pending r f = some (old, new) → new = hGet s1.heap r f
  mods_old : ∀ r f old new, r < s0.nextRid → hHas s0.heap r f = true →
    modsLookup s1.store.pending r f = some (old, new) → old = hGet s0.heap r f
  has_mono : ∀ r f, r < s0.nextRid → hHas s0.heap r f = true →
    hHas s1.heap r f = true
  mods_has : ∀ e ∈ s1.store.pending.mods, ∀ m ∈ e.2,
    hHas s1.heap e.1 m.1 = true
  mods_rid_lt : ∀ e ∈ s1.store.pending.mods, e.1 < s1.nextRid
  mods_nodup : (s1.store.pending.mods.map (fun e => e.1)).Nodup
  modsF_nodup : ∀ e ∈ s1.store.pending.mods, (e.2.map (fun m => m.1)).Nodup
  toAdd_lt : ∀ r ∈ s1.store.pending.toAdd, r < s1.nextRid
  toDel_lt : ∀ r ∈ s1.store.pending.toDelete, r < s1.nextRid
  upd_nodup : ∀ e ∈ s1.store.pending.toUpdate, (e.2.map (fun m => m.1)).Nodup

/-! ### Predicate evaluation engine (`MemoryQuery`) -/

/-- The comparison operators of the leaf conditions the engine handles
(`sqlalchemy.sql.operators` members as they reach `_apply_binary_condition`;
`like` and the function-wrapped left-hand sides are outside the claims'
scope and are not modelled). -/
inductive Cop where
  | eq | ne | inOp | notinOp | gt | ge | lt | le
  | between | notBetween | isOp | isNot
deriving DecidableEq, Repr

/-- A resolved right-hand side (`_resolve_rhs` output): a scalar value or a
tuple of values. -/
inductive RVal where
  | v (x : Val)
  | tup (xs : List Val)
deriving DecidableEq, Repr

/-- Predicate-tree nodes as `_apply_condition` dispatches on them: a binary
comparison, an AND / OR clause list, a grouping wrapper, and the NOT wrapper
(a `UnaryExpression`, which the dispatch does not handle). -/
inductive Cond where
  | binary (col : String) (op : Cop) (value : RVal)
  | boolAnd (cs : List Cond)
  | boolOr (cs : List Cond)
  | grouping (c : Cond)
  | notNode (c : Cond)

/-- `IndexManager.query`: `Option.none` is the source's `None` ("no index
for this column / operator", telling the caller to fall back to a scan);
otherwise the result stream, whose consumption can raise through the range
index. -/
def imQuery (sch : Schema) (im : IdxMgr) (collection : List Rid)
    (col : String) (op : Cop) (value : RVal) (fullTable : Bool) :
    Option (Except String (List Rid)) :=
  match columnToIndex sch col with
  | Option.none => Option.none
  | some idx =>
    match op, value with
    | Cop.eq, RVal.v v =>
      let result := hashQuery im.hash idx v
      some (Except.ok
        (if fullTable then result else collection.filter (fun i => i ∈ result)))
    | Cop.ne, RVal.v v =>
      let excluded := hashQuery im.hash idx v
      some (Except.ok (collection.filter (fun i => i ∉ excluded)))
    | Cop.inOp, RVal.tup vs =>
      let result := vs.flatMap (fun v => hashQuery im.hash idx v)
      some (Except.ok
        (if fullTable then result else collection.filter (fun i => i ∈ result)))
    | Cop.notinOp, RVal.tup vs =>
      let excluded := vs.flatMap (fun v => hashQuery im.hash idx v)
      some (Except.ok (collection.filter (fun i => i ∉ excluded)))
    | Cop.gt, RVal.v v =>
      some ((rangeQuery im.range idx (some v) Option.none Option.none
        Option.none).map (fun result =>
          if fullTable then result else collection.filter (fun i => i ∈ result)))
    | Cop.ge, RVal.v v =>
      some ((rangeQuery im.range idx Option.none (some v) Option.none
        Option.none).map (fun result =>
          if fullTable then result else collection.filter (fun i => i ∈ result)))
    | Cop.lt, RVal.v v =>
      some ((rangeQuery im.range idx Option.none Option.none (some v)
        Option.none).map (fun result =>
          if fullTable then result else collection.filter (fun i => i ∈ result)))
    | Cop.le, RVal.v v =>
      some ((rangeQuery im.range idx Option.none Option.none Option.none
        (some v)).map (fun result =>
          if fullTable then result else collection.filter (fun i => i ∈ result)))
    | Cop.between, RVal.tup [a, b] =>
      some ((rangeQuery im.range idx Option.none (some a) Option.none
        (some b)).map (fun result =>
          if fullTable then result else collection.filter (fun i => i ∈ result)))
    | Cop.notBetween, RVal.tup [a, b] =>
      some ((rangeQuery im.range idx Option.none (some a) Option.none
        (some b)).map (fun inRange =>
          collection.filter (fun i => i ∉ inRange)))
    | _, _ => Option.none

/-- `IndexManager.get_selectivity`, with Python's float arithmetic carried
out exactly in `ℚ` (the value only ever feeds an order comparison).  The
fall-through division raises `ZeroDivisionError` when the hash index exists
for the column but currently holds no keys. -/
def get_selectivity (sch : Schema) (im : IdxMgr) (col : String) (op : Cop)
    (value : RVal) (total : Nat) : Except String Rat :=
  match columnToIndex sch col with
  | Option.none => Except.ok total
  | some idx =>
    match im.hash.find? (fun p => p.1 = idx) with
    | Option.none => Except.ok total
    | some entry =>
      let buckets := entry.2
      match op, value with
      | Cop.eq, RVal.v v => Except.ok (bucketsGet buckets v).length
      | Cop.eq, RVal.tup _ => Except.ok 0
      | Cop.ne, RVal.v v =>
        Except.ok ((total : Rat) - (bucketsGet buckets v).length)
      | Cop.ne, RVal.tup _ => Except.ok total
      | Cop.inOp, RVal.tup vs =>
        Except.ok ((vs.map (fun v => (bucketsGet buckets v).length)).sum : Nat)
      | Cop.inOp, RVal.v _ => Except.error "TypeError: not iterable"
      | Cop.notinOp, RVal.tup vs =>
        Except.ok ((total : Rat) -
          ((vs.map (fun v => (bucketsGet buckets v).length)).sum : Nat))
      | Cop.notinOp, RVal.v _ => Except.error "TypeError: not iterable"
      | _, _ =>
        if buckets.length = 0 then Except.error "ZeroDivisionError"
        else Except.ok ((total : Rat) / (buckets.length : Rat))

/-- `MemoryQuery._get_condition_selectivity`: non-binary conditions rank as
the worst case; binary ones ask the index manager. -/
def condSelectivity (sch : Schema) (st : Store) (c : Cond) :
    Except String Rat :=
  let total := st.data.length
  match c with
  | Cond.binary col op value => get_selectivity sch st.im col op value total
  | _ => Except.ok total

/-- Python operator application `op(x, value)` (including the
`OPERATOR_ADAPTERS` closures) on the fallback path: the Boolean outcome, or
the `TypeError`/`IndexError` Python would raise on that argument pair.
Chained bound checks short-circuit exactly as `bounds[0] <= x <= bounds[1]`
does. -/
def pyOpEval (op : Cop) (x : Val) (value : RVal) : Except String Bool :=
  match op, value with
  | Cop.eq, RVal.v v => Except.ok (x = v)
  | Cop.eq, RVal.tup _ => Except.ok false
  | Cop.ne, RVal.v v => Except.ok (x ≠ v)
  | Cop.ne, RVal.tup _ => Except.ok true
  | Cop.lt, RVal.v v => cmpTo (valCmp x v) (fun o => o = Ordering.lt)
  | Cop.le, RVal.v v => cmpTo (valCmp x v) (fun o => o ≠ Ordering.gt)
  | Cop.gt, RVal.v v => cmpTo (valCmp x v) (fun o => o = Ordering.gt)
  | Cop.ge, RVal.v v => cmpTo (valCmp x v) (fun o => o ≠ Ordering.lt)
  | Cop.lt, RVal.tup _ => Except.error "TypeError: unorderable"
  | Cop.le, RVal.tup _ => Except.error "TypeError: unorderable"
  | Cop.gt, RVal.tup _ => Except.error "TypeError: unorderable"
  | Cop.ge, RVal.tup _ => Except.error "TypeError: unorderable"
  | Cop.inOp, RVal.tup vs => Except.ok (x ∈ vs)
  | Cop.inOp, RVal.v _ => Except.error "TypeError: not iterable"
  | Cop.notinOp, RVal.tup vs => Except.ok (x ∉ vs)
  | Cop.notinOp, RVal.v _ => Except.error "TypeError: not iterable"
  | Cop.between, RVal.tup (a :: b :: _) => chainLe a x b
  | Cop.between, _ => Except.error "TypeError: not subscriptable"
  | Cop.notBetween, RVal.tup (a :: b :: _) => (chainLe a x b).map (fun r => !r)
  | Cop.notBetween, _ => Except.error "TypeError: not subscriptable"
  | Cop.isOp, RVal.v v => Except.ok (x = v)
  | Cop.isOp, RVal.tup _ => Except.ok false
  | Cop.isNot, RVal.v v => Except.ok (x ≠ v)
  | Cop.isNot, RVal.tup _ => Except.ok true
where
  cmpTo (c : Option Ordering) (f : Ordering → Bool) : Except String Bool :=
    match c with
    | some o => Except.ok (f o)
    | Option.none => Except.error "TypeError: unorderable"
  chainLe (a x b : Val) : Except String Bool :=
    match valLe a x with
    | Option.none => Except.error "TypeError: unorderable"
    | some false => Except.ok false
    | some true =>
      match valLe x b with
      | Option.none => Except.error "TypeError: unorderable"
      | some r => Except.ok r

/-- Effectful map over a list in order, stopping at the first raised error
(the semantics of a Python list construction from a raising function). -/
def mapE {α β : Type} (f : α → Except String β) : List α → Except String (List β)
  | [] => Except.ok []
  | a :: t => do
    let b ← f a
    let bs ← mapE f t
    pure (b :: bs)

/-- Filter a stream by a fallible Python predicate, propagating the first
raised error (the generator yields passing items until the raise; the
materialized result either way is this). -/
def filterE (p : Rid → Except String Bool) : List Rid → Except String (List Rid)
  | [] => Except.ok []
  | x :: t => do
    let b ← p x
    let r ← filterE p t
    pure (if b then x :: r else r)

/-- `MemoryQuery._apply_binary_condition`: consult the index first, fall
back to a per-candidate scan when the index manager returns `None`.

The full-table flag is forwarded to `IndexManager.query` here as the call
site `query.py:198` intends; the source as given drops it (`store.py:205`
defines `query_index` without the `collection_is_full_table` parameter that
the call passes), so the literal code raises `TypeError` on every leaf
condition — recorded against claim C2 as a code bug; the model follows the
evident intent, without which none of the repository's own WHERE-clause
tests can run. -/
def applyBinaryCondition (sch : Schema) (st : Store) (heap : Heap)
    (col : String) (op : Cop) (value : RVal) (stream : List Rid)
    (isFirst : Bool) : Except String (List Rid) :=
  match imQuery sch st.im stream col op value isFirst with
  | some r => r
  | Option.none => filterE (fun item => pyOpEval op (hGet heap item col) value) stream

/-- `helpers.utils._dedup_chain` over already-chained streams: yield each
item the first time it is seen. -/
def dedupFirstSeen (seen : List Rid) : List Rid → List Rid
  | [] => []
  | x :: t =>
    if x ∈ seen then dedupFirstSeen seen t
    else x :: dedupFirstSeen (x :: seen) t

/-- `_dedup_chain(*streams)`: chain the streams and deduplicate. -/
def dedupChain (ls : List (List Rid)) : List Rid :=
  dedupFirstSeen [] ls.flatten

mutual

/-- `MemoryQuery._apply_condition`: unwrap groupings (losing the full-table
flag, as the source's recursive call does), dispatch binary comparisons and
AND/OR clause lists, and raise `NotImplementedError` on anything else — in
particular on a NOT (`UnaryExpression`) node. -/
def applyCondition (sch : Schema) (st : Store) (heap : Heap) :
    Cond → List Rid → Bool → Except String (List Rid)
  | Cond.grouping c, stream, _ => applyCondition sch st heap c stream false
  | Cond.binary col op value, stream, isFirst =>
    applyBinaryCondition sch st heap col op value stream isFirst
  | Cond.boolAnd cs, stream, _ => applyCondsSeq sch st heap cs stream
  | Cond.boolOr cs, stream, _ =>
    (applyCondsSame sch st heap cs stream).map dedupChain
  | Cond.notNode _, _, _ =>
    Except.error "NotImplementedError: Unsupported condition type"

/-- AND clause list: apply the sub-conditions sequentially to the narrowing
stream. -/
def applyCondsSeq (sch : Schema) (st : Store) (heap : Heap) :
    List Cond → List Rid → Except String (List Rid)
  | [], stream => Except.ok stream
  | c :: rest, stream => do
    let s2 ← applyCondition sch st heap c stream false
    applyCondsSeq sch st heap rest s2

/-- OR clause list: apply every sub-condition to the same starting stream
(the source tees the stream), collecting the branch results in order. -/
def applyCondsSame (sch : Schema) (st : Store) (heap : Heap) :
    List Cond → List Rid → Except String (List (List Rid))
  | [], _ => Except.ok []
  | c :: rest, stream => do
    let r ← applyCondition sch st heap c stream false
    let rs ← applyCondsSame sch st heap rest stream
    pure (r :: rs)

end

/-- Total order on values used to model Python's stable `sorted`: None
before ints before strings.  Python raises on the mixed-type comparisons;
the theorems about ordering therefore hypothesize order-compatible keys, on
which this total order and Python agree. -/
def valLeB : Val → Val → Bool
  | Val.none, _ => true
  | Val.int _, Val.none => false
  | Val.int a, Val.int b => a ≤ b
  | Val.int _, Val.str _ => true
  | Val.str _, Val.none => false
  | Val.str _, Val.int _ => false
  | Val.str a, Val.str b => a ≤ b

/-- Stable insertion into a sorted list: a later element is inserted after
the equal elements already present. -/
def pyInsert (le : α → α → Bool) (a : α) : List α → List α
  | [] => [a]
  | b :: t => if le a b then a :: b :: t else b :: pyInsert le a t

/-- Model of Python's stable `sorted`: insertion sort processing the list
from the right, so each element is placed before the elements equal to it
that originally came later. -/
def pySorted (le : α → α → Bool) : List α → List α
  | [] => []
  | a :: t => pyInsert le a (pySorted le t)

/-- One `sorted(stream, key=..., reverse=...)` pass of the order-by loop as
a Boolean relation on records. -/
def obRel (heap : Heap) (col : String) (desc : Bool) (x y : Rid) : Bool :=
  if desc then valLeB (hGet heap y col) (hGet heap x col)
  else valLeB (hGet heap x col) (hGet heap y col)

/-- The order-by loop of `_execute_query`: one stable sort pass per order-by
clause, iterating the clauses in reverse declaration order. -/
def sortPasses (heap : Heap) (obys : List (String × Bool)) (l : List Rid) :
    List Rid :=
  obys.reverse.foldl (fun l p => pySorted (obRel heap p.1 p.2) l) l

/-- The lexicographic order on records induced by the declared order-by
list: the first-declared key dominates, each key compared ascending or
descending per its clause. -/
def lexLe (heap : Heap) : List (String × Bool) → Rid → Rid → Prop
  | [], _, _ => True
  | k :: rest, x, y =>
    (obRel heap k.1 k.2 x y ∧ ¬ obRel heap k.1 k.2 y x) ∨
      (obRel heap k.1 k.2 x y ∧ obRel heap k.1 k.2 y x ∧ lexLe heap rest x y)

/-- What the integration layer hands the engine for one query: predicate
tree roots (`_where_criteria`), the order-by list as (column, descending)
pairs, and offset/limit. -/
structure QuerySpec where
  conds : List Cond
  orderBy : List (String × Bool)
  offset : Option Nat
  limit : Option Nat

/-- The top-level condition loop of `_execute_query`: the first condition is
applied with the full-table flag, the rest without. -/
def applyCondsTop (sch : Schema) (st : Store) (heap : Heap) :
    List Cond → List Rid → Except String (List Rid)
  | [], stream => Except.ok stream
  | c :: rest, stream => do
    let s1 ← applyCondition sch st heap c stream true
    applyCondsSeq sch st heap rest s1

/-- `MemoryQuery._execute_query`: sort the conditions by estimated
selectivity (computing the keys can raise), apply them in that order, apply
the order-by passes in reverse declaration order, then offset/limit.  The
source's `if not stream:` guard tests an iterator object and is always
false; it is dead code and not modelled. -/
def executeQuery (sch : Schema) (st : Store) (heap : Heap) (q : QuerySpec) :
    Except String (List Rid) :=
  match mapE (condSelectivity sch st) q.conds with
  | Except.error e => Except.error e
  | Except.ok keys =>
    match applyCondsTop sch st heap
        ((pySorted (fun a b => a.2 ≤ b.2) (q.conds.zip keys)).map
          (fun p => p.1)) st.data with
    | Except.error e => Except.error e
    | Except.ok filtered =>
      let ordered := sortPasses heap q.orderBy filtered
      let start := q.offset.getD 0
      Except.ok
        (if q.limit.getD 0 ≠ 0 || q.offset.getD 0 ≠ 0 then
          match q.limit with
          | some m =>
            if m ≠ 0 then (ordered.drop start).take m else ordered.drop start
          | Option.none => ordered.drop start
        else ordered)

/-- A condition acts on every candidate stream (without the full-table
flag) as the pure per-record filter `p`.  This is how index-backed and
fallback leaf conditions behave on coherent states. -/
def FilterLike (sch : Schema) (st : Store) (heap : Heap) (c : Cond)
    (p : Rid → Bool) : Prop :=
  ∀ stream, applyCondition sch st heap c stream false =
    Except.ok (stream.filter p)

/-- A condition applied first (with the full-table flag) to the live data
yields some permutation of the filtered live data — index shortcuts return
the matching records in bucket order rather than data order. -/
def FirstLike (sch : Schema) (st : Store) (heap : Heap) (c : Cond)
    (p : Rid → Bool) : Prop :=
  ∃ out, applyCondition sch st heap c st.data true = Except.ok out ∧
    out.Perm (st.data.filter p)

/-- The value(s) a comparison's right-hand side compares against. -/
def comparedVals : RVal → List Val
  | RVal.v x => [x]
  | RVal.tup xs => xs

/-! ### Concrete states used by counterexamples and witnesses -/

/-- A small schema: integer primary key `id`, a declared index on `cat`. -/
def schX : Schema := ⟨"id", [("cat", "cat")], []⟩

/-- Trace: one commit inserting two records with distinct `cat` values. -/
def txnsX : List (List Op) :=
  [[Op.newObj [("name", Val.str "foo"), ("cat", Val.str "A")],
    Op.newObj [("name", Val.str "bar"), ("cat", Val.str "B")]]]

/-- The committed state of `txnsX`. -/
def stateX : ExecS := (run schX txnsX).getD ExecS.init

/-- Trace: one commit inserting a single record whose indexed `cat` column
is unset, i.e. NULL. -/
def txnsNull : List (List Op) := [[Op.newObj [("name", Val.str "x")]]]

/-- The committed state of `txnsNull`: one live record, `cat` = NULL. -/
def stateNull : ExecS := (run schX txnsNull).getD ExecS.init

/-- Trace for the stale-bucket counterexample: insert a record without its
indexed `cat` column (committed into the NULL bucket), then give `cat` its
first in-place value in a later transaction.  The first set is untracked
(the listener's `NO_VALUE` guard), so the commit moves nothing. -/
def txnsStale : List (List Op) :=
  [[Op.newObj [("name", Val.str "x")]],
   [Op.setAttr 0 "cat" (Val.str "B")]]

/-- The committed state of `txnsStale`: record 0 is live with `cat = 'B'`
but still sits in the NULL bucket of the `cat` index. -/
def stateStale : ExecS := (run schX txnsStale).getD ExecS.init

/-- Trace for the order-dependence counterexample: insert a record, delete
it and commit, then mutate its still-present `cat` attribute in place; the
next commit re-indexes the dead record into the `cat = 'B'` bucket. -/
def txnsDead : List (List Op) :=
  [[Op.newObj [("name", Val.str "x"), ("cat", Val.str "A")]],
   [Op.delete 0],
   [Op.setAttr 0 "cat" (Val.str "B")]]

/-- The committed state of `txnsDead`: no live records, but record 0 sits
in the `cat = 'B'` hash bucket. -/
def stateDead : ExecS := (run schX txnsDead).getD ExecS.init

/-- An indexed equality condition on `cat`, used by the order-dependence
counterexample. -/
def condCatB : Cond := Cond.binary "cat" Cop.eq (RVal.v (Val.str "B"))

/-- An unindexed equality condition on `name`, used by the order-dependence
counterexample. -/
def condNameX : Cond := Cond.binary "name" Cop.eq (RVal.v (Val.str "x"))

/-- An unindexed equality condition on `name`, used by witnesses. -/
def condNameEq : Cond := Cond.binary "name" Cop.eq (RVal.v (Val.str "foo"))

/-- An unindexed inequality condition on `name`, used by witnesses. -/
def condNameNe : Cond := Cond.binary "name" Cop.ne (RVal.v (Val.str "bar"))

/-- The per-condition predicates matching `condNameEq`/`condNameNe` on
`stateX`. -/
def predsX : Cond → Rid → Bool
  | Cond.binary _ Cop.eq _ => fun r => hGet stateX.heap r "name" = Val.str "foo"
  | _ => fun r => hGet stateX.heap r "name" ≠ Val.str "bar"

/-- The primary-key resolution invariants tracked by the ghost log: every
logged key value is at most the table counter, every auto-assigned key
strictly exceeds every earlier logged key, and every logged key is an
integer. -/
def PkInv (s : ExecS) : Prop :=
  (∀ e ∈ s.log, ∀ k, e.2 = Val.int k → k ≤ s.store.counter) ∧
  s.log.Pairwise (fun a b => b.1 = true → ∀ ka kb, a.2 = Val.int ka →
    b.2 = Val.int kb → ka < kb) ∧
  (∀ e ∈ s.log, ∃ k, e.2 = Val.int k)

/-- Trace exercising the auto-increment counter: an explicit key 5, an
auto-assigned key, a delete, then another auto-assigned key (which must not
reuse the deleted one). -/
def txnsC5 : List (List Op) :=
  [[Op.newObj [("id", Val.int 5)]],
   [Op.newObj []],
   [Op.delete 0],
   [Op.newObj []]]

/-- The committed state of `txnsC5`. -/
def stateC5 : ExecS := (run schX txnsC5).getD ExecS.init

/-- A transaction over `stateX` whose last buffered insert carries the
explicit primary key 1, which the live record 0 already holds: delete
record 1, insert a fresh record, then insert the duplicate. -/
def opsC3 : List Op :=
  [Op.delete 1, Op.newObj [("cat", Val.str "C")],
   Op.newObj [("id", Val.int 1), ("cat", Val.str "D")]]

/-- `stateX` with `opsC3` buffered, not yet committed. -/
def sC3 : ExecS := applyOps stateX opsC3

/-- The state after the modification-index phase of committing `sC3`. -/
def s1C3 : ExecS := (update_modified_items_indexes schX sC3).state

/-- The state after the deletion phase: record 1 is gone from the live
sequence, the primary-key map and the indexes. -/
def s2C3 : ExecS := (applyDeletes schX s1C3).state

/-- The state after the insertion phase has fully applied the first buffered
insert (record 2): it is live, registered and indexed. -/
def spC3 : ExecS := (applyAdds.go schX s2C3 [] [2]).state

/-- The state after primary-key resolution of the duplicate insert
(record 3): its explicit key 1 has been logged and the counter advanced. -/
def sp1C3 : ExecS :=
  match assignPk schX spC3 3 with
  | Except.ok (_, s1) => s1
  | Except.error _ => spC3

/-- Index/data coherence of a state: every live record sits in the hash
bucket of its current value of every indexed column; every hash-bucket entry
(live or not — in-place mutation of detached objects can index dead records)
carries the record's current column value; every hash entry is mirrored in
the range index under the same key; the range keys of each index are
pairwise order-compatible and duplicate-free; the hash bucket keys of each
index are duplicate-free; every indexed or live record identity was
allocated; and every bucketed record has the indexed column present in its
`__dict__` (so later in-place sets of it are tracked). -/
structure Coh (sch : Schema) (s : ExecS) : Prop where
  live_in : ∀ p ∈ getIndexes sch, ∀ r ∈ s.store.data,
    r ∈ hashQuery s.store.im.hash p.1 (hGet s.heap r p.2)
  mem_val : ∀ p ∈ getIndexes sch, ∀ v r,
    r ∈ hashQuery s.store.im.hash p.1 v → hGet s.heap r p.2 = v
  hash_range : ∀ p ∈ getIndexes sch, ∀ v r,
    r ∈ hashQuery s.store.im.hash p.1 v →
    r ∈ bucketsGet (rangeGetEntries s.store.im.range p.1) v
  range_comp : ∀ p ∈ getIndexes sch,
    ((rangeGetEntries s.store.im.range p.1).map Prod.fst).Pairwise
      (fun a b => valComparable a b = true)
  range_nodup : ∀ p ∈ getIndexes sch,
    ((rangeGetEntries s.store.im.range p.1).map Prod.fst).Nodup
  keys_nodup : ∀ idx, ((hashGetBuckets s.store.im.hash idx).map Prod.fst).Nodup
  mem_lt : ∀ p ∈ getIndexes sch, ∀ v r,
    r ∈ hashQuery s.store.im.hash p.1 v → r < s.nextRid
  data_lt : ∀ r ∈ s.store.data, r < s.nextRid
  byPk_lt : ∀ e ∈ s.store.byPk, e.2 < s.nextRid
  mem_has : ∀ p ∈ getIndexes sch, ∀ v r,
    r ∈ hashQuery s.store.im.hash p.1 v → hHas s.heap r p.2 = true

/-- Whether one session operation keeps every allocated record's declared
index columns present in its `__dict__`: a constructed object must name
every indexed column other than the primary key (which primary-key
resolution sets during its insert).  An object built with an indexed column
missing is inserted into that index's NULL bucket, and a later first set of
the column is untracked (`NO_VALUE` guard), leaving the entry stale. -/
def opInitializes (sch : Schema) : Op → Bool
  | Op.newObj fields =>
    (getIndexes sch).all (fun p =>
      p.2 = sch.pkName || (fields.map Prod.fst).contains p.2)
  | _ => true

/-- The trace-side hypothesis of the index/data-agreement claim: every
constructed object initializes every non-primary-key indexed column. -/
def txnsInitialize (sch : Schema) (txns : List (List Op)) : Bool :=
  txns.all (fun ops => ops.all (opInitializes sch))

/-- Every allocated record has every non-primary-key indexed column present
in its `__dict__` (maintained by `opInitializes` traces; presence only
grows). -/
def AllocPresent (sch : Schema) (s : ExecS) : Prop :=
  ∀ r, r < s.nextRid → ∀ p ∈ getIndexes sch, p.2 ≠ sch.pkName →
    hHas s.heap r p.2 = true

/-- The hash-bucket value a record is expected to be filed under while the
modification entries `l` are still unprocessed: the recorded first old value
if `l` has an entry for the field, the current heap value otherwise. -/
def expVal (l : List (Rid × List (String × Val × Val))) (hp : Heap)
    (r : Rid) (col : String) : Val :=
  match modsFind l r col with
  | some m => m.1
  | Option.none => hGet hp r col

/-! ### Theorems -/

/-- Reading back a field just written. -/
theorem recGet_recSet_same (rec : Rec) (f : String) (v : Val) :
    recGet (recSet rec f v) f = v := by
  induction rec with
  | nil => simp [recSet, recGet, List.find?]
  | cons p t ih =>
    by_cases h : p.1 = f
    · simp [recSet, recGet, List.find?, h]
    · simpa [recSet, recGet, List.find?, h] using ih

/-- Writing one field leaves the others unchanged. -/
theorem recGet_recSet_other (rec : Rec) (f f' : String) (v : Val)
    (h : f' ≠ f) : recGet (recSet rec f v) f' = recGet rec f' := by
  induction rec with
  | nil => simp [recSet, recGet, List.find?, Ne.symm h]
  | cons p t ih =>
    by_cases hp : p.1 = f
    · simp [recSet, recGet, List.find?, hp, Ne.symm h]
    · by_cases hp' : p.1 = f'
      · simp [recSet, recGet, List.find?, hp, hp', h]
      · simpa [recSet, recGet, List.find?, hp, hp', h] using ih

/-- Reading back a record just stored. -/
theorem heapGet_heapSet_same (h : Heap) (r : Rid) (rec : Rec) :
    heapGet (heapSet h r rec) r = rec := by
  induction h with
  | nil => simp [heapSet, heapGet, List.find?]
  | cons p t ih =>
    by_cases hp : p.1 = r
    · simp [heapSet, heapGet, List.find?, hp]
    · simpa [heapSet, heapGet, List.find?, hp] using ih

/-- Storing one record leaves the others unchanged. -/
theorem heapGet_heapSet_other (h : Heap) (r r' : Rid) (rec : Rec)
    (hne : r' ≠ r) : heapGet (heapSet h r rec) r' = heapGet h r' := by
  induction h with
  | nil => simp [heapSet, heapGet, List.find?, Ne.symm hne]
  | cons p t ih =>
    by_cases hp : p.1 = r
    · simp [heapSet, heapGet, List.find?, hp, Ne.symm hne]
    · by_cases hp' : p.1 = r'
      · simp [heapSet, heapGet, List.find?, hp, hp', hne]
      · simpa [heapSet, heapGet, List.find?, hp, hp', hne] using ih

/-- Reading back an attribute just assigned. -/
theorem hGet_hSet_same (h : Heap) (r : Rid) (f : String) (v : Val) :
    hGet (hSet h r f v) r f = v := by
  unfold hGet hSet
  rw [heapGet_heapSet_same, recGet_recSet_same]

/-- Assigning one attribute leaves everything else unchanged. -/
theorem hGet_hSet_other (h : Heap) (r r' : Rid) (f f' : String) (v : Val)
    (hne : r' ≠ r ∨ f' ≠ f) : hGet (hSet h r f v) r' f' = hGet h r' f' := by
  unfold hGet hSet
  by_cases hr : r' = r
  · subst hr
    rcases hne with hc | hf
    · exact absurd rfl hc
    · rw [heapGet_heapSet_same, recGet_recSet_other _ _ _ _ hf]
  · rw [heapGet_heapSet_other _ _ _ _ hr]

/-- The per-field update of a modification entry list, looked up at the
updated field: the first old value is kept, the new value replaced. -/
theorem find_modsUpdateEntry_same (es : List (String × Val × Val))
    (col : String) (old new : Val) :
    (modsUpdateEntry es col old new).find? (fun m => m.1 = col) =
      some (col,
        (match es.find? (fun m => m.1 = col) with
          | some m => m.2.1
          | Option.none => old), new) := by
  induction es with
  | nil => simp [modsUpdateEntry, List.find?]
  | cons e t ih =>
    by_cases h : e.1 = col
    · simp [modsUpdateEntry, List.find?, h]
    · simpa [modsUpdateEntry, List.find?, h] using ih

/-- The per-field update leaves other fields' entries unchanged. -/
theorem find_modsUpdateEntry_other (es : List (String × Val × Val))
    (col : String) (old new : Val) (f' : String) (h : f' ≠ col) :
    (modsUpdateEntry es col old new).find? (fun m => m.1 = f') =
      es.find? (fun m => m.1 = f') := by
  induction es with
  | nil => simp [modsUpdateEntry, List.find?, Ne.symm h]
  | cons e t ih =>
    by_cases he : e.1 = col
    · simp [modsUpdateEntry, List.find?, he, Ne.symm h]
    · by_cases he' : e.1 = f'
      · simp [modsUpdateEntry, List.find?, he, he', h]
      · simpa [modsUpdateEntry, List.find?, he, he', h] using ih

/-- The field keys of an updated entry list: unchanged when the field was
present, appended otherwise. -/
theorem map_fst_modsUpdateEntry (es : List (String × Val × Val))
    (col : String) (old new : Val) :
    (modsUpdateEntry es col old new).map (fun m => m.1) =
      (if (es.find? (fun m => m.1 = col)).isSome then es.map (fun m => m.1)
       else es.map (fun m => m.1) ++ [col]) := by
  induction es with
  | nil => simp [modsUpdateEntry, List.find?]
  | cons e t ih =>
    by_cases h : e.1 = col
    · simp [modsUpdateEntry, List.find?, h]
    · simp only [modsUpdateEntry, if_neg h, List.map_cons]
      rw [List.find?_cons_of_neg _ (by simp [h]), ih]
      by_cases hs : (t.find? (fun m => m.1 = col)).isSome <;> simp [hs]

/-- Marking a field dirty, looked up at that record and field on the raw
modification list: the first old value wins, the latest new value is
stored. -/
theorem modsFind_mark_same (r : Rid) (col : String) (old new : Val)
    (mods : List (Rid × List (String × Val × Val))) :
    modsFind (mark_field_as_dirty.go r col old new mods) r col =
      some ((match modsFind mods r col with
        | some m => m.1
        | Option.none => old), new) := by
  induction mods with
  | nil => simp [modsFind, mark_field_as_dirty.go, List.find?]
  | cons e t ih =>
    by_cases h : e.1 = r
    · simp only [mark_field_as_dirty.go, if_pos h, modsFind, List.find?, h,
        decide_true_eq_true, find_modsUpdateEntry_same]
      cases hf : e.2.find? (fun m => m.1 = col) <;> simp [hf]
    · simp only [mark_field_as_dirty.go, if_neg h, modsFind, List.find?]
      rw [show (decide (e.1 = r)) = false from decide_eq_false h]
      exact ih

/-- Marking a field dirty leaves other records' and fields' entries of the
raw modification list unchanged. -/
theorem modsFind_mark_other (r : Rid) (col : String) (old new : Val)
    (r' : Rid) (f' : String) (h : r' ≠ r ∨ f' ≠ col)
    (mods : List (Rid × List (String × Val × Val))) :
    modsFind (mark_field_as_dirty.go r col old new mods) r' f' =
      modsFind mods r' f' := by
  induction mods with
  | nil =>
    rcases h with hr | hf
    · simp [modsFind, mark_field_as_dirty.go, List.find?,
        decide_eq_false (fun hc : r = r' => hr hc.symm)]
    · by_cases hr : r = r'
      · simp [modsFind, mark_field_as_dirty.go, List.find?, hr, List.find?,
          decide_eq_false (fun hc : col = f' => hf hc.symm)]
      · simp [modsFind, mark_field_as_dirty.go, List.find?,
          decide_eq_false hr]
  | cons e t ih =>
    by_cases he : e.1 = r
    · simp only [mark_field_as_dirty.go, if_pos he, modsFind, List.find?]
      by_cases hr : e.1 = r'
      · rcases h with hc | hf
        · exact absurd (hr.symm.trans he) hc
        · rw [show (decide (r = r')) = true by
            rw [← he, hr]; exact decide_eq_true rfl]
          rw [show (decide (e.1 = r')) = true from decide_eq_true hr]
          simp [find_modsUpdateEntry_other _ _ _ _ _ hf]
      · rw [show (decide (r = r')) = false from
          decide_eq_false (fun hc => hr (he.trans hc))]
        rw [show (decide (e.1 = r')) = false from decide_eq_false hr]
    · simp only [mark_field_as_dirty.go, if_neg he, modsFind, List.find?]
      by_cases hr : e.1 = r'
      · rw [show (decide (e.1 = r')) = true from decide_eq_true hr]
      · rw [show (decide (e.1 = r')) = false from decide_eq_false hr]
        exact ih

/-- Storing a whole record leaves other records' attributes unchanged. -/
theorem hGet_heapSet_other (h : Heap) (rid r : Rid) (f : String) (rec : Rec)
    (hne : r ≠ rid) : hGet (heapSet h rid rec) r f = hGet h r f := by
  unfold hGet
  rw [heapGet_heapSet_other _ _ _ _ hne]

/-- A successful modification lookup names a buffered record. -/
theorem modsFind_some_rid (mods : List (Rid × List (String × Val × Val)))
    (r : Rid) (f : String) (m : Val × Val)
    (h : modsFind mods r f = some m) : ∃ e ∈ mods, e.1 = r := by
  unfold modsFind at h
  cases hf : mods.find? (fun e => e.1 = r) with
  | none => rw [hf] at h; cases h
  | some e =>
    refine ⟨e, List.mem_of_find?_eq_some hf, ?_⟩
    have := List.find?_some hf
    simpa using this

/-- The record keys of the modification list after a mark: unchanged when
the record was present, appended otherwise. -/
theorem map_fst_markGo (r : Rid) (col : String) (old new : Val)
    (mods : List (Rid × List (String × Val × Val))) :
    (mark_field_as_dirty.go r col old new mods).map (fun e => e.1) =
      (if (mods.find? (fun e => e.1 = r)).isSome then
        mods.map (fun e => e.1)
      else mods.map (fun e => e.1) ++ [r]) := by
  induction mods with
  | nil => simp [mark_field_as_dirty.go, List.find?]
  | cons e t ih =>
    by_cases h : e.1 = r
    · simp [mark_field_as_dirty.go, h, List.find?]
    · simp only [mark_field_as_dirty.go, if_neg h, List.map_cons]
      rw [List.find?_cons_of_neg _ (by simp [h]), ih]
      by_cases hs : (t.find? (fun e => e.1 = r)).isSome <;> simp [hs]

/-- Where the entries of a marked modification list come from. -/
theorem markGo_mem (r : Rid) (col : String) (old new : Val)
    (mods : List (Rid × List (String × Val × Val))) :
    ∀ e' ∈ mark_field_as_dirty.go r col old new mods,
      e' ∈ mods ∨ e' = (r, [(col, old, new)]) ∨
        ∃ e ∈ mods, e.1 = r ∧ e' = (r, modsUpdateEntry e.2 col old new) := by
  induction mods with
  | nil =>
    intro e' he'
    simp only [mark_field_as_dirty.go] at he'
    rcases List.mem_singleton.mp he' with rfl
    exact Or.inr (Or.inl rfl)
  | cons e t ih =>
    intro e' he'
    by_cases h : e.1 = r
    · simp only [mark_field_as_dirty.go, if_pos h] at he'
      rcases List.mem_cons.mp he' with rfl | ht
      · exact Or.inr (Or.inr ⟨e, List.mem_cons_self _ _, h, rfl⟩)
      · exact Or.inl (List.mem_cons.mpr (Or.inr ht))
    · simp only [mark_field_as_dirty.go, if_neg h] at he'
      rcases List.mem_cons.mp he' with rfl | ht
      · exact Or.inl (List.mem_cons_self _ _)
      · rcases ih e' ht with hm | hm | ⟨e2, he2, hr2, heq⟩
        · exact Or.inl (List.mem_cons.mpr (Or.inr hm))
        · exact Or.inr (Or.inl hm)
        · exact Or.inr (Or.inr ⟨e2, List.mem_cons.mpr (Or.inr he2), hr2, heq⟩)

/-- Updating an entry list keeps its field keys duplicate-free. -/
theorem modsUpdateEntry_keys_nodup (es : List (String × Val × Val))
    (col : String) (old new : Val) (h : (es.map (fun m => m.1)).Nodup) :
    ((modsUpdateEntry es col old new).map (fun m => m.1)).Nodup := by
  rw [map_fst_modsUpdateEntry]
  by_cases hs : (es.find? (fun m => m.1 = col)).isSome
  · rwa [if_pos hs]
  · rw [if_neg hs]
    refine List.nodup_append.mpr ⟨h, List.nodup_singleton col, ?_⟩
    intro a ha hc
    rcases List.mem_singleton.mp hc with rfl
    rcases List.mem_map.mp ha with ⟨m, hm, hmk⟩
    have hn := Option.not_isSome_iff_eq_none.mp hs
    have := List.find?_eq_none.mp hn m hm
    simp [hmk] at this

/-- Field keys after a field write: drawn from the old keys plus the
written field. -/
theorem recSet_keys_mem (rec : Rec) (f : String) (v : Val) (a : String)
    (h : a ∈ (recSet rec f v).map (fun p => p.1)) :
    a ∈ rec.map (fun p => p.1) ∨ a = f := by
  induction rec with
  | nil =>
    simp only [recSet, List.map_cons, List.map_nil] at h
    exact Or.inr (List.mem_singleton.mp h)
  | cons p t ih =>
    by_cases hp : p.1 = f
    · simp only [recSet, if_pos hp, List.map_cons] at h
      rcases List.mem_cons.mp h with rfl | ht
      · exact Or.inr rfl
      · exact Or.inl (List.mem_cons.mpr (Or.inr ht))
    · simp only [recSet, if_neg hp, List.map_cons] at h
      rcases List.mem_cons.mp h with rfl | ht
      · exact Or.inl (List.mem_cons_self _ _)
      · rcases ih ht with hm | hm
        · exact Or.inl (List.mem_cons.mpr (Or.inr hm))
        · exact Or.inr hm

/-- A field write keeps the field keys duplicate-free. -/
theorem recSet_keys_nodup (rec : Rec) (f : String) (v : Val)
    (h : (rec.map (fun p => p.1)).Nodup) :
    ((recSet rec f v).map (fun p => p.1)).Nodup := by
  induction rec with
  | nil => simp [recSet]
  | cons p t ih =>
    rw [List.map_cons] at h
    rcases List.nodup_cons.mp h with ⟨hp1, ht⟩
    by_cases hp : p.1 = f
    · simp only [recSet, if_pos hp, List.map_cons]
      exact List.nodup_cons.mpr ⟨hp ▸ hp1, ht⟩
    · simp only [recSet, if_neg hp, List.map_cons]
      refine List.nodup_cons.mpr ⟨?_, ih ht⟩
      intro hc
      rcases recSet_keys_mem t f v p.1 hc with hm | hm
      · exact hp1 hm
      · exact hp hm

/-- Records built from keyword fields have duplicate-free field keys. -/
theorem normFields_keys_nodup (fields : List (String × Val)) :
    ((normFields fields).map (fun p => p.1)).Nodup := by
  have haux : ∀ (fs : List (String × Val)) (acc : Rec),
      (acc.map (fun p => p.1)).Nodup →
      ((fs.foldl (fun rec p => recSet rec p.1 p.2) acc).map
        (fun p => p.1)).Nodup := by
    intro fs
    induction fs with
    | nil => intro acc h; exact h
    | cons q t ih =>
      intro acc h
      exact ih _ (recSet_keys_nodup acc q.1 q.2 h)
  exact haux fields [] (by simp)

/-- Presence is key membership. -/
theorem recHas_mem_keys (rec : Rec) (f : String) :
    recHas rec f = true ↔ f ∈ rec.map (fun p => p.1) := by
  unfold recHas
  constructor
  · intro h
    cases hf : rec.find? (fun p => p.1 = f) with
    | none =>
      rw [hf] at h
      cases h
    | some p =>
      have hm := List.mem_of_find?_eq_some hf
      have he : p.1 = f := by simpa using List.find?_some hf
      exact he ▸ List.mem_map.mpr ⟨p, hm, rfl⟩
  · intro hm
    rcases List.mem_map.mp hm with ⟨p, hp, he⟩
    cases hf : rec.find? (fun p2 => p2.1 = f) with
    | none =>
      have h2 := List.find?_eq_none.mp hf p hp
      simp [he] at h2
    | some q => rfl

/-- A field write can only grow the key set, by its own key. -/
theorem recSet_keys_incl (rec : Rec) (f : String) (v : Val) (a : String) :
    a ∈ rec.map (fun p => p.1) ∨ a = f →
      a ∈ (recSet rec f v).map (fun p => p.1) := by
  induction rec with
  | nil =>
    intro h
    rcases h with h | h
    · simp at h
    · simp [recSet, h]
  | cons p t ih =>
    intro h
    by_cases hp : p.1 = f
    · simp only [recSet, if_pos hp, List.map_cons]
      rcases h with h | h
      · rcases List.mem_cons.mp h with h2 | h2
        · exact List.mem_cons.mpr (Or.inl (h2.trans hp))
        · exact List.mem_cons.mpr (Or.inr h2)
      · exact List.mem_cons.mpr (Or.inl h)
    · simp only [recSet, if_neg hp, List.map_cons]
      rcases h with h | h
      · rcases List.mem_cons.mp h with h2 | h2
        · exact List.mem_cons.mpr (Or.inl h2)
        · exact List.mem_cons.mpr (Or.inr (ih (Or.inl h2)))
      · exact List.mem_cons.mpr (Or.inr (ih (Or.inr h)))

/-- Presence after an attribute write. -/
theorem recHas_recSet (rec : Rec) (f f' : String) (v : Val) :
    recHas (recSet rec f v) f' = true ↔
      (recHas rec f' = true ∨ f' = f) := by
  rw [recHas_mem_keys, recHas_mem_keys]
  exact ⟨recSet_keys_mem rec f v f', recSet_keys_incl rec f v f'⟩

/-- Presence at other identities survives a record store. -/
theorem hHas_heapSet_other (h : Heap) (r r' : Rid) (rec : Rec) (f : String)
    (hne : r' ≠ r) : hHas (heapSet h r rec) r' f = hHas h r' f := by
  unfold hHas
  rw [heapGet_heapSet_other _ _ _ _ hne]

/-- Presence after a heap attribute write. -/
theorem hHas_hSet (h : Heap) (r r' : Rid) (f f' : String) (v : Val) :
    hHas (hSet h r f v) r' f' = true ↔
      (hHas h r' f' = true ∨ (r' = r ∧ f' = f)) := by
  by_cases hr : r' = r
  · subst hr
    show recHas (heapGet (heapSet h r' (recSet (heapGet h r') f v)) r') f'
      = true ↔ _
    rw [heapGet_heapSet_same, recHas_recSet]
    constructor
    · rintro (h1 | h1)
      · exact Or.inl h1
      · exact Or.inr ⟨rfl, h1⟩
    · rintro (h1 | ⟨_, h1⟩)
      · exact Or.inl h1
      · exact Or.inr h1
  · show recHas (heapGet (heapSet h r (recSet (heapGet h r) f v)) r') f'
      = true ↔ _
    rw [heapGet_heapSet_other _ _ _ _ hr]
    constructor
    · exact fun h1 => Or.inl h1
    · rintro (h1 | ⟨h1, _⟩)
      · exact h1
      · exact absurd h1 hr

/-- A non-NULL read means the attribute is present. -/
theorem hGet_ne_none_has (h : Heap) (r : Rid) (f : String)
    (hne : hGet h r f ≠ Val.none) : hHas h r f = true := by
  unfold hGet recGet at hne
  unfold hHas recHas
  cases hf : (heapGet h r).find? (fun p => p.1 = f) with
  | none =>
    rw [hf] at hne
    exact absurd rfl hne
  | some p => rfl

/-- Every field named by a construction is present on the built record. -/
theorem normFields_has (fields : List (String × Val)) (f : String)
    (h : f ∈ fields.map Prod.fst) : recHas (normFields fields) f = true := by
  have haux : ∀ (fs : List (String × Val)) (acc : Rec),
      f ∈ fs.map Prod.fst ∨ recHas acc f = true →
      recHas (fs.foldl (fun rec p => recSet rec p.1 p.2) acc) f = true := by
    intro fs
    induction fs with
    | nil =>
      intro acc h2
      rcases h2 with h2 | h2
      · simp at h2
      · exact h2
    | cons p t ih =>
      intro acc h2
      rw [List.foldl_cons]
      refine ih (recSet acc p.1 p.2) ?_
      rcases h2 with h2 | h2
      · rw [List.map_cons] at h2
        rcases List.mem_cons.mp h2 with h3 | h3
        · exact Or.inr ((recHas_recSet acc p.1 f p.2).mpr (Or.inr h3))
        · exact Or.inl h3
      · exact Or.inr ((recHas_recSet acc p.1 f p.2).mpr (Or.inl h2))
  exact haux fields [] (Or.inl h)

/-- A successful modification lookup names a tracked record and field. -/
theorem modsFind_some_mem (mods : List (Rid × List (String × Val × Val)))
    (r : Rid) (f : String) (m : Val × Val)
    (h : modsFind mods r f = some m) :
    ∃ e ∈ mods, e.1 = r ∧ ∃ mm ∈ e.2, mm.1 = f := by
  unfold modsFind at h
  cases hf : mods.find? (fun e => e.1 = r) with
  | none =>
    rw [hf] at h
    cases h
  | some e =>
    rw [hf] at h
    have h2 : Option.map (fun mm2 => mm2.2)
        (e.2.find? (fun mm2 => mm2.1 = f)) = some m := h
    refine ⟨e, List.mem_of_find?_eq_some hf,
      by simpa using List.find?_some hf, ?_⟩
    cases hf2 : e.2.find? (fun mm => mm.1 = f) with
    | none =>
      rw [hf2] at h2
      cases h2
    | some mm =>
      exact ⟨mm, List.mem_of_find?_eq_some hf2,
        by simpa using List.find?_some hf2⟩

/-- Fields of an updated entry list come from the old fields or the updated
column. -/
theorem modsUpdateEntry_mem_fst (es : List (String × Val × Val))
    (col : String) (old new : Val) (m : String × Val × Val)
    (h : m ∈ modsUpdateEntry es col old new) :
    m.1 ∈ es.map (fun e => e.1) ∨ m.1 = col := by
  have h2 : m.1 ∈ (modsUpdateEntry es col old new).map (fun e => e.1) :=
    List.mem_map.mpr ⟨m, h, rfl⟩
  rw [map_fst_modsUpdateEntry] at h2
  by_cases hs : (es.find? (fun mm => mm.1 = col)).isSome
  · rw [if_pos hs] at h2
    exact Or.inl h2
  · rw [if_neg hs] at h2
    rcases List.mem_append.mp h2 with h3 | h3
    · exact Or.inl h3
    · exact Or.inr (List.mem_singleton.mp h3)

/-- A committed state trivially satisfies the buffering relation with
itself. -/
theorem opsInv_refl (s0 : ExecS) (h : s0.store.pending = Pending.empty) :
    OpsInv s0 s0 where
  data_eq := rfl
  byPk_eq := rfl
  im_eq := rfl
  counter_eq := rfl
  log_eq := rfl
  nextRid_le := Nat.le_refl _
  heap_pres := fun _ _ _ _ _ => rfl
  mods_new := fun r f old new hm => by
    rw [modsLookup, h] at hm
    cases hm
  mods_old := fun r f old new _ _ hm => by
    rw [modsLookup, h] at hm
    cases hm
  has_mono := fun _ _ _ hh => hh
  mods_has := fun e he => by
    rw [h] at he
    cases he
  mods_rid_lt := fun e he => by
    rw [h] at he
    cases he
  mods_nodup := by rw [h]; exact List.nodup_nil
  modsF_nodup := fun e he => by
    rw [h] at he
    cases he
  toAdd_lt := fun r hr => by
    rw [h] at hr
    cases hr
  toDel_lt := fun r hr => by
    rw [h] at hr
    cases hr
  upd_nodup := fun e he => by
    rw [h] at he
    cases he

/-- Buffering one session operation preserves the relation to the base
committed state. -/
theorem opsInv_step (s0 s1 : ExecS) (op : Op) (h : OpsInv s0 s1) :
    OpsInv s0 (applyOp s1 op) := by
  cases op with
  | newObj fields =>
    refine
      { data_eq := h.data_eq, byPk_eq := h.byPk_eq, im_eq := h.im_eq
        counter_eq := h.counter_eq, log_eq := h.log_eq
        nextRid_le := Nat.le_succ_of_le h.nextRid_le
        heap_pres := ?_, mods_new := ?_, mods_old := h.mods_old
        has_mono := ?_, mods_has := ?_
        mods_rid_lt := ?_, mods_nodup := h.mods_nodup
        modsF_nodup := h.modsF_nodup, toAdd_lt := ?_
        toDel_lt := fun r hr => Nat.lt_succ_of_lt (h.toDel_lt r hr)
        upd_nodup := h.upd_nodup }
    · intro r f hlt hh hnone
      rw [show (applyOp s1 (Op.newObj fields)).heap =
        heapSet s1.heap s1.nextRid (normFields fields) from rfl]
      rw [hGet_heapSet_other _ _ _ _ _
        (Nat.ne_of_lt (Nat.lt_of_lt_of_le hlt h.nextRid_le))]
      exact h.heap_pres r f hlt hh hnone
    · intro r f old new hm
      have hr : r < s1.nextRid := by
        rcases modsFind_some_rid _ _ _ _ hm with ⟨e, he, rfl⟩
        exact h.mods_rid_lt e he
      rw [show (applyOp s1 (Op.newObj fields)).heap =
        heapSet s1.heap s1.nextRid (normFields fields) from rfl]
      rw [hGet_heapSet_other _ _ _ _ _ (Nat.ne_of_lt hr)]
      exact h.mods_new r f old new hm
    · intro r f hlt hh
      rw [show (applyOp s1 (Op.newObj fields)).heap =
        heapSet s1.heap s1.nextRid (normFields fields) from rfl]
      rw [hHas_heapSet_other _ _ _ _ _
        (Nat.ne_of_lt (Nat.lt_of_lt_of_le hlt h.nextRid_le))]
      exact h.has_mono r f hlt hh
    · intro e he m hm
      rw [show (applyOp s1 (Op.newObj fields)).heap =
        heapSet s1.heap s1.nextRid (normFields fields) from rfl]
      rw [hHas_heapSet_other _ _ _ _ _ (Nat.ne_of_lt (h.mods_rid_lt e he))]
      exact h.mods_has e he m hm
    · exact fun e he => Nat.lt_succ_of_lt (h.mods_rid_lt e he)
    · intro r hr
      rcases List.mem_append.mp hr with hm | hm
      · exact Nat.lt_succ_of_lt (h.toAdd_lt r hm)
      · rcases List.mem_singleton.mp hm with rfl
        exact Nat.lt_succ_self _
  | addExisting r =>
    by_cases hg : r < s1.nextRid
    · simp only [applyOp, if_pos hg]
      refine
        { data_eq := h.data_eq, byPk_eq := h.byPk_eq, im_eq := h.im_eq
          counter_eq := h.counter_eq, log_eq := h.log_eq
          nextRid_le := h.nextRid_le
          heap_pres := h.heap_pres, mods_new := h.mods_new
          mods_old := h.mods_old, has_mono := h.has_mono
          mods_has := h.mods_has, mods_rid_lt := h.mods_rid_lt
          mods_nodup := h.mods_nodup, modsF_nodup := h.modsF_nodup
          toAdd_lt := ?_, toDel_lt := h.toDel_lt
          upd_nodup := h.upd_nodup }
      intro x hx
      rcases List.mem_append.mp hx with hm | hm
      · exact h.toAdd_lt x hm
      · rcases List.mem_singleton.mp hm with rfl
        exact hg
    · simpa only [applyOp, if_neg hg] using h
  | delete r =>
    by_cases hg : r < s1.nextRid
    · simp only [applyOp, if_pos hg]
      refine
        { data_eq := h.data_eq, byPk_eq := h.byPk_eq, im_eq := h.im_eq
          counter_eq := h.counter_eq, log_eq := h.log_eq
          nextRid_le := h.nextRid_le
          heap_pres := h.heap_pres, mods_new := h.mods_new
          mods_old := h.mods_old, has_mono := h.has_mono
          mods_has := h.mods_has, mods_rid_lt := h.mods_rid_lt
          mods_nodup := h.mods_nodup, modsF_nodup := h.modsF_nodup
          toAdd_lt := h.toAdd_lt, toDel_lt := ?_
          upd_nodup := h.upd_nodup }
      intro x hx
      rcases List.mem_append.mp hx with hm | hm
      · exact h.toDel_lt x hm
      · rcases List.mem_singleton.mp hm with rfl
        exact hg
    · simpa only [applyOp, if_neg hg] using h
  | update pk data =>
    refine
      { data_eq := h.data_eq, byPk_eq := h.byPk_eq, im_eq := h.im_eq
        counter_eq := h.counter_eq, log_eq := h.log_eq
        nextRid_le := h.nextRid_le
        heap_pres := h.heap_pres, mods_new := h.mods_new
        mods_old := h.mods_old, has_mono := h.has_mono
        mods_has := h.mods_has, mods_rid_lt := h.mods_rid_lt
        mods_nodup := h.mods_nodup, modsF_nodup := h.modsF_nodup
        toAdd_lt := h.toAdd_lt, toDel_lt := h.toDel_lt
        upd_nodup := ?_ }
    intro e he
    rcases List.mem_append.mp he with hm | hm
    · exact h.upd_nodup e hm
    · rcases List.mem_singleton.mp hm with rfl
      exact normFields_keys_nodup data
  | setAttr r f v =>
    by_cases hg : r < s1.nextRid
    · by_cases hpr : hHas s1.heap r f = false
      · simp only [applyOp, if_pos hg, if_pos hpr]
        refine
          { data_eq := h.data_eq, byPk_eq := h.byPk_eq, im_eq := h.im_eq
            counter_eq := h.counter_eq, log_eq := h.log_eq
            nextRid_le := h.nextRid_le
            heap_pres := ?_, mods_new := ?_
            mods_old := h.mods_old, has_mono := ?_, mods_has := ?_
            mods_rid_lt := h.mods_rid_lt
            mods_nodup := h.mods_nodup, modsF_nodup := h.modsF_nodup
            toAdd_lt := h.toAdd_lt, toDel_lt := h.toDel_lt
            upd_nodup := h.upd_nodup }
        · intro r' f' hlt hh hnone
          by_cases hrf : r' = r ∧ f' = f
          · rcases hrf with ⟨rfl, rfl⟩
            have hmono := h.has_mono r' f' hlt hh
            rw [hpr] at hmono
            exact absurd hmono (by simp)
          · rw [hGet_hSet_other _ _ _ _ _ _ (by tauto)]
            exact h.heap_pres r' f' hlt hh hnone
        · intro r' f' old new hm
          by_cases hrf : r' = r ∧ f' = f
          · rcases hrf with ⟨rfl, rfl⟩
            rcases modsFind_some_mem _ _ _ _ hm with
              ⟨e, he, her, mm, hmm, hmf⟩
            have hh := h.mods_has e he mm hmm
            rw [her, hmf, hpr] at hh
            exact absurd hh (by simp)
          · rw [hGet_hSet_other _ _ _ _ _ _ (by tauto)]
            exact h.mods_new r' f' old new hm
        · intro r' f' hlt hh
          exact (hHas_hSet s1.heap r r' f f' v).mpr
            (Or.inl (h.has_mono r' f' hlt hh))
        · intro e he mm hmm
          exact (hHas_hSet s1.heap r e.1 f mm.1 v).mpr
            (Or.inl (h.mods_has e he mm hmm))
      · by_cases holdv : hGet s1.heap r f = v
        · simp only [applyOp, if_pos hg, if_neg hpr, if_pos holdv]
          refine
            { data_eq := h.data_eq, byPk_eq := h.byPk_eq, im_eq := h.im_eq
              counter_eq := h.counter_eq, log_eq := h.log_eq
              nextRid_le := h.nextRid_le
              heap_pres := ?_, mods_new := ?_
              mods_old := h.mods_old, has_mono := ?_, mods_has := ?_
              mods_rid_lt := h.mods_rid_lt
              mods_nodup := h.mods_nodup, modsF_nodup := h.modsF_nodup
              toAdd_lt := h.toAdd_lt, toDel_lt := h.toDel_lt
              upd_nodup := h.upd_nodup }
          · intro r' f' hlt hh hnone
            by_cases hrf : r' = r ∧ f' = f
            · rcases hrf with ⟨rfl, rfl⟩
              rw [hGet_hSet_same, ← holdv]
              exact h.heap_pres r' f' hlt hh hnone
            · rw [hGet_hSet_other _ _ _ _ _ _ (by tauto)]
              exact h.heap_pres r' f' hlt hh hnone
          · intro r' f' old new hm
            by_cases hrf : r' = r ∧ f' = f
            · rcases hrf with ⟨rfl, rfl⟩
              rw [hGet_hSet_same, ← holdv]
              exact h.mods_new r' f' old new hm
            · rw [hGet_hSet_other _ _ _ _ _ _ (by tauto)]
              exact h.mods_new r' f' old new hm
          · intro r' f' hlt hh
            exact (hHas_hSet s1.heap r r' f f' v).mpr
              (Or.inl (h.has_mono r' f' hlt hh))
          · intro e he mm hmm
            exact (hHas_hSet s1.heap r e.1 f mm.1 v).mpr
              (Or.inl (h.mods_has e he mm hmm))
        · simp only [applyOp, if_pos hg, if_neg hpr, if_neg holdv]
          refine
            { data_eq := h.data_eq, byPk_eq := h.byPk_eq, im_eq := h.im_eq
              counter_eq := h.counter_eq, log_eq := h.log_eq
              nextRid_le := h.nextRid_le
              heap_pres := ?_, mods_new := ?_, mods_old := ?_
              has_mono := ?_, mods_has := ?_
              mods_rid_lt := ?_, mods_nodup := ?_, modsF_nodup := ?_
              toAdd_lt := h.toAdd_lt, toDel_lt := h.toDel_lt
              upd_nodup := h.upd_nodup }
          · intro r' f' hlt hh hnone
            by_cases hrf : r' = r ∧ f' = f
            · rcases hrf with ⟨rfl, rfl⟩
              rw [show modsLookup
                  (mark_field_as_dirty s1.store.pending r' f'
                    (hGet s1.heap r' f') v) r' f' =
                modsFind (mark_field_as_dirty.go r' f'
                  (hGet s1.heap r' f') v s1.store.pending.mods) r' f'
                from rfl, modsFind_mark_same] at hnone
              cases hnone
            · rw [show modsLookup
                  (mark_field_as_dirty s1.store.pending r f
                    (hGet s1.heap r f) v) r' f' =
                modsFind (mark_field_as_dirty.go r f
                  (hGet s1.heap r f) v s1.store.pending.mods) r' f'
                from rfl, modsFind_mark_other _ _ _ _ _ _ (by tauto)] at hnone
              rw [hGet_hSet_other _ _ _ _ _ _ (by tauto)]
              exact h.heap_pres r' f' hlt hh hnone
          · intro r' f' old new hm
            by_cases hrf : r' = r ∧ f' = f
            · rcases hrf with ⟨rfl, rfl⟩
              rw [show modsLookup
                  (mark_field_as_dirty s1.store.pending r' f'
                    (hGet s1.heap r' f') v) r' f' =
                modsFind (mark_field_as_dirty.go r' f'
                  (hGet s1.heap r' f') v s1.store.pending.mods) r' f'
                from rfl, modsFind_mark_same] at hm
              injection hm with hm2
              rw [hGet_hSet_same]
              exact (congrArg Prod.snd hm2).symm
            · rw [show modsLookup
                  (mark_field_as_dirty s1.store.pending r f
                    (hGet s1.heap r f) v) r' f' =
                modsFind (mark_field_as_dirty.go r f
                  (hGet s1.heap r f) v s1.store.pending.mods) r' f'
                from rfl, modsFind_mark_other _ _ _ _ _ _ (by tauto)] at hm
              rw [hGet_hSet_other _ _ _ _ _ _ (by tauto)]
              exact h.mods_new r' f' old new hm
          · intro r' f' old new hlt hh hm
            by_cases hrf : r' = r ∧ f' = f
            · rcases hrf with ⟨rfl, rfl⟩
              rw [show modsLookup
                  (mark_field_as_dirty s1.store.pending r' f'
                    (hGet s1.heap r' f') v) r' f' =
                modsFind (mark_field_as_dirty.go r' f'
                  (hGet s1.heap r' f') v s1.store.pending.mods) r' f'
                from rfl, modsFind_mark_same] at hm
              injection hm with hm2
              have hfst := congrArg Prod.fst hm2
              cases hprev : modsLookup s1.store.pending r' f' with
              | none =>
                rw [show modsFind s1.store.pending.mods r' f' =
                  modsLookup s1.store.pending r' f' from rfl, hprev] at hfst
                simp only at hfst
                rw [← hfst]
                exact h.heap_pres r' f' hlt hh hprev
              | some m =>
                rw [show modsFind s1.store.pending.mods r' f' =
                  modsLookup s1.store.pending r' f' from rfl, hprev] at hfst
                simp only at hfst
                rw [← hfst]
                exact h.mods_old r' f' m.1 m.2 hlt hh (by rw [hprev])
            · rw [show modsLookup
                  (mark_field_as_dirty s1.store.pending r f
                    (hGet s1.heap r f) v) r' f' =
                modsFind (mark_field_as_dirty.go r f
                  (hGet s1.heap r f) v s1.store.pending.mods) r' f'
                from rfl, modsFind_mark_other _ _ _ _ _ _ (by tauto)] at hm
              exact h.mods_old r' f' old new hlt hh hm
          · intro r' f' hlt hh
            exact (hHas_hSet s1.heap r r' f f' v).mpr
              (Or.inl (h.has_mono r' f' hlt hh))
          · intro e he mm hmm
            rcases markGo_mem _ _ _ _ _ e he with hm | hm | ⟨e2, he2, hr2, heq⟩
            · exact (hHas_hSet s1.heap r e.1 f mm.1 v).mpr
                (Or.inl (h.mods_has e hm mm hmm))
            · rw [hm] at hmm
              rcases List.mem_singleton.mp hmm with rfl
              rw [hm]
              exact (hHas_hSet s1.heap r r f f v).mpr (Or.inr ⟨rfl, rfl⟩)
            · rw [heq] at hmm
              rcases modsUpdateEntry_mem_fst _ _ _ _ mm hmm with hf2 | hf2
              · rcases List.mem_map.mp hf2 with ⟨m2, hm2, he2k⟩
                have hh2 := h.mods_has e2 he2 m2 hm2
                rw [hr2] at hh2
                rw [heq, ← he2k]
                exact (hHas_hSet s1.heap r r f m2.1 v).mpr (Or.inl hh2)
              · rw [heq, hf2]
                exact (hHas_hSet s1.heap r r f f v).mpr (Or.inr ⟨rfl, rfl⟩)
          · intro e he
            rcases markGo_mem _ _ _ _ _ e he with hm | hm | ⟨e2, he2, _, heq⟩
            · exact h.mods_rid_lt e hm
            · rw [hm]
              exact hg
            · rw [heq]
              exact hg
          · rw [show (mark_field_as_dirty s1.store.pending r f
                (hGet s1.heap r f) v).mods =
              mark_field_as_dirty.go r f (hGet s1.heap r f) v
                s1.store.pending.mods from rfl, map_fst_markGo]
            by_cases hs :
              (s1.store.pending.mods.find? (fun e => e.1 = r)).isSome
            · rw [if_pos hs]
              exact h.mods_nodup
            · rw [if_neg hs]
              refine List.nodup_append.mpr ⟨h.mods_nodup,
                List.nodup_singleton r, ?_⟩
              intro a ha hc
              rcases List.mem_singleton.mp hc with rfl
              rcases List.mem_map.mp ha with ⟨e, he, hek⟩
              have hn := Option.not_isSome_iff_eq_none.mp hs
              have := List.find?_eq_none.mp hn e he
              simp [hek] at this
          · intro e he
            rcases markGo_mem _ _ _ _ _ e he with hm | hm | ⟨e2, he2, _, heq⟩
            · exact h.modsF_nodup e hm
            · rw [hm]
              simp
            · rw [heq]
              exact modsUpdateEntry_keys_nodup _ _ _ _ (h.modsF_nodup e2 he2)
    · simpa only [applyOp, if_neg hg] using h

/-- Buffering any sequence of session operations preserves the relation. -/
theorem opsInv_applyOps (s0 : ExecS) (ops : List Op)
    (h0 : s0.store.pending = Pending.empty) :
    OpsInv s0 (applyOps s0 ops) := by
  have haux : ∀ (l : List Op) (s1 : ExecS), OpsInv s0 s1 →
      OpsInv s0 (l.foldl applyOp s1) := by
    intro l
    induction l with
    | nil => intro s1 h; exact h
    | cons op t ih =>
      intro s1 h
      exact ih _ (opsInv_step s0 s1 op h)
  exact haux ops s0 (opsInv_refl s0 h0)

/-- Reading a modification list through its head, matching record. -/
theorem modsFind_cons_pos (e : Rid × List (String × Val × Val))
    (mods : List (Rid × List (String × Val × Val))) (r : Rid) (f : String)
    (h : e.1 = r) :
    modsFind (e :: mods) r f =
      (e.2.find? (fun m => m.1 = f)).map (fun m => m.2) := by
  unfold modsFind
  rw [List.find?_cons_of_pos _ (by simp [h])]

/-- Reading a modification list through its head, different record. -/
theorem modsFind_cons_neg (e : Rid × List (String × Val × Val))
    (mods : List (Rid × List (String × Val × Val))) (r : Rid) (f : String)
    (h : ¬e.1 = r) :
    modsFind (e :: mods) r f = modsFind mods r f := by
  unfold modsFind
  rw [List.find?_cons_of_neg _ (by simp [h])]

/-- A restore pass for one record leaves other fields of that record
untouched when the field is not among the restored ones. -/
theorem innerRestore_other_field (rid : Rid) (es : List (String × Val × Val))
    (h : Heap) (r : Rid) (f : String)
    (hf : ∀ m ∈ es, r = rid → m.1 ≠ f) :
    hGet (es.foldl (fun h m => hSet h rid m.1 m.2.1) h) r f = hGet h r f := by
  induction es generalizing h with
  | nil => rfl
  | cons m t ih =>
    rw [List.foldl_cons, ih _ (fun m' hm' hr => hf m' (List.mem_cons.mpr
      (Or.inr hm')) hr)]
    by_cases hr : r = rid
    · exact hGet_hSet_other _ _ _ _ _ _
        (Or.inr (Ne.symm (hf m (List.mem_cons_self _ _) hr)))
    · exact hGet_hSet_other _ _ _ _ _ _ (Or.inl hr)

/-- A restore pass for one record computes the first recorded old value of
each restored field (field keys duplicate-free). -/
theorem innerRestore_get (rid : Rid) (es : List (String × Val × Val))
    (h : Heap) (f : String) (hnd : (es.map (fun m => m.1)).Nodup) :
    hGet (es.foldl (fun h m => hSet h rid m.1 m.2.1) h) rid f =
      (match es.find? (fun m => m.1 = f) with
        | some m => m.2.1
        | Option.none => hGet h rid f) := by
  induction es generalizing h with
  | nil => rfl
  | cons m t ih =>
    rw [List.map_cons] at hnd
    rcases List.nodup_cons.mp hnd with ⟨hm1, ht⟩
    rw [List.foldl_cons]
    by_cases hf : m.1 = f
    · rw [innerRestore_other_field _ _ _ _ _ (fun m' hm' _ => by
        intro hc
        exact hm1 (hf ▸ hc ▸ List.mem_map.mpr ⟨m', hm', rfl⟩)),
        List.find?_cons_of_pos _ (by simp [hf]), hf, hGet_hSet_same]
    · rw [ih _ ht, List.find?_cons_of_neg _ (by simp [hf])]
      cases hfind : t.find? (fun m2 => m2.1 = f) with
      | none =>
        simp only
        exact hGet_hSet_other _ _ _ _ _ _ (Or.inr (fun hc => hf hc.symm))
      | some m2 => simp only

/-- Restoring other records leaves a record untouched. -/
theorem rollbackHeap_other (mods : List (Rid × List (String × Val × Val)))
    (h : Heap) (r : Rid) (f : String) (hr : ∀ e ∈ mods, e.1 ≠ r) :
    hGet (rollbackHeap mods h) r f = hGet h r f := by
  induction mods generalizing h with
  | nil => rfl
  | cons e t ih =>
    rw [rollbackHeap, List.foldl_cons,
      show (t.foldl (fun h e => e.2.foldl
        (fun h m => hSet h e.1 m.1 m.2.1) h)
        (e.2.foldl (fun h m => hSet h e.1 m.1 m.2.1) h)) =
      rollbackHeap t (e.2.foldl (fun h m => hSet h e.1 m.1 m.2.1) h)
      from rfl]
    rw [ih _ (fun e' he' => hr e' (List.mem_cons.mpr (Or.inr he')))]
    exact innerRestore_other_field _ _ _ _ _
      (fun m _ hc => absurd hc.symm (hr e (List.mem_cons_self _ _)))

/-- The rollback heap restore computes, per record and field, the first
recorded old value, leaving everything else unchanged (record keys and
per-record field keys duplicate-free). -/
theorem rollbackHeap_get (mods : List (Rid × List (String × Val × Val)))
    (h : Heap) (r : Rid) (f : String)
    (hnd : (mods.map (fun e => e.1)).Nodup)
    (hfnd : ∀ e ∈ mods, (e.2.map (fun m => m.1)).Nodup) :
    hGet (rollbackHeap mods h) r f =
      (match modsFind mods r f with
        | some m => m.1
        | Option.none => hGet h r f) := by
  induction mods generalizing h with
  | nil => rfl
  | cons e t ih =>
    rw [List.map_cons] at hnd
    rcases List.nodup_cons.mp hnd with ⟨he1, ht⟩
    rw [rollbackHeap, List.foldl_cons,
      show (t.foldl (fun h e => e.2.foldl
        (fun h m => hSet h e.1 m.1 m.2.1) h)
        (e.2.foldl (fun h m => hSet h e.1 m.1 m.2.1) h)) =
      rollbackHeap t (e.2.foldl (fun h m => hSet h e.1 m.1 m.2.1) h)
      from rfl]
    by_cases hr : e.1 = r
    · rw [rollbackHeap_other _ _ _ _
        (fun e' he' hc => he1 (by
          rw [hr]
          exact hc ▸ (List.mem_map.mpr ⟨e', he', rfl⟩))),
        modsFind_cons_pos _ _ _ _ hr, ← hr,
        innerRestore_get _ _ _ _ (hfnd e (List.mem_cons_self _ _))]
      cases hfind : e.2.find? (fun m => m.1 = f) <;>
        (simp only [hfind]; rfl)
    · rw [ih _ ht (fun e' he' => hfnd e' (List.mem_cons.mpr (Or.inr he'))),
        modsFind_cons_neg _ _ _ _ hr]
      cases hfind : modsFind t r f with
      | none =>
        simp only [hfind]
        exact innerRestore_other_field _ _ _ _ _
          (fun m _ hc => absurd hc.symm hr)
      | some m2 => simp only [hfind]

/-- A successful commit clears the pending buffer. -/
theorem commit_ok_pending (sch : Schema) (s s' : ExecS)
    (h : commit sch s = CommitResult.ok s') :
    s'.store.pending = Pending.empty := by
  unfold commit at h
  split at h
  · cases h
  · split at h
    · cases h
    · split at h
      · cases h
      · split at h
        · cases h
        · injection h with h2
          rw [← h2]

/-- Every state produced by a successful run has an empty buffer. -/
theorem run_pending_empty (sch : Schema) (txns : List (List Op)) (s' : ExecS)
    (h : run sch txns = some s') : s'.store.pending = Pending.empty := by
  have haux : ∀ (l : List (List Op)) (s : ExecS),
      s.store.pending = Pending.empty → runFrom sch s l = some s' →
      s'.store.pending = Pending.empty := by
    intro l
    induction l with
    | nil =>
      intro s hs hr
      injection hr with hr2
      rw [← hr2]
      exact hs
    | cons ops t ih =>
      intro s hs hr
      unfold runFrom at hr
      split at hr
      · rename_i s2 hc
        exact ih s2 (commit_ok_pending sch _ s2 hc) hr
      · cases hr
  exact haux txns ExecS.init rfl h

/-- C4 (amended): rolling back a transaction restores every field with a
recorded in-place modification to its recorded first old value; for a field
that was present in the object's `__dict__` at the last commit this is its
pre-transaction value.  (A first in-place set of a never-initialized field
is untracked — the listener's `NO_VALUE` guard — so nothing is recorded for
it and the new value survives the rollback, per the counterexample.)  The
live sequence, primary-key map and indexes are left exactly as they were
before the transaction, with the buffer discarded, so no buffered insert,
delete or update is visible. -/
theorem rollback_restores (sch : Schema) (txns : List (List Op))
    (s0 : ExecS) (ops : List Op) (h0 : run sch txns = some s0) :
    (∀ r f old new,
      modsLookup (applyOps s0 ops).store.pending r f = some (old, new) →
      hGet (rollback (applyOps s0 ops)).heap r f = old) ∧
    (∀ r f, r < s0.nextRid → hHas s0.heap r f = true →
      hGet (rollback (applyOps s0 ops)).heap r f = hGet s0.heap r f) ∧
    (rollback (applyOps s0 ops)).store.data = s0.store.data ∧
    (rollback (applyOps s0 ops)).store.byPk = s0.store.byPk ∧
    (rollback (applyOps s0 ops)).store.im = s0.store.im ∧
    (rollback (applyOps s0 ops)).store.pending = Pending.empty := by
  have hpe := run_pending_empty sch txns s0 h0
  have hinv := opsInv_applyOps s0 ops hpe
  have hheap : ∀ r f, hGet (rollback (applyOps s0 ops)).heap r f =
      (match modsLookup (applyOps s0 ops).store.pending r f with
        | some m => m.1
        | Option.none => hGet (applyOps s0 ops).heap r f) := by
    intro r f
    exact rollbackHeap_get _ _ r f hinv.mods_nodup hinv.modsF_nodup
  refine ⟨?_, ?_, hinv.data_eq, hinv.byPk_eq, hinv.im_eq, rfl⟩
  · intro r f old new hm
    rw [hheap r f, hm]
  · intro r f hlt hhas
    rw [hheap r f]
    cases hm : modsLookup (applyOps s0 ops).store.pending r f with
    | none =>
      simp only
      exact hinv.heap_pres r f hlt hhas hm
    | some m =>
      simp only
      exact hinv.mods_old r f m.1 m.2 hlt hhas (by rw [hm])

/-- Witness for `rollback_restores`: on `stateX`, mutate one record's
indexed column twice and buffer a delete, then roll back: the column reads
its pre-transaction value again and the store is untouched. -/
theorem rollback_restores_witness :
    ((∀ r f old new,
      modsLookup (applyOps stateX
        [Op.setAttr 0 "cat" (Val.str "Z"), Op.setAttr 0 "cat" (Val.str "Q"),
          Op.delete 1]).store.pending r f = some (old, new) →
      hGet (rollback (applyOps stateX
        [Op.setAttr 0 "cat" (Val.str "Z"), Op.setAttr 0 "cat" (Val.str "Q"),
          Op.delete 1])).heap r f = old) ∧
    (∀ r f, r < stateX.nextRid → hHas stateX.heap r f = true →
      hGet (rollback (applyOps stateX
        [Op.setAttr 0 "cat" (Val.str "Z"), Op.setAttr 0 "cat" (Val.str "Q"),
          Op.delete 1])).heap r f = hGet stateX.heap r f) ∧
    (rollback (applyOps stateX
      [Op.setAttr 0 "cat" (Val.str "Z"), Op.setAttr 0 "cat" (Val.str "Q"),
        Op.delete 1])).store.data = stateX.store.data ∧
    (rollback (applyOps stateX
      [Op.setAttr 0 "cat" (Val.str "Z"), Op.setAttr 0 "cat" (Val.str "Q"),
        Op.delete 1])).store.byPk = stateX.store.byPk ∧
    (rollback (applyOps stateX
      [Op.setAttr 0 "cat" (Val.str "Z"), Op.setAttr 0 "cat" (Val.str "Q"),
        Op.delete 1])).store.im = stateX.store.im ∧
    (rollback (applyOps stateX
      [Op.setAttr 0 "cat" (Val.str "Z"), Op.setAttr 0 "cat" (Val.str "Q"),
        Op.delete 1])).store.pending = Pending.empty) ∧
    hGet (rollback (applyOps stateX
      [Op.setAttr 0 "cat" (Val.str "Z"), Op.setAttr 0 "cat" (Val.str "Q"),
        Op.delete 1])).heap 0 "cat" = Val.str "A" :=
  ⟨rollback_restores schX txnsX stateX
    [Op.setAttr 0 "cat" (Val.str "Z"), Op.setAttr 0 "cat" (Val.str "Q"),
      Op.delete 1] (by rfl),
    by decide⟩

/-- C4, the claim as stated is false: a field absent from the object's
`__dict__` (never initialized) that is mutated in place is skipped by
`_track_field_change_listener`'s `NO_VALUE` guard, so no old value is
recorded for it and `rollback()` does not restore it — the mutated value
survives.  On `stateNull`, whose record 0 has no `cat` attribute, setting
`cat := 'B'` and rolling back leaves `cat = 'B'`, not its pre-mutation
NULL. -/
theorem rollback_untracked_counterexample :
    run schX txnsNull = some stateNull ∧
    hHas stateNull.heap 0 "cat" = false ∧
    hGet stateNull.heap 0 "cat" = Val.none ∧
    (applyOps stateNull
      [Op.setAttr 0 "cat" (Val.str "B")]).store.pending.mods = [] ∧
    hGet (rollback (applyOps stateNull
      [Op.setAttr 0 "cat" (Val.str "B")])).heap 0 "cat" = Val.str "B" :=
  ⟨by rfl, by rfl, by rfl, by rfl, by rfl⟩

/-- The modification-index phase only touches the indexes. -/
theorem ump_go_frame (sch : Schema) :
    ∀ (l : List (Rid × List (String × Val × Val))) (s s' : ExecS),
      update_modified_items_indexes.go sch s l = CommitResult.ok s' →
      s'.store.data = s.store.data ∧ s'.store.byPk = s.store.byPk ∧
      s'.store.counter = s.store.counter ∧
      s'.store.pending = s.store.pending ∧ s'.heap = s.heap ∧
      s'.nextRid = s.nextRid ∧ s'.log = s.log := by
  intro l
  induction l with
  | nil =>
    intro s s' h
    injection h with h2
    rw [← h2]
    exact ⟨rfl, rfl, rfl, rfl, rfl, rfl, rfl⟩
  | cons e t ih =>
    intro s s' h
    obtain ⟨r, entries⟩ := e
    simp only [update_modified_items_indexes.go] at h
    split at h
    · exact ih s s' h
    · split at h
      · have hres := ih _ s' h
        exact hres
      · cases h

/-- `update_modified_items_indexes` only touches the indexes. -/
theorem ump_frame (sch : Schema) (s s' : ExecS)
    (h : update_modified_items_indexes sch s = CommitResult.ok s') :
    s'.store.data = s.store.data ∧ s'.store.byPk = s.store.byPk ∧
    s'.store.counter = s.store.counter ∧
    s'.store.pending = s.store.pending ∧ s'.heap = s.heap ∧
    s'.nextRid = s.nextRid ∧ s'.log = s.log :=
  ump_go_frame sch _ s s' h

/-- The key-deletion loop only touches the primary-key map and, at its end,
the indexes. -/
theorem delKeys_frame (sch : Schema) :
    ∀ (pks : List Val) (objs : List Rid) (s s' : ExecS),
      applyDeletes.delKeys sch s pks objs = CommitResult.ok s' →
      s'.store.data = s.store.data ∧ s'.store.counter = s.store.counter ∧
      s'.store.pending = s.store.pending ∧ s'.heap = s.heap ∧
      s'.nextRid = s.nextRid ∧ s'.log = s.log := by
  intro pks
  induction pks with
  | nil =>
    intro objs s s' h
    injection h with h2
    rw [← h2]
    exact ⟨rfl, rfl, rfl, rfl, rfl, rfl⟩
  | cons pk t ih =>
    intro objs s s' h
    simp only [applyDeletes.delKeys] at h
    split at h
    · cases h
    · have hres := ih objs _ s' h
      exact hres

/-- The deletion phase leaves counter, buffer, heap and log untouched. -/
theorem deletes_frame (sch : Schema) (s s' : ExecS)
    (h : applyDeletes sch s = CommitResult.ok s') :
    s'.store.counter = s.store.counter ∧
    s'.store.pending = s.store.pending ∧ s'.heap = s.heap ∧
    s'.nextRid = s.nextRid ∧ s'.log = s.log := by
  simp only [applyDeletes] at h
  split at h
  · injection h with h2
    rw [← h2]
    exact ⟨rfl, rfl, rfl, rfl, rfl⟩
  · rcases delKeys_frame sch _ _ _ s' h with ⟨_, h2, h3, h4, h5, h6⟩
    exact ⟨h2, h3, h4, h5, h6⟩

/-- The update phase leaves the live sequence, map, counter, buffer and log
untouched. -/
theorem updates_go_frame (sch : Schema) :
    ∀ (l : List (Val × List (String × Val))) (s s' : ExecS),
      applyUpdates.go sch s l = CommitResult.ok s' →
      s'.store.data = s.store.data ∧ s'.store.byPk = s.store.byPk ∧
      s'.store.counter = s.store.counter ∧
      s'.store.pending = s.store.pending ∧
      s'.nextRid = s.nextRid ∧ s'.log = s.log := by
  intro l
  induction l with
  | nil =>
    intro s s' h
    injection h with h2
    rw [← h2]
    exact ⟨rfl, rfl, rfl, rfl, rfl, rfl⟩
  | cons e t ih =>
    intro s s' h
    obtain ⟨pk, data⟩ := e
    simp only [applyUpdates.go] at h
    split at h
    · cases h
    · split at h
      · have hres := ih _ s' h
        exact hres
      · cases h

/-- `assignPk` only touches the counter, the object's key attribute and the
log. -/
theorem assignPk_frame (sch : Schema) (s : ExecS) (r : Rid) (pkv : Val)
    (s' : ExecS) (h : assignPk sch s r = Except.ok (pkv, s')) :
    s'.store.data = s.store.data ∧ s'.store.byPk = s.store.byPk ∧
    s'.store.im = s.store.im ∧ s'.store.pending = s.store.pending ∧
    s'.nextRid = s.nextRid := by
  simp only [assignPk] at h
  split at h
  · injection h with h2
    injection h2 with ha hb
    subst hb
    exact ⟨rfl, rfl, rfl, rfl, rfl⟩
  · split at h
    · injection h with h2
      injection h2 with ha hb
      subst hb
      exact ⟨rfl, rfl, rfl, rfl, rfl⟩
    · cases h

/-- The insertion phase leaves the buffer and the allocator untouched. -/
theorem adds_go_frame (sch : Schema) :
    ∀ (l : List Rid) (added : List Rid) (s s' : ExecS),
      applyAdds.go sch s added l = CommitResult.ok s' →
      s'.store.pending = s.store.pending ∧ s'.nextRid = s.nextRid := by
  intro l
  induction l with
  | nil =>
    intro added s s' h
    injection h with h2
    rw [← h2]
    exact ⟨rfl, rfl⟩
  | cons r t ih =>
    intro added s s' h
    simp only [applyAdds.go] at h
    split at h
    · exact ih added s s' h
    · split at h
      · cases h
      · rename_i pkv s1 hassign
        split at h
        · cases h
        · split at h
          · rename_i im2 hins
            rcases ih (r :: added) _ s' h with ⟨h1, h2⟩
            rcases assignPk_frame sch s r pkv s1 hassign with
              ⟨_, _, _, hp, hn⟩
            exact ⟨h1.trans hp, h2.trans hn⟩
          · cases h

/-- Session operations do not touch the ghost log or the counter. -/
theorem applyOps_log (s : ExecS) (ops : List Op) :
    (applyOps s ops).log = s.log ∧
    (applyOps s ops).store.counter = s.store.counter := by
  have hstep : ∀ (s1 : ExecS) (op : Op),
      (applyOp s1 op).log = s1.log ∧
      (applyOp s1 op).store.counter = s1.store.counter := by
    intro s1 op
    cases op with
    | newObj fields => exact ⟨rfl, rfl⟩
    | addExisting r =>
      by_cases hg : r < s1.nextRid <;> simp [applyOp, hg]
    | delete r =>
      by_cases hg : r < s1.nextRid <;> simp [applyOp, hg]
    | update pk data => exact ⟨rfl, rfl⟩
    | setAttr r f v =>
      by_cases hg : r < s1.nextRid
      · by_cases hpr : hHas s1.heap r f = false
        · simp [applyOp, hg, hpr]
        · by_cases ho : hGet s1.heap r f = v <;> simp [applyOp, hg, hpr, ho]
      · simp [applyOp, hg]
  have haux : ∀ (l : List Op) (s1 : ExecS),
      (l.foldl applyOp s1).log = s1.log ∧
      (l.foldl applyOp s1).store.counter = s1.store.counter := by
    intro l
    induction l with
    | nil => intro s1; exact ⟨rfl, rfl⟩
    | cons op t ih =>
      intro s1
      rcases ih (applyOp s1 op) with ⟨h1, h2⟩
      rcases hstep s1 op with ⟨h3, h4⟩
      exact ⟨h1.trans h3, h2.trans h4⟩
  exact haux ops s

/-- `PkInv` only looks at the ghost log and the counter. -/
theorem pkInv_of_eq (s t : ExecS) (hl : t.log = s.log)
    (hc : t.store.counter = s.store.counter) (h : PkInv s) : PkInv t := by
  unfold PkInv at h ⊢
  rw [hl, hc]
  exact h

/-- Appending an auto-assigned key (the incremented counter) preserves the
auto-increment invariants: the new key exceeds every logged key. -/
theorem pkParts_append_auto (log : List (Bool × Val)) (c : Int)
    (hb : ∀ e ∈ log, ∀ k, e.2 = Val.int k → k ≤ c)
    (hp : log.Pairwise (fun a b => b.1 = true → ∀ ka kb, a.2 = Val.int ka →
      b.2 = Val.int kb → ka < kb))
    (hi : ∀ e ∈ log, ∃ k, e.2 = Val.int k) :
    (∀ e ∈ log ++ [(true, Val.int (c + 1))], ∀ k, e.2 = Val.int k →
      k ≤ c + 1) ∧
    (log ++ [(true, Val.int (c + 1))]).Pairwise
      (fun a b => b.1 = true → ∀ ka kb, a.2 = Val.int ka →
        b.2 = Val.int kb → ka < kb) ∧
    (∀ e ∈ log ++ [(true, Val.int (c + 1))], ∃ k, e.2 = Val.int k) := by
  refine ⟨?_, ?_, ?_⟩
  · intro e he k hk
    rcases List.mem_append.mp he with hil | hir
    · have := hb e hil k hk
      omega
    · have he2 : e = (true, Val.int (c + 1)) := by simpa using hir
      rw [he2] at hk
      injection hk with hk2
      omega
  · rw [List.pairwise_append]
    refine ⟨hp, List.pairwise_singleton _ _, ?_⟩
    intro a ha b hbmem
    have hb2 : b = (true, Val.int (c + 1)) := by simpa using hbmem
    subst hb2
    intro _ ka kb hka hkb
    injection hkb with hkb2
    have := hb a ha ka hka
    omega
  · intro e he
    rcases List.mem_append.mp he with hil | hir
    · exact hi e hil
    · have he2 : e = (true, Val.int (c + 1)) := by simpa using hir
      exact ⟨c + 1, by rw [he2]⟩

/-- Appending an explicit integer key while advancing the counter to at
least it preserves the auto-increment invariants. -/
theorem pkParts_append_explicit (log : List (Bool × Val)) (c k : Int)
    (hb : ∀ e ∈ log, ∀ kk, e.2 = Val.int kk → kk ≤ c)
    (hp : log.Pairwise (fun a b => b.1 = true → ∀ ka kb, a.2 = Val.int ka →
      b.2 = Val.int kb → ka < kb))
    (hi : ∀ e ∈ log, ∃ kk, e.2 = Val.int kk) :
    (∀ e ∈ log ++ [(false, Val.int k)], ∀ kk, e.2 = Val.int kk →
      kk ≤ max c k) ∧
    (log ++ [(false, Val.int k)]).Pairwise
      (fun a b => b.1 = true → ∀ ka kb, a.2 = Val.int ka →
        b.2 = Val.int kb → ka < kb) ∧
    (∀ e ∈ log ++ [(false, Val.int k)], ∃ kk, e.2 = Val.int kk) := by
  refine ⟨?_, ?_, ?_⟩
  · intro e he kk hk
    rcases List.mem_append.mp he with hil | hir
    · have := hb e hil kk hk
      have h2 := le_max_left c k
      omega
    · have he2 : e = (false, Val.int k) := by simpa using hir
      rw [he2] at hk
      injection hk with hk2
      have h2 := le_max_right c k
      omega
  · rw [List.pairwise_append]
    refine ⟨hp, List.pairwise_singleton _ _, ?_⟩
    intro a ha b hbmem
    have hb2 : b = (false, Val.int k) := by simpa using hbmem
    subst hb2
    intro hfalse
    simp at hfalse
  · intro e he
    rcases List.mem_append.mp he with hil | hir
    · exact hi e hil
    · have he2 : e = (false, Val.int k) := by simpa using hir
      exact ⟨k, by rw [he2]⟩

/-- Primary-key resolution preserves the auto-increment invariants: an
auto-assigned key is the incremented counter (strictly above every logged
key), and an explicit integer key pushes the counter to at least itself. -/
theorem assignPk_pkinv (sch : Schema) (s : ExecS) (r : Rid) (pkv : Val)
    (s1 : ExecS) (h : assignPk sch s r = Except.ok (pkv, s1))
    (hinv : PkInv s) : PkInv s1 := by
  obtain ⟨hb, hp, hi⟩ := hinv
  simp only [assignPk] at h
  split at h
  · injection h with h2
    injection h2 with ha hb2
    subst hb2
    exact pkParts_append_auto s.log s.store.counter hb hp hi
  · split at h
    · rename_i k hcur
      injection h with h2
      injection h2 with ha hb2
      subst hb2
      rw [hcur]
      exact pkParts_append_explicit s.log s.store.counter k hb hp hi
    · cases h

/-- The insertion phase preserves the auto-increment invariants. -/
theorem adds_go_pkinv (sch : Schema) :
    ∀ (l added : List Rid) (s s' : ExecS),
      applyAdds.go sch s added l = CommitResult.ok s' →
      PkInv s → PkInv s' := by
  intro l
  induction l with
  | nil =>
    intro added s s' h hinv
    injection h with h2
    rw [← h2]
    exact hinv
  | cons r t ih =>
    intro added s s' h hinv
    simp only [applyAdds.go] at h
    split at h
    · exact ih added s s' h hinv
    · split at h
      · cases h
      · rename_i pkv s1 hassign
        split at h
        · cases h
        · split at h
          · have hinv1 : PkInv s1 := assignPk_pkinv sch s r pkv s1 hassign hinv
            have hres := ih (r :: added) _ s' h ?_
            · exact hres
            · exact hinv1
          · cases h

/-- `commit()` preserves the auto-increment invariants: only the insertion
phase touches the counter and the ghost log, and it does so through
`assignPk`. -/
theorem commit_pkinv (sch : Schema) (s s' : ExecS)
    (h : commit sch s = CommitResult.ok s') (hinv : PkInv s) : PkInv s' := by
  unfold commit at h
  split at h
  · cases h
  · rename_i s1 h1
    split at h
    · cases h
    · rename_i s2 h2
      split at h
      · cases h
      · rename_i s3 h3
        split at h
        · cases h
        · rename_i s4 h4
          injection h with h5
          rcases ump_frame sch s s1 h1 with ⟨_, _, hc1, _, _, _, hl1⟩
          rcases deletes_frame sch s1 s2 h2 with ⟨hc2, _, _, _, hl2⟩
          have hinv2 : PkInv s2 :=
            pkInv_of_eq s1 s2 hl2 hc2 (pkInv_of_eq s s1 hl1 hc1 hinv)
          have hinv3 : PkInv s3 := adds_go_pkinv sch _ [] s2 s3 h3 hinv2
          rcases updates_go_frame sch _ s3 s4 h4 with ⟨_, _, hc4, _, _, hl4⟩
          have hinv4 : PkInv s4 := pkInv_of_eq s3 s4 hl4 hc4 hinv3
          rw [← h5]
          exact pkInv_of_eq s4 _ rfl rfl hinv4

/-- Every state reachable by a sequence of committed transactions satisfies
the auto-increment invariants. -/
theorem runFrom_pkinv (sch : Schema) :
    ∀ (txns : List (List Op)) (s s' : ExecS),
      runFrom sch s txns = some s' → PkInv s → PkInv s' := by
  intro txns
  induction txns with
  | nil =>
    intro s s' h hinv
    injection h with h2
    rw [← h2]
    exact hinv
  | cons ops rest ih =>
    intro s s' h hinv
    simp only [runFrom] at h
    split at h
    · rename_i s2 hcommit
      rcases applyOps_log s ops with ⟨hl, hc⟩
      have hinvb : PkInv (applyOps s ops) := pkInv_of_eq s _ hl hc hinv
      exact ih s2 s' h (commit_pkinv sch _ s2 hcommit hinvb)
    · cases h

/-- **C5**: per-table primary-key auto-increment.  After any sequence of
committed transactions, every resolved primary-key value logged at insert
time is an integer bounded by the table's counter (so committing an explicit
key K advances the counter to at least K), and every auto-assigned key
strictly exceeds every previously resolved key — auto-assigned keys are
strictly increasing and never reuse an earlier key, even after deletes,
because the ghost log keeps entries of deleted records. -/
theorem autoincrement (sch : Schema) (txns : List (List Op)) (s : ExecS)
    (h : run sch txns = some s) :
    (∀ e ∈ s.log, ∀ k, e.2 = Val.int k → k ≤ s.store.counter) ∧
    s.log.Pairwise (fun a b => b.1 = true → ∀ ka kb, a.2 = Val.int ka →
      b.2 = Val.int kb → ka < kb) ∧
    (∀ e ∈ s.log, ∃ k, e.2 = Val.int k) :=
  runFrom_pkinv sch txns ExecS.init s h
    ⟨fun e he => absurd he (List.not_mem_nil e),
     List.Pairwise.nil,
     fun e he => absurd he (List.not_mem_nil e)⟩

/-- `autoincrement` instantiated on the `txnsC5` trace: explicit key 5, two
auto keys, a delete in between. -/
theorem autoincrement_witness :
    run schX txnsC5 = some stateC5 ∧
    ((∀ e ∈ stateC5.log, ∀ k, e.2 = Val.int k → k ≤ stateC5.store.counter) ∧
     stateC5.log.Pairwise (fun a b => b.1 = true → ∀ ka kb,
       a.2 = Val.int ka → b.2 = Val.int kb → ka < kb) ∧
     (∀ e ∈ stateC5.log, ∃ k, e.2 = Val.int k)) :=
  ⟨by rfl, autoincrement schX txnsC5 stateC5 (by rfl)⟩

/-- When the insertion phase raises, the pending buffer of the partial state
is untouched: no phase before the final clear writes to it. -/
theorem adds_go_err_pending (sch : Schema) :
    ∀ (l added : List Rid) (s s' : ExecS) (msg : String),
      applyAdds.go sch s added l = CommitResult.err msg s' →
      s'.store.pending = s.store.pending := by
  intro l
  induction l with
  | nil =>
    intro added s s' msg h
    cases h
  | cons r t ih =>
    intro added s s' msg h
    simp only [applyAdds.go] at h
    split at h
    · exact ih added s s' msg h
    · split at h
      · injection h with hm hs
        rw [← hs]
      · rename_i pkv s1 hassign
        split at h
        · injection h with hm hs
          rcases assignPk_frame sch s r pkv s1 hassign with ⟨_, _, _, hp, _⟩
          rw [← hs]
          exact hp
        · split at h
          · have hres := ih (r :: added) _ s' msg h
            rcases assignPk_frame sch s r pkv s1 hassign with ⟨_, _, _, hp, _⟩
            exact hres.trans hp
          · injection h with hm hs
            rcases assignPk_frame sch s r pkv s1 hassign with ⟨_, _, _, hp, _⟩
            rw [← hs]
            exact hp

/-- **C3**: a buffered insert whose resolved primary-key value already
exists in the table makes `commit()` raise a duplicate-key error, and only
then: the modification-index and deletion phases (`h1`, `h2`) and every
earlier insert of the same commit (the loop prefix reaching the duplicate,
`hreach`) have already been applied when the duplicate is detected, so the
raised state `sp1` is partially committed — and its pending buffer is the
uncleared original one. -/
theorem commit_duplicate_pk (sch : Schema) (s s1 s2 sp sp1 : ExecS)
    (added rest : List Rid) (r rex : Rid) (pkv : Val)
    (h1 : update_modified_items_indexes sch s = CommitResult.ok s1)
    (h2 : applyDeletes sch s1 = CommitResult.ok s2)
    (hreach : applyAdds.go sch s2 [] s2.store.pending.toAdd
      = applyAdds.go sch sp added (r :: rest))
    (hnotin : r ∉ added)
    (hassign : assignPk sch sp r = Except.ok (pkv, sp1))
    (hdup : byPkGet sp1.store.byPk pkv = some rex) :
    commit sch s = CommitResult.err "Cannot have duplicate PK value" sp1 ∧
    sp1.store.pending = s.store.pending := by
  have herr : applyAdds.go sch s2 [] s2.store.pending.toAdd
      = CommitResult.err "Cannot have duplicate PK value" sp1 := by
    rw [hreach]
    simp [applyAdds.go, hnotin, hassign, hdup]
  have hadds : applyAdds sch s2
      = CommitResult.err "Cannot have duplicate PK value" sp1 := herr
  refine ⟨?_, ?_⟩
  · simp only [commit, h1, h2, hadds]
  · have hpend1 : sp1.store.pending = s2.store.pending :=
      adds_go_err_pending sch _ [] s2 sp1 _ herr
    rcases ump_frame sch s s1 h1 with ⟨_, _, _, hp1, _, _, _⟩
    rcases deletes_frame sch s1 s2 h2 with ⟨_, hp2, _, _, _⟩
    rw [hpend1, hp2, hp1]

/-- `commit_duplicate_pk` instantiated on the `opsC3` transaction over
`stateX`: the deletion of record 1 and the insertion of record 2 are applied
before the duplicate key 1 of record 3 is detected. -/
theorem commit_duplicate_pk_witness :
    update_modified_items_indexes schX sC3 = CommitResult.ok s1C3 ∧
    applyDeletes schX s1C3 = CommitResult.ok s2C3 ∧
    applyAdds.go schX s2C3 [] s2C3.store.pending.toAdd
      = applyAdds.go schX spC3 [2] [3] ∧
    (3 : Rid) ∉ ([2] : List Rid) ∧
    assignPk schX spC3 3 = Except.ok (Val.int 1, sp1C3) ∧
    byPkGet sp1C3.store.byPk (Val.int 1) = some 0 ∧
    (commit schX sC3 = CommitResult.err "Cannot have duplicate PK value" sp1C3 ∧
     sp1C3.store.pending = sC3.store.pending) :=
  ⟨by rfl, by rfl, by rfl, by decide, by rfl, by rfl,
   commit_duplicate_pk schX sC3 s1C3 s2C3 spC3 sp1C3 [2] [] 3 0 (Val.int 1)
     (by rfl) (by rfl) (by rfl) (by decide) (by rfl) (by rfl)⟩

/-- Python order compatibility is symmetric. -/
theorem valComparable_symm (x y : Val) :
    valComparable x y = valComparable y x := by
  cases x <;> cases y <;> rfl

/-- Bucket lookup distributes over cons. -/
theorem bucketsGet_cons_eq (p : Val × List Rid) (t : List (Val × List Rid))
    (w : Val) :
    bucketsGet (p :: t) w = if p.1 = w then p.2 else bucketsGet t w := by
  by_cases h : p.1 = w <;> simp [bucketsGet, List.find?, h]

/-- An absent bucket key reads as the empty bucket. -/
theorem bucketsGet_eq_nil (bs : List (Val × List Rid)) (v : Val)
    (h : v ∉ bs.map Prod.fst) : bucketsGet bs v = [] := by
  induction bs with
  | nil => rfl
  | cons p t ih =>
    simp only [List.map_cons, List.mem_cons, not_or] at h
    rw [bucketsGet_cons_eq]
    rw [if_neg (fun e => h.1 e.symm)]
    exact ih h.2

/-- A bucket add appends the record to the target bucket (no duplicate). -/
theorem bucketsAdd_get_same (bs : List (Val × List Rid)) (v : Val)
    (r : Rid) :
    bucketsGet (bucketsAdd bs v r) v =
      if r ∈ bucketsGet bs v then bucketsGet bs v
      else bucketsGet bs v ++ [r] := by
  induction bs with
  | nil => simp [bucketsAdd, bucketsGet_cons_eq, bucketsGet]
  | cons p t ih =>
    by_cases hp : p.1 = v
    · rw [show bucketsAdd (p :: t) v r
          = (v, if r ∈ p.2 then p.2 else p.2 ++ [r]) :: t from by
        simp [bucketsAdd, hp]]
      rw [bucketsGet_cons_eq]
      rw [show bucketsGet (p :: t) v = p.2 from by
        rw [bucketsGet_cons_eq, if_pos hp]]
      simp
    · rw [show bucketsAdd (p :: t) v r = p :: bucketsAdd t v r from by
        simp [bucketsAdd, hp]]
      rw [bucketsGet_cons_eq, if_neg hp]
      rw [show bucketsGet (p :: t) v = bucketsGet t v from by
        rw [bucketsGet_cons_eq, if_neg hp]]
      exact ih

/-- A bucket add leaves every other bucket untouched. -/
theorem bucketsAdd_get_other (bs : List (Val × List Rid)) (v : Val)
    (r : Rid) (w : Val) (hw : w ≠ v) :
    bucketsGet (bucketsAdd bs v r) w = bucketsGet bs w := by
  induction bs with
  | nil =>
    rw [show bucketsAdd [] v r = [(v, [r])] from rfl, bucketsGet_cons_eq]
    rw [if_neg (fun e => hw e.symm)]
  | cons p t ih =>
    by_cases hp : p.1 = v
    · rw [show bucketsAdd (p :: t) v r
          = (v, if r ∈ p.2 then p.2 else p.2 ++ [r]) :: t from by
        simp [bucketsAdd, hp]]
      rw [bucketsGet_cons_eq, bucketsGet_cons_eq]
      rw [if_neg (fun e => hw e.symm),
        if_neg (fun e => hw (hp ▸ e).symm)]
    · rw [show bucketsAdd (p :: t) v r = p :: bucketsAdd t v r from by
        simp [bucketsAdd, hp]]
      rw [bucketsGet_cons_eq, bucketsGet_cons_eq]
      by_cases hpw : p.1 = w
      · rw [if_pos hpw, if_pos hpw]
      · rw [if_neg hpw, if_neg hpw]
        exact ih

/-- The bucket keys after a bucket add are the old keys, plus the value if
it was absent. -/
theorem bucketsAdd_keys_mem (bs : List (Val × List Rid)) (v : Val) (r : Rid)
    (w : Val) :
    w ∈ (bucketsAdd bs v r).map Prod.fst ↔
      w ∈ bs.map Prod.fst ∨ w = v := by
  induction bs with
  | nil => simp [bucketsAdd]
  | cons p t ih =>
    by_cases hp : p.1 = v
    · rw [show bucketsAdd (p :: t) v r
          = (v, if r ∈ p.2 then p.2 else p.2 ++ [r]) :: t from by
        simp [bucketsAdd, hp]]
      simp only [List.map_cons, List.mem_cons, hp]
      tauto
    · rw [show bucketsAdd (p :: t) v r = p :: bucketsAdd t v r from by
        simp [bucketsAdd, hp]]
      simp only [List.map_cons, List.mem_cons, ih]
      tauto

/-- A bucket add keeps the bucket keys duplicate-free. -/
theorem bucketsAdd_keys_nodup (bs : List (Val × List Rid)) (v : Val)
    (r : Rid) (hnd : (bs.map Prod.fst).Nodup) :
    ((bucketsAdd bs v r).map Prod.fst).Nodup := by
  induction bs with
  | nil => simp [bucketsAdd]
  | cons p t ih =>
    rw [List.map_cons] at hnd
    rcases List.nodup_cons.mp hnd with ⟨hnm, hnd2⟩
    by_cases hp : p.1 = v
    · rw [show bucketsAdd (p :: t) v r
          = (v, if r ∈ p.2 then p.2 else p.2 ++ [r]) :: t from by
        simp [bucketsAdd, hp]]
      rw [List.map_cons]
      exact List.nodup_cons.mpr ⟨by rw [← hp]; exact hnm, hnd2⟩
    · rw [show bucketsAdd (p :: t) v r = p :: bucketsAdd t v r from by
        simp [bucketsAdd, hp]]
      rw [List.map_cons]
      refine List.nodup_cons.mpr ⟨?_, ih hnd2⟩
      intro hmem
      rcases (bucketsAdd_keys_mem t v r p.1).mp hmem with h | h
      · exact hnm h
      · exact hp h

/-- Bucket remove unfolded one step. -/
theorem bucketsRemove_cons (p : Val × List Rid) (t : List (Val × List Rid))
    (v : Val) (r : Rid) :
    bucketsRemove (p :: t) v r =
      if p.1 = v then
        (if p.2.filter (fun x => x ≠ r) = [] then t
         else (v, p.2.filter (fun x => x ≠ r)) :: t)
      else p :: bucketsRemove t v r := rfl

/-- A bucket remove leaves every other bucket untouched. -/
theorem bucketsRemove_get_other (bs : List (Val × List Rid)) (v : Val)
    (r : Rid) (w : Val) (hw : w ≠ v) :
    bucketsGet (bucketsRemove bs v r) w = bucketsGet bs w := by
  induction bs with
  | nil => rfl
  | cons p t ih =>
    by_cases hp : p.1 = v
    · by_cases hdel : p.2.filter (fun x => x ≠ r) = []
      · rw [bucketsRemove_cons, if_pos hp, if_pos hdel]
        rw [bucketsGet_cons_eq, if_neg (fun e => hw (hp ▸ e).symm)]
      · rw [bucketsRemove_cons, if_pos hp, if_neg hdel]
        rw [bucketsGet_cons_eq, bucketsGet_cons_eq]
        rw [if_neg (fun e => hw e.symm),
          if_neg (fun e => hw (hp ▸ e).symm)]
    · rw [bucketsRemove_cons, if_neg hp]
      rw [bucketsGet_cons_eq, bucketsGet_cons_eq]
      by_cases hpw : p.1 = w
      · rw [if_pos hpw, if_pos hpw]
      · rw [if_neg hpw, if_neg hpw]
        exact ih

/-- A bucket remove (bucket keys duplicate-free) filters the record out of
the target bucket. -/
theorem bucketsRemove_get_same (bs : List (Val × List Rid)) (v : Val)
    (r : Rid) (hnd : (bs.map Prod.fst).Nodup) :
    bucketsGet (bucketsRemove bs v r) v =
      (bucketsGet bs v).filter (fun x => x ≠ r) := by
  induction bs with
  | nil => rfl
  | cons p t ih =>
    rw [List.map_cons] at hnd
    rcases List.nodup_cons.mp hnd with ⟨hnm, hnd2⟩
    by_cases hp : p.1 = v
    · rw [show bucketsGet (p :: t) v = p.2 from by
        rw [bucketsGet_cons_eq, if_pos hp]]
      by_cases hdel : p.2.filter (fun x => x ≠ r) = []
      · rw [bucketsRemove_cons, if_pos hp, if_pos hdel]
        rw [hdel]
        exact bucketsGet_eq_nil t v (by rw [← hp]; exact hnm)
      · rw [bucketsRemove_cons, if_pos hp, if_neg hdel]
        rw [bucketsGet_cons_eq, if_pos rfl]
    · rw [bucketsRemove_cons, if_neg hp]
      rw [bucketsGet_cons_eq, if_neg hp]
      rw [show bucketsGet (p :: t) v = bucketsGet t v from by
        rw [bucketsGet_cons_eq, if_neg hp]]
      exact ih hnd2

/-- A bucket remove only ever drops bucket keys. -/
theorem bucketsRemove_keys_sublist (bs : List (Val × List Rid)) (v : Val)
    (r : Rid) :
    ((bucketsRemove bs v r).map Prod.fst).Sublist (bs.map Prod.fst) := by
  induction bs with
  | nil => exact List.Sublist.refl _
  | cons p t ih =>
    by_cases hp : p.1 = v
    · by_cases hdel : p.2.filter (fun x => x ≠ r) = []
      · rw [bucketsRemove_cons, if_pos hp, if_pos hdel]
        exact (List.Sublist.refl _).cons _
      · rw [bucketsRemove_cons, if_pos hp, if_neg hdel]
        rw [List.map_cons, List.map_cons,
          show ((v, p.2.filter (fun x => x ≠ r))).1 = p.1 from by
            rw [hp]]
    · rw [bucketsRemove_cons, if_neg hp]
      rw [List.map_cons, List.map_cons]
      exact ih.cons₂ _

/-- Hash-index lookup distributes over cons. -/
theorem hashGetBuckets_cons_eq (p : String × List (Val × List Rid))
    (t : HashIdx) (idx : String) :
    hashGetBuckets (p :: t) idx =
      if p.1 = idx then p.2 else hashGetBuckets t idx := by
  by_cases h : p.1 = idx <;> simp [hashGetBuckets, List.find?, h]

/-- Replacing one hash index's buckets, read back at the same index. -/
theorem hashSet_get_same (hi : HashIdx) (idx : String)
    (bs : List (Val × List Rid)) :
    hashGetBuckets (hashSetBuckets hi idx bs) idx = bs := by
  induction hi with
  | nil => simp [hashSetBuckets, hashGetBuckets_cons_eq]
  | cons p t ih =>
    by_cases hp : p.1 = idx
    · rw [show hashSetBuckets (p :: t) idx bs = (idx, bs) :: t from by
        simp [hashSetBuckets, hp]]
      rw [hashGetBuckets_cons_eq, if_pos rfl]
    · rw [show hashSetBuckets (p :: t) idx bs = p :: hashSetBuckets t idx bs
        from by simp [hashSetBuckets, hp]]
      rw [hashGetBuckets_cons_eq, if_neg hp]
      exact ih

/-- Replacing one hash index's buckets, read back at another index. -/
theorem hashSet_get_other (hi : HashIdx) (idx : String)
    (bs : List (Val × List Rid)) (idx2 : String) (h : idx2 ≠ idx) :
    hashGetBuckets (hashSetBuckets hi idx bs) idx2 =
      hashGetBuckets hi idx2 := by
  induction hi with
  | nil =>
    rw [show hashSetBuckets [] idx bs = [(idx, bs)] from rfl,
      hashGetBuckets_cons_eq, if_neg (fun e => h e.symm)]
  | cons p t ih =>
    by_cases hp : p.1 = idx
    · rw [show hashSetBuckets (p :: t) idx bs = (idx, bs) :: t from by
        simp [hashSetBuckets, hp]]
      rw [hashGetBuckets_cons_eq, hashGetBuckets_cons_eq]
      rw [if_neg (fun e => h e.symm), if_neg (fun e => h (hp ▸ e).symm)]
    · rw [show hashSetBuckets (p :: t) idx bs = p :: hashSetBuckets t idx bs
        from by simp [hashSetBuckets, hp]]
      rw [hashGetBuckets_cons_eq, hashGetBuckets_cons_eq]
      by_cases hpw : p.1 = idx2
      · rw [if_pos hpw, if_pos hpw]
      · rw [if_neg hpw, if_neg hpw]
        exact ih

/-- Range-index lookup distributes over cons. -/
theorem rangeGetEntries_cons_eq (p : String × List (Val × List Rid))
    (t : RangeIdx) (idx : String) :
    rangeGetEntries (p :: t) idx =
      if p.1 = idx then p.2 else rangeGetEntries t idx := by
  by_cases h : p.1 = idx <;> simp [rangeGetEntries, List.find?, h]

/-- Replacing one range index's entries, read back at the same index. -/
theorem rangeSet_get_same (ri : RangeIdx) (idx : String)
    (es : List (Val × List Rid)) :
    rangeGetEntries (rangeSetEntries ri idx es) idx = es := by
  induction ri with
  | nil => simp [rangeSetEntries, rangeGetEntries_cons_eq]
  | cons p t ih =>
    by_cases hp : p.1 = idx
    · rw [show rangeSetEntries (p :: t) idx es = (idx, es) :: t from by
        simp [rangeSetEntries, hp]]
      rw [rangeGetEntries_cons_eq, if_pos rfl]
    · rw [show rangeSetEntries (p :: t) idx es = p :: rangeSetEntries t idx es
        from by simp [rangeSetEntries, hp]]
      rw [rangeGetEntries_cons_eq, if_neg hp]
      exact ih

/-- Replacing one range index's entries, read back at another index. -/
theorem rangeSet_get_other (ri : RangeIdx) (idx : String)
    (es : List (Val × List Rid)) (idx2 : String) (h : idx2 ≠ idx) :
    rangeGetEntries (rangeSetEntries ri idx es) idx2 =
      rangeGetEntries ri idx2 := by
  induction ri with
  | nil =>
    rw [show rangeSetEntries [] idx es = [(idx, es)] from rfl,
      rangeGetEntries_cons_eq, if_neg (fun e => h e.symm)]
  | cons p t ih =>
    by_cases hp : p.1 = idx
    · rw [show rangeSetEntries (p :: t) idx es = (idx, es) :: t from by
        simp [rangeSetEntries, hp]]
      rw [rangeGetEntries_cons_eq, rangeGetEntries_cons_eq]
      rw [if_neg (fun e => h e.symm), if_neg (fun e => h (hp ▸ e).symm)]
    · rw [show rangeSetEntries (p :: t) idx es = p :: rangeSetEntries t idx es
        from by simp [rangeSetEntries, hp]]
      rw [rangeGetEntries_cons_eq, rangeGetEntries_cons_eq]
      by_cases hpw : p.1 = idx2
      · rw [if_pos hpw, if_pos hpw]
      · rw [if_neg hpw, if_neg hpw]
        exact ih

/-- Dropping the first occurrence yields a sublist. -/
theorem removeFirst_sublist (l : List Rid) (r : Rid) :
    (rangeEntriesRemove.removeFirst l r).Sublist l := by
  induction l with
  | nil => exact List.Sublist.refl _
  | cons x t ih =>
    by_cases hx : x = r
    · rw [show rangeEntriesRemove.removeFirst (x :: t) r = t from by
        simp [rangeEntriesRemove.removeFirst, hx]]
      exact (List.Sublist.refl _).cons _
    · rw [show rangeEntriesRemove.removeFirst (x :: t) r
          = x :: rangeEntriesRemove.removeFirst t r from by
        simp [rangeEntriesRemove.removeFirst, hx]]
      exact ih.cons₂ _

/-- Dropping the first occurrence of another record keeps membership. -/
theorem mem_removeFirst_of_ne (l : List Rid) (r x : Rid) (hx : x ≠ r) :
    x ∈ rangeEntriesRemove.removeFirst l r ↔ x ∈ l := by
  induction l with
  | nil => simp [rangeEntriesRemove.removeFirst]
  | cons y t ih =>
    by_cases hy : y = r
    · rw [show rangeEntriesRemove.removeFirst (y :: t) r = t from by
        simp [rangeEntriesRemove.removeFirst, hy]]
      simp only [List.mem_cons]
      constructor
      · exact Or.inr
      · rintro (h | h)
        · exact absurd (h.trans hy) hx
        · exact h
    · rw [show rangeEntriesRemove.removeFirst (y :: t) r
          = y :: rangeEntriesRemove.removeFirst t r from by
        simp [rangeEntriesRemove.removeFirst, hy]]
      simp only [List.mem_cons, ih]

/-- Range-entry remove unfolded one step. -/
theorem rangeEntriesRemove_cons (p : Val × List Rid)
    (t : List (Val × List Rid)) (v : Val) (r : Rid) :
    rangeEntriesRemove (p :: t) v r =
      if p.1 = v then
        (if rangeEntriesRemove.removeFirst p.2 r = [] then
          rangeEntriesRemove t v r
         else (p.1, rangeEntriesRemove.removeFirst p.2 r) ::
           rangeEntriesRemove t v r)
      else p :: rangeEntriesRemove t v r := rfl

/-- A range-entry remove only ever drops keys. -/
theorem rangeEntriesRemove_keys_sublist (es : List (Val × List Rid))
    (v : Val) (r : Rid) :
    ((rangeEntriesRemove es v r).map Prod.fst).Sublist
      (es.map Prod.fst) := by
  induction es with
  | nil => exact List.Sublist.refl _
  | cons p t ih =>
    rw [rangeEntriesRemove_cons]
    by_cases hp : p.1 = v
    · rw [if_pos hp]
      by_cases hdel : rangeEntriesRemove.removeFirst p.2 r = []
      · rw [if_pos hdel]
        exact ih.cons _
      · rw [if_neg hdel, List.map_cons, List.map_cons]
        exact ih.cons₂ _
    · rw [if_neg hp, List.map_cons, List.map_cons]
      exact ih.cons₂ _

/-- A range-entry remove leaves every other key's list untouched. -/
theorem rangeEntriesRemove_get_other (es : List (Val × List Rid)) (v : Val)
    (r : Rid) (w : Val) (hw : w ≠ v) :
    bucketsGet (rangeEntriesRemove es v r) w = bucketsGet es w := by
  induction es with
  | nil => rfl
  | cons p t ih =>
    rw [rangeEntriesRemove_cons]
    by_cases hp : p.1 = v
    · have hpw : ¬ (p.1 = w) := fun e => hw ((hp ▸ e : v = w)).symm
      rw [if_pos hp]
      by_cases hdel : rangeEntriesRemove.removeFirst p.2 r = []
      · rw [if_pos hdel, show bucketsGet (p :: t) w = bucketsGet t w from by
          rw [bucketsGet_cons_eq, if_neg hpw]]
        exact ih
      · rw [if_neg hdel, bucketsGet_cons_eq]
        rw [if_neg (show ¬ ((p.1 : Val) = w) from hpw)]
        rw [show bucketsGet (p :: t) w = bucketsGet t w from by
          rw [bucketsGet_cons_eq, if_neg hpw]]
        exact ih
    · rw [if_neg hp, bucketsGet_cons_eq, bucketsGet_cons_eq]
      by_cases hpw : p.1 = w
      · rw [if_pos hpw, if_pos hpw]
      · rw [if_neg hpw, if_neg hpw]
        exact ih

/-- A range-entry remove (keys duplicate-free) drops the first occurrence
of the record from the target key's list. -/
theorem rangeEntriesRemove_get_same (es : List (Val × List Rid)) (v : Val)
    (r : Rid) (hnd : (es.map Prod.fst).Nodup) :
    bucketsGet (rangeEntriesRemove es v r) v =
      rangeEntriesRemove.removeFirst (bucketsGet es v) r := by
  induction es with
  | nil => rfl
  | cons p t ih =>
    rw [List.map_cons] at hnd
    rcases List.nodup_cons.mp hnd with ⟨hnm, hnd2⟩
    rw [rangeEntriesRemove_cons]
    by_cases hp : p.1 = v
    · rw [show bucketsGet (p :: t) v = p.2 from by
        rw [bucketsGet_cons_eq, if_pos hp]]
      rw [if_pos hp]
      have htnil : bucketsGet (rangeEntriesRemove t v r) v = [] := by
        refine bucketsGet_eq_nil _ v (fun hmem => ?_)
        exact (hp ▸ hnm) ((rangeEntriesRemove_keys_sublist t v r).mem hmem)
      by_cases hdel : rangeEntriesRemove.removeFirst p.2 r = []
      · rw [if_pos hdel, hdel, htnil]
      · rw [if_neg hdel, bucketsGet_cons_eq, if_pos hp]
    · rw [if_neg hp, bucketsGet_cons_eq, if_neg hp]
      rw [show bucketsGet (p :: t) v = bucketsGet t v from by
        rw [bucketsGet_cons_eq, if_neg hp]]
      exact ih hnd2

/-- The keys after a sorted insertion are a permutation of the new key and
the old keys. -/
theorem insertSorted_keys_perm (es : List (Val × List Rid)) (v : Val)
    (r : Rid) :
    ((rangeInsertKey.insertSorted es v r).map Prod.fst).Perm
      (v :: es.map Prod.fst) := by
  induction es with
  | nil => exact List.Perm.refl _
  | cons p t ih =>
    by_cases hlt : valLt v p.1 = some true
    · rw [show rangeInsertKey.insertSorted (p :: t) v r
          = (v, [r]) :: p :: t from by
        simp [rangeInsertKey.insertSorted, hlt]]
      exact List.Perm.refl _
    · rw [show rangeInsertKey.insertSorted (p :: t) v r
          = p :: rangeInsertKey.insertSorted t v r from by
        simp [rangeInsertKey.insertSorted, hlt]]
      rw [List.map_cons, List.map_cons]
      exact (ih.cons p.1).trans (List.Perm.swap v p.1 _)

/-- A sorted insertion of an absent key creates its singleton list and
leaves every other key's list untouched. -/
theorem insertSorted_get (es : List (Val × List Rid)) (v : Val) (r : Rid)
    (hv : v ∉ es.map Prod.fst) (w : Val) :
    bucketsGet (rangeInsertKey.insertSorted es v r) w =
      if w = v then [r] else bucketsGet es w := by
  induction es with
  | nil =>
    rw [show rangeInsertKey.insertSorted [] v r = [(v, [r])] from rfl,
      bucketsGet_cons_eq]
    by_cases hw : w = v
    · rw [if_pos hw, if_pos (show (v, [r]).1 = w from hw.symm)]
    · rw [if_neg hw, if_neg (show ¬ ((v, [r]).1 = w) from
        fun e => hw e.symm)]
  | cons p t ih =>
    simp only [List.map_cons, List.mem_cons, not_or] at hv
    by_cases hlt : valLt v p.1 = some true
    · rw [show rangeInsertKey.insertSorted (p :: t) v r
          = (v, [r]) :: p :: t from by
        simp [rangeInsertKey.insertSorted, hlt]]
      rw [bucketsGet_cons_eq]
      by_cases hw : w = v
      · rw [if_pos hw, if_pos (show (v, [r]).1 = w from hw.symm)]
      · rw [if_neg hw, if_neg (show ¬ ((v, [r]).1 = w) from
          fun e => hw e.symm)]
    · rw [show rangeInsertKey.insertSorted (p :: t) v r
          = p :: rangeInsertKey.insertSorted t v r from by
        simp [rangeInsertKey.insertSorted, hlt]]
      rw [bucketsGet_cons_eq, bucketsGet_cons_eq]
      by_cases hpw : p.1 = w
      · rw [if_pos hpw, if_pos hpw,
          if_neg (show ¬ (w = v) from fun e => hv.1 ((hpw.trans e).symm ▸ rfl))]
      · rw [if_neg hpw, if_neg hpw]
        exact ih (fun hmem => hv.2 hmem)

/-- Appending a record to the present key's list, read at another key. -/
theorem mapAppend_get_other (es : List (Val × List Rid)) (v : Val)
    (r : Rid) (w : Val) (hw : w ≠ v) :
    bucketsGet (es.map (fun p => if p.1 = v then (p.1, p.2 ++ [r]) else p)) w
      = bucketsGet es w := by
  induction es with
  | nil => rfl
  | cons q t ih =>
    by_cases hq : q.1 = v
    · have hqw : ¬ (q.1 = w) := fun e => hw (e.symm.trans hq)
      simp [bucketsGet_cons_eq, hq, hqw, ih,
        show ¬ ((v : Val) = w) from fun e => hw e.symm]
    · by_cases hqw : q.1 = w
      · simp [bucketsGet_cons_eq, hq, hqw, hw, ih]
      · simp [bucketsGet_cons_eq, hq, hqw, hw, ih]

/-- Appending a record to the present key's list, read at that key. -/
theorem mapAppend_get_same (es : List (Val × List Rid)) (v : Val)
    (r : Rid) (hpresent : v ∈ es.map Prod.fst) :
    bucketsGet (es.map (fun p => if p.1 = v then (p.1, p.2 ++ [r]) else p)) v
      = bucketsGet es v ++ [r] := by
  induction es with
  | nil => cases hpresent
  | cons q t ih =>
    rw [List.map_cons] at hpresent
    by_cases hq : q.1 = v
    · simp [bucketsGet_cons_eq, hq]
    · have h3 : v ∈ t.map Prod.fst := by
        rcases List.mem_cons.mp hpresent with h3 | h3
        · exact absurd h3.symm hq
        · exact h3
      simp [bucketsGet_cons_eq, hq, ih h3]

/-- `RangeIndex.add` at the entry level, successful: the record is appended
to the target key's list, every other key's list is untouched. -/
theorem rangeEntriesAdd_ok_get (es : List (Val × List Rid)) (v : Val)
    (r : Rid) (es2 : List (Val × List Rid))
    (h : rangeEntriesAdd es v r = Except.ok es2) (w : Val) :
    bucketsGet es2 w =
      if w = v then bucketsGet es v ++ [r] else bucketsGet es w := by
  unfold rangeEntriesAdd at h
  split at h
  · rename_i p0 hfind
    injection h with h2
    subst h2
    have hpresent : v ∈ es.map Prod.fst := by
      rcases List.find?_some hfind with hp0
      exact List.mem_map.mpr ⟨p0, List.mem_of_find?_eq_some hfind,
        by simpa using hp0⟩
    by_cases hw : w = v
    · subst hw
      rw [if_pos rfl]
      exact mapAppend_get_same es w r hpresent
    · rw [if_neg hw]
      exact mapAppend_get_other es v r w hw
  · rename_i hfind
    have habsent : v ∉ es.map Prod.fst := by
      intro hmem
      rcases List.mem_map.mp hmem with ⟨p0, hp0, hfst⟩
      have := List.find?_eq_none.mp hfind p0 hp0
      simp [hfst] at this
    unfold rangeInsertKey at h
    split at h
    · injection h with h2
      subst h2
      rw [insertSorted_get es v r habsent w]
      by_cases hw : w = v
      · rw [if_pos hw, if_pos hw, bucketsGet_eq_nil es v habsent]
        rfl
      · rw [if_neg hw, if_neg hw]
    · cases h

/-- `RangeIndex.add` at the entry level, successful: either the key was
present and the keys are unchanged, or the new key joins the old ones and is
order-compatible with each of them. -/
theorem rangeEntriesAdd_ok_keys (es : List (Val × List Rid)) (v : Val)
    (r : Rid) (es2 : List (Val × List Rid))
    (h : rangeEntriesAdd es v r = Except.ok es2) :
    (es2.map Prod.fst = es.map Prod.fst ∧ v ∈ es.map Prod.fst) ∨
      ((es2.map Prod.fst).Perm (v :: es.map Prod.fst) ∧
       v ∉ es.map Prod.fst ∧
       ∀ w ∈ es.map Prod.fst, valComparable v w = true) := by
  unfold rangeEntriesAdd at h
  split at h
  · rename_i p0 hfind
    injection h with h2
    subst h2
    left
    refine ⟨?_, ?_⟩
    · rw [List.map_map]
      refine List.map_congr_left (fun p hp => ?_)
      by_cases hq : p.1 = v
      · simp [hq]
      · simp [hq]
    · rcases List.find?_some hfind with hp0
      exact List.mem_map.mpr ⟨p0, List.mem_of_find?_eq_some hfind,
        by simpa using hp0⟩
  · rename_i hfind
    have habsent : v ∉ es.map Prod.fst := by
      intro hmem
      rcases List.mem_map.mp hmem with ⟨p0, hp0, hfst⟩
      have := List.find?_eq_none.mp hfind p0 hp0
      simp [hfst] at this
    unfold rangeInsertKey at h
    split at h
    · rename_i hall
      injection h with h2
      subst h2
      refine Or.inr ⟨insertSorted_keys_perm es v r, habsent, ?_⟩
      intro w hw
      rcases List.mem_map.mp hw with ⟨p0, hp0, hfst⟩
      have := List.all_eq_true.mp hall p0 hp0
      rw [← hfst]
      simpa using this
    · cases h

/-- A non-empty bucket's key is present. -/
theorem mem_keys_of_bucketsGet (es : List (Val × List Rid)) (v : Val)
    (r2 : Rid) (h : r2 ∈ bucketsGet es v) : v ∈ es.map Prod.fst := by
  by_contra habs
  rw [bucketsGet_eq_nil es v habs] at h
  cases h

/-- Membership in a bucket after a bucket add. -/
theorem mem_bucketsAdd (bs : List (Val × List Rid)) (v : Val) (r : Rid)
    (w : Val) (r2 : Rid) :
    r2 ∈ bucketsGet (bucketsAdd bs v r) w ↔
      r2 ∈ bucketsGet bs w ∨ (r2 = r ∧ w = v) := by
  by_cases hw : w = v
  · subst hw
    rw [bucketsAdd_get_same]
    by_cases hr : r ∈ bucketsGet bs w
    · rw [if_pos hr]
      constructor
      · exact Or.inl
      · rintro (h | ⟨h1, h2⟩)
        · exact h
        · rw [h1]; exact hr
    · rw [if_neg hr]
      simp only [List.mem_append, List.mem_singleton]
      tauto
  · rw [bucketsAdd_get_other bs v r w hw]
    constructor
    · exact Or.inl
    · rintro (h | ⟨h1, h2⟩)
      · exact h
      · exact absurd h2 hw

/-- Membership in a bucket after a bucket remove (keys duplicate-free). -/
theorem mem_bucketsRemove (bs : List (Val × List Rid)) (v : Val) (r : Rid)
    (w : Val) (r2 : Rid) (hnd : (bs.map Prod.fst).Nodup) :
    r2 ∈ bucketsGet (bucketsRemove bs v r) w ↔
      r2 ∈ bucketsGet bs w ∧ ¬ (r2 = r ∧ w = v) := by
  by_cases hw : w = v
  · subst hw
    rw [bucketsRemove_get_same bs w r hnd]
    simp only [List.mem_filter, decide_eq_true_eq]
    constructor
    · rintro ⟨h1, h2⟩
      exact ⟨h1, fun h3 => h2 h3.1⟩
    · rintro ⟨h1, h2⟩
      exact ⟨h1, fun h3 => h2 ⟨h3, trivial⟩⟩
  · rw [bucketsRemove_get_other bs v r w hw]
    constructor
    · intro h
      exact ⟨h, fun h2 => hw h2.2⟩
    · exact And.left

/-- Hash-index add, read at the target index. -/
theorem hashAdd_get_same (hi : HashIdx) (idx : String) (v : Val) (r : Rid) :
    hashGetBuckets (hashAdd hi idx v r) idx =
      bucketsAdd (hashGetBuckets hi idx) v r :=
  hashSet_get_same hi idx _

/-- Hash-index add, read at another index. -/
theorem hashAdd_get_other (hi : HashIdx) (idx : String) (v : Val) (r : Rid)
    (idx2 : String) (h : idx2 ≠ idx) :
    hashGetBuckets (hashAdd hi idx v r) idx2 = hashGetBuckets hi idx2 :=
  hashSet_get_other hi idx _ idx2 h

/-- Hash-index remove, read at the target index. -/
theorem hashRemove_get_same (hi : HashIdx) (idx : String) (v : Val)
    (r : Rid) :
    hashGetBuckets (hashRemove hi idx v r) idx =
      bucketsRemove (hashGetBuckets hi idx) v r :=
  hashSet_get_same hi idx _

/-- Hash-index remove, read at another index. -/
theorem hashRemove_get_other (hi : HashIdx) (idx : String) (v : Val)
    (r : Rid) (idx2 : String) (h : idx2 ≠ idx) :
    hashGetBuckets (hashRemove hi idx v r) idx2 = hashGetBuckets hi idx2 :=
  hashSet_get_other hi idx _ idx2 h

/-- Range-index remove, read at the target index. -/
theorem rangeRemove_get_same (ri : RangeIdx) (idx : String) (v : Val)
    (r : Rid) :
    rangeGetEntries (rangeRemove ri idx v r) idx =
      rangeEntriesRemove (rangeGetEntries ri idx) v r :=
  rangeSet_get_same ri idx _

/-- Range-index remove, read at another index. -/
theorem rangeRemove_get_other (ri : RangeIdx) (idx : String) (v : Val)
    (r : Rid) (idx2 : String) (h : idx2 ≠ idx) :
    rangeGetEntries (rangeRemove ri idx v r) idx2 =
      rangeGetEntries ri idx2 :=
  rangeSet_get_other ri idx _ idx2 h

/-- A successful range-index add decomposes into a successful entry-level
add written back at the target index. -/
theorem rangeAdd_ok_elim (ri : RangeIdx) (idx : String) (v : Val) (r : Rid)
    (ri2 : RangeIdx) (h : rangeAdd ri idx v r = Except.ok ri2) :
    ∃ es2, rangeEntriesAdd (rangeGetEntries ri idx) v r = Except.ok es2 ∧
      ri2 = rangeSetEntries ri idx es2 := by
  unfold rangeAdd at h
  cases he : rangeEntriesAdd (rangeGetEntries ri idx) v r with
  | error e =>
    rw [he] at h
    cases h
  | ok es2 =>
    rw [he] at h
    injection h with h2
    exact ⟨es2, rfl, h2.symm⟩

/-- A hash-index add keeps every index's bucket keys duplicate-free. -/
theorem hashAdd_keys_nodup (hi : HashIdx) (idx : String) (v : Val) (r : Rid)
    (h : ∀ idx2, ((hashGetBuckets hi idx2).map Prod.fst).Nodup) :
    ∀ idx2, ((hashGetBuckets (hashAdd hi idx v r) idx2).map Prod.fst).Nodup := by
  intro idx2
  by_cases he : idx2 = idx
  · subst he
    rw [hashAdd_get_same]
    exact bucketsAdd_keys_nodup _ v r (h idx2)
  · rw [hashAdd_get_other hi idx v r idx2 he]
    exact h idx2

/-- A hash-index remove keeps every index's bucket keys duplicate-free. -/
theorem hashRemove_keys_nodup (hi : HashIdx) (idx : String) (v : Val)
    (r : Rid) (h : ∀ idx2, ((hashGetBuckets hi idx2).map Prod.fst).Nodup) :
    ∀ idx2,
      ((hashGetBuckets (hashRemove hi idx v r) idx2).map Prod.fst).Nodup := by
  intro idx2
  by_cases he : idx2 = idx
  · subst he
    rw [hashRemove_get_same]
    exact ((bucketsRemove_keys_sublist _ v r).nodup (h idx2))
  · rw [hashRemove_get_other hi idx v r idx2 he]
    exact h idx2

/-- The order-compatibility relation on values, as needed for permutation
and pairwise reasoning, is symmetric. -/
theorem valComparable_symmetric :
    Symmetric (fun a b => valComparable a b = true) := by
  intro a b h
  rw [valComparable_symm]
  exact h

/-- Nothing is order-compatible with None. -/
theorem valComparable_none_left (x : Val) :
    valComparable Val.none x = false := by
  cases x <;> rfl

/-- Nothing is order-compatible with None. -/
theorem valComparable_none_right (x : Val) :
    valComparable x Val.none = false := by
  cases x <;> rfl

/-- Two distinct members of a pairwise order-compatible list are
order-compatible. -/
theorem pairwise_comp_mem (l : List Val)
    (hp : l.Pairwise (fun a b => valComparable a b = true)) (a b : Val)
    (ha : a ∈ l) (hb : b ∈ l) (hne : a ≠ b) : valComparable a b = true := by
  induction l with
  | nil => cases ha
  | cons x t ih =>
    rcases List.pairwise_cons.mp hp with ⟨hx, ht⟩
    rcases List.mem_cons.mp ha with ha2 | ha2 <;>
      rcases List.mem_cons.mp hb with hb2 | hb2
    · exact absurd (ha2.trans hb2.symm) hne
    · rw [ha2]
      exact hx b hb2
    · rw [hb2, valComparable_symm]
      exact hx a ha2
    · exact ih ht ha2 hb2

/-- `IndexManager.on_insert`, successful, characterized over the index
list it still has to process.  Under the entry coherence conditions (the
record's existing hash entries sit at its expected old column values, which
can differ from the current record values only by having been None; hash
entries are mirrored in the range index; range keys are pairwise
order-compatible and duplicate-free), a successful insert (1) leaves
unprocessed indexes untouched, (2) adds the record to each index's bucket
for its current value and nothing else, (3) forces every pre-existing hash
entry of the record to already sit at the current value — otherwise the
range insert of the changed (necessarily non-None, previously-None) value
would have raised `TypeError` against the None key —, and (4–7) preserves
the coherence conditions. -/
theorem on_insert_go_spec (rec : Rec) (r : Rid) (oldv : String → Val)
    (hchange : ∀ col, oldv col ≠ recGet rec col → oldv col = Val.none) :
    ∀ (il : List (String × String)) (im im2 : IdxMgr),
      on_insert.go rec r im il = (im2, Option.none) →
      (il.map Prod.fst).Nodup →
      (∀ p ∈ il, ∀ v, r ∈ bucketsGet (hashGetBuckets im.hash p.1) v →
        v = oldv p.2) →
      (∀ p ∈ il, ∀ v r2, r2 ∈ bucketsGet (hashGetBuckets im.hash p.1) v →
        r2 ∈ bucketsGet (rangeGetEntries im.range p.1) v) →
      (∀ p ∈ il, ((rangeGetEntries im.range p.1).map Prod.fst).Pairwise
        (fun a b => valComparable a b = true)) →
      (∀ p ∈ il, ((rangeGetEntries im.range p.1).map Prod.fst).Nodup) →
      (∀ idx, ((hashGetBuckets im.hash idx).map Prod.fst).Nodup) →
      ((∀ idx, idx ∉ il.map Prod.fst →
        hashGetBuckets im2.hash idx = hashGetBuckets im.hash idx ∧
        rangeGetEntries im2.range idx = rangeGetEntries im.range idx) ∧
      (∀ p ∈ il, ∀ v r2,
        r2 ∈ bucketsGet (hashGetBuckets im2.hash p.1) v ↔
          (r2 ∈ bucketsGet (hashGetBuckets im.hash p.1) v ∨
           (r2 = r ∧ v = recGet rec p.2))) ∧
      (∀ p ∈ il, ∀ v, r ∈ bucketsGet (hashGetBuckets im.hash p.1) v →
        v = recGet rec p.2) ∧
      (∀ p ∈ il, ∀ v r2,
        r2 ∈ bucketsGet (hashGetBuckets im2.hash p.1) v →
        r2 ∈ bucketsGet (rangeGetEntries im2.range p.1) v) ∧
      (∀ p ∈ il, ((rangeGetEntries im2.range p.1).map Prod.fst).Pairwise
        (fun a b => valComparable a b = true)) ∧
      (∀ p ∈ il, ((rangeGetEntries im2.range p.1).map Prod.fst).Nodup) ∧
      (∀ idx, ((hashGetBuckets im2.hash idx).map Prod.fst).Nodup)) := by
  intro il
  induction il with
  | nil =>
    intro im im2 h _ _ _ _ _ hknd
    injection h with h1 h2
    subst h1
    exact ⟨fun idx _ => ⟨rfl, rfl⟩,
      fun p hp => absurd hp (List.not_mem_nil p),
      fun p hp => absurd hp (List.not_mem_nil p),
      fun p hp => absurd hp (List.not_mem_nil p),
      fun p hp => absurd hp (List.not_mem_nil p),
      fun p hp => absurd hp (List.not_mem_nil p), hknd⟩
  | cons q t ih =>
    intro im im2 h hnodup hI2r hA5 hA6 hrn hknd
    obtain ⟨idx, col⟩ := q
    rw [List.map_cons] at hnodup
    rcases List.nodup_cons.mp hnodup with ⟨hidxnm, hnodup2⟩
    simp only [on_insert.go] at h
    split at h
    · rename_i r2 hradd
      rcases rangeAdd_ok_elim im.range idx (recGet rec col) r r2 hradd with
        ⟨es2, hadd, hr2⟩
      have hne_of_mem : ∀ p : String × String, p ∈ t → ¬ (p.1 = idx) := by
        intro p hp he
        exact hidxnm (he ▸ List.mem_map.mpr ⟨p, hp, rfl⟩)
      have him1h : ∀ p : String × String, p ∈ t →
          hashGetBuckets (hashAdd im.hash idx (recGet rec col) r) p.1
            = hashGetBuckets im.hash p.1 := by
        intro p hp
        exact hashAdd_get_other im.hash idx _ r p.1 (hne_of_mem p hp)
      have him1r : ∀ p : String × String, p ∈ t →
          rangeGetEntries r2 p.1 = rangeGetEntries im.range p.1 := by
        intro p hp
        rw [hr2]
        exact rangeSet_get_other im.range idx es2 p.1 (hne_of_mem p hp)
      have hres := ih _ im2 h hnodup2
        (fun p hp v hv => hI2r p (List.mem_cons_of_mem _ hp) v
          (by rw [← him1h p hp]; exact hv))
        (fun p hp v r3 hv => by
          rw [him1r p hp]
          exact hA5 p (List.mem_cons_of_mem _ hp) v r3
            (by rw [← him1h p hp]; exact hv))
        (fun p hp => by
          rw [him1r p hp]
          exact hA6 p (List.mem_cons_of_mem _ hp))
        (fun p hp => by
          rw [him1r p hp]
          exact hrn p (List.mem_cons_of_mem _ hp))
        (hashAdd_keys_nodup im.hash idx _ r hknd)
      obtain ⟨hun, hmem, hstale, ha5p, ha6p, hrnp, hkndp⟩ := hres
      have hgetidx : hashGetBuckets im2.hash idx
          = bucketsAdd (hashGetBuckets im.hash idx) (recGet rec col) r := by
        rw [(hun idx hidxnm).1]
        exact hashAdd_get_same im.hash idx _ r
      have hrgetidx : rangeGetEntries im2.range idx = es2 := by
        rw [(hun idx hidxnm).2, hr2]
        exact rangeSet_get_same im.range idx es2
      have hstale_head : ∀ v, r ∈ bucketsGet (hashGetBuckets im.hash idx) v →
          v = recGet rec col := by
        intro v hv
        by_contra hne
        have hvold : v = oldv col := hI2r (idx, col) (List.mem_cons_self _ _) v hv
        have hnone : oldv col = Val.none :=
          hchange col (fun e => hne (hvold.trans e))
        have hvnone : v = Val.none := hvold.trans hnone
        have hrrange : r ∈ bucketsGet (rangeGetEntries im.range idx) v :=
          hA5 (idx, col) (List.mem_cons_self _ _) v r hv
        have hkey : v ∈ (rangeGetEntries im.range idx).map Prod.fst :=
          mem_keys_of_bucketsGet _ v r hrrange
        have hrecvne : recGet rec col ≠ Val.none := by
          intro e
          exact hne (hvnone.trans e.symm)
        rcases rangeEntriesAdd_ok_keys _ _ r es2 hadd with
          ⟨hkeq, hpres⟩ | ⟨hperm, habs, hcomp⟩
        · have hcompat := pairwise_comp_mem _
            (hA6 (idx, col) (List.mem_cons_self _ _)) v (recGet rec col)
            hkey hpres (fun e => hne e)
          rw [hvnone, valComparable_none_left] at hcompat
          cases hcompat
        · have hcompat := hcomp v hkey
          rw [hvnone, valComparable_none_right] at hcompat
          cases hcompat
      refine ⟨?_, ?_, ?_, ?_, ?_, ?_, hkndp⟩
      · intro idx2 hidx2
        rw [List.map_cons] at hidx2
        have hh : idx2 ≠ idx := fun e => hidx2 (e ▸ List.mem_cons_self _ _)
        have ht : idx2 ∉ t.map Prod.fst :=
          fun hm => hidx2 (List.mem_cons_of_mem _ hm)
        rcases hun idx2 ht with ⟨h1, h2⟩
        refine ⟨h1.trans (hashAdd_get_other im.hash idx _ r idx2 hh), ?_⟩
        rw [h2, hr2]
        exact rangeSet_get_other im.range idx es2 idx2 hh
      · intro p hp v r3
        rcases List.mem_cons.mp hp with hp | hp
        · subst hp
          rw [hgetidx]
          exact mem_bucketsAdd _ _ r v r3
        · rw [← him1h p hp]
          exact hmem p hp v r3
      · intro p hp v hv
        rcases List.mem_cons.mp hp with hp | hp
        · subst hp
          exact hstale_head v hv
        · exact hstale p hp v (by rw [him1h p hp]; exact hv)
      · intro p hp v r3 hv
        rcases List.mem_cons.mp hp with hp | hp
        · subst hp
          rw [hgetidx] at hv
          rw [hrgetidx]
          rcases (mem_bucketsAdd _ _ r v r3).mp hv with hv2 | ⟨he1, he2⟩
          · have hpre : r3 ∈ bucketsGet (rangeGetEntries im.range idx) v :=
              hA5 (idx, col) (List.mem_cons_self _ _) v r3 hv2
            rw [rangeEntriesAdd_ok_get _ _ r es2 hadd v]
            by_cases hvv : v = recGet rec col
            · rw [if_pos hvv]
              rw [hvv] at hpre
              exact List.mem_append.mpr (Or.inl hpre)
            · rw [if_neg hvv]
              exact hpre
          · rw [he1, he2]
            rw [rangeEntriesAdd_ok_get _ _ r es2 hadd (recGet rec col),
              if_pos rfl]
            exact List.mem_append.mpr (Or.inr (List.mem_singleton.mpr rfl))
        · exact ha5p p hp v r3 hv
      · intro p hp
        rcases List.mem_cons.mp hp with hp | hp
        · subst hp
          rw [hrgetidx]
          rcases rangeEntriesAdd_ok_keys _ _ r es2 hadd with
            ⟨hkeq, _⟩ | ⟨hperm, habs, hcomp⟩
          · rw [hkeq]
            exact hA6 (idx, col) (List.mem_cons_self _ _)
          · rw [hperm.pairwise_iff (fun h => by
              rw [valComparable_symm]; exact h)]
            exact List.pairwise_cons.mpr
              ⟨hcomp, hA6 (idx, col) (List.mem_cons_self _ _)⟩
        · exact ha6p p hp
      · intro p hp
        rcases List.mem_cons.mp hp with hp | hp
        · subst hp
          rw [hrgetidx]
          rcases rangeEntriesAdd_ok_keys _ _ r es2 hadd with
            ⟨hkeq, _⟩ | ⟨hperm, habs, hcomp⟩
          · rw [hkeq]
            exact hrn (idx, col) (List.mem_cons_self _ _)
          · rw [hperm.nodup_iff]
            exact List.nodup_cons.mpr
              ⟨habs, hrn (idx, col) (List.mem_cons_self _ _)⟩
        · exact hrnp p hp
    · rename_i e herr
      injection h with h1 h2
      cases h2

/-- `IndexManager.on_delete`, characterized over the index list it still
has to process: each processed index's hash bucket for the record's current
column value loses exactly that record, other range entries survive, range
keys only shrink, unprocessed indexes are untouched. -/
theorem on_delete_fold_spec (rec : Rec) (r : Rid) :
    ∀ (il : List (String × String)) (im : IdxMgr),
      (il.map Prod.fst).Nodup →
      (∀ idx, ((hashGetBuckets im.hash idx).map Prod.fst).Nodup) →
      (∀ p ∈ il, ((rangeGetEntries im.range p.1).map Prod.fst).Nodup) →
      ((∀ idx, idx ∉ il.map Prod.fst →
        hashGetBuckets (il.foldl (fun im p =>
          { hash := hashRemove im.hash p.1 (recGet rec p.2) r,
            range := rangeRemove im.range p.1 (recGet rec p.2) r :
            IdxMgr }) im).hash idx = hashGetBuckets im.hash idx ∧
        rangeGetEntries (il.foldl (fun im p =>
          { hash := hashRemove im.hash p.1 (recGet rec p.2) r,
            range := rangeRemove im.range p.1 (recGet rec p.2) r :
            IdxMgr }) im).range idx = rangeGetEntries im.range idx) ∧
      (∀ p ∈ il, ∀ w r2,
        r2 ∈ bucketsGet (hashGetBuckets (il.foldl (fun im p =>
          { hash := hashRemove im.hash p.1 (recGet rec p.2) r,
            range := rangeRemove im.range p.1 (recGet rec p.2) r :
            IdxMgr }) im).hash p.1) w ↔
          (r2 ∈ bucketsGet (hashGetBuckets im.hash p.1) w ∧
           ¬ (r2 = r ∧ w = recGet rec p.2))) ∧
      (∀ p ∈ il, ∀ w r2,
        r2 ∈ bucketsGet (rangeGetEntries im.range p.1) w →
        ¬ (r2 = r ∧ w = recGet rec p.2) →
        r2 ∈ bucketsGet (rangeGetEntries (il.foldl (fun im p =>
          { hash := hashRemove im.hash p.1 (recGet rec p.2) r,
            range := rangeRemove im.range p.1 (recGet rec p.2) r :
            IdxMgr }) im).range p.1) w) ∧
      (∀ p ∈ il,
        ((rangeGetEntries (il.foldl (fun im p =>
          { hash := hashRemove im.hash p.1 (recGet rec p.2) r,
            range := rangeRemove im.range p.1 (recGet rec p.2) r :
            IdxMgr }) im).range p.1).map Prod.fst).Sublist
          ((rangeGetEntries im.range p.1).map Prod.fst)) ∧
      (∀ idx, ((hashGetBuckets (il.foldl (fun im p =>
          { hash := hashRemove im.hash p.1 (recGet rec p.2) r,
            range := rangeRemove im.range p.1 (recGet rec p.2) r :
            IdxMgr }) im).hash idx).map Prod.fst).Nodup)) := by
  intro il
  induction il with
  | nil =>
    intro im _ hknd _
    exact ⟨fun idx _ => ⟨rfl, rfl⟩,
      fun p hp => absurd hp (List.not_mem_nil p),
      fun p hp => absurd hp (List.not_mem_nil p),
      fun p hp => absurd hp (List.not_mem_nil p), hknd⟩
  | cons q t ih =>
    intro im hnodup hknd hrn
    obtain ⟨idx, col⟩ := q
    rw [List.map_cons] at hnodup
    rcases List.nodup_cons.mp hnodup with ⟨hidxnm, hnodup2⟩
    have hne_of_mem : ∀ p : String × String, p ∈ t → ¬ (p.1 = idx) := by
      intro p hp he
      exact hidxnm (he ▸ List.mem_map.mpr ⟨p, hp, rfl⟩)
    rw [List.foldl_cons]
    have hres := ih
      (({ hash := hashRemove im.hash idx (recGet rec col) r,
          range := rangeRemove im.range idx (recGet rec col) r } : IdxMgr))
      hnodup2
      (hashRemove_keys_nodup im.hash idx _ r hknd)
      (fun p hp => by
        rw [show rangeGetEntries (rangeRemove im.range idx (recGet rec col) r)
            p.1 = rangeGetEntries im.range p.1 from
          rangeRemove_get_other im.range idx _ r p.1 (hne_of_mem p hp)]
        exact hrn p (List.mem_cons_of_mem _ hp))
    obtain ⟨hun, hmem, hrkeep, hrsub, hkndp⟩ := hres
    have hhead_h : hashGetBuckets (t.foldl (fun im p =>
        ({ hash := hashRemove im.hash p.1 (recGet rec p.2) r,
            range := rangeRemove im.range p.1 (recGet rec p.2) r } : IdxMgr))
        ({ hash := hashRemove im.hash idx (recGet rec col) r,
            range := rangeRemove im.range idx (recGet rec col) r } :
          IdxMgr)).hash
        idx = bucketsRemove (hashGetBuckets im.hash idx) (recGet rec col)
          r := by
      rw [(hun idx hidxnm).1]
      exact hashRemove_get_same im.hash idx _ r
    have hhead_r : rangeGetEntries (t.foldl (fun im p =>
        ({ hash := hashRemove im.hash p.1 (recGet rec p.2) r,
            range := rangeRemove im.range p.1 (recGet rec p.2) r } : IdxMgr))
        ({ hash := hashRemove im.hash idx (recGet rec col) r,
            range := rangeRemove im.range idx (recGet rec col) r } :
          IdxMgr)).range
        idx = rangeEntriesRemove (rangeGetEntries im.range idx)
          (recGet rec col) r := by
      rw [(hun idx hidxnm).2]
      exact rangeRemove_get_same im.range idx _ r
    refine ⟨?_, ?_, ?_, ?_, hkndp⟩
    · intro idx2 hidx2
      rw [List.map_cons] at hidx2
      have hh : idx2 ≠ idx := fun e => hidx2 (e ▸ List.mem_cons_self _ _)
      have ht : idx2 ∉ t.map Prod.fst :=
        fun hm => hidx2 (List.mem_cons_of_mem _ hm)
      rcases hun idx2 ht with ⟨h1, h2⟩
      refine ⟨h1.trans (hashRemove_get_other im.hash idx _ r idx2 hh),
        h2.trans (rangeRemove_get_other im.range idx _ r idx2 hh)⟩
    · intro p hp w r2
      rcases List.mem_cons.mp hp with hp | hp
      · subst hp
        rw [hhead_h]
        exact mem_bucketsRemove _ _ r w r2 (hknd idx)
      · have hm := hmem p hp w r2
        rw [← hashRemove_get_other im.hash idx (recGet rec col) r p.1
          (hne_of_mem p hp)]
        exact hm
    · intro p hp w r2 hpre hcond
      rcases List.mem_cons.mp hp with hp | hp
      · subst hp
        rw [hhead_r]
        by_cases hw : w = recGet rec col
        · have hr2 : r2 ≠ r := fun e => hcond ⟨e, hw⟩
          rw [hw] at hpre ⊢
          rw [rangeEntriesRemove_get_same _ _ r
            (show ((rangeGetEntries im.range idx).map Prod.fst).Nodup from
              hrn (idx, col) (List.mem_cons_self _ _))]
          exact (mem_removeFirst_of_ne _ r r2 hr2).mpr hpre
        · rw [rangeEntriesRemove_get_other _ _ r w hw]
          exact hpre
      · refine hrkeep p hp w r2 ?_ hcond
        have hgoal : r2 ∈ bucketsGet (rangeGetEntries
            (rangeRemove im.range idx (recGet rec col) r) p.1) w := by
          rw [rangeRemove_get_other im.range idx _ r p.1 (hne_of_mem p hp)]
          exact hpre
        exact hgoal
    · intro p hp
      rcases List.mem_cons.mp hp with hp | hp
      · subst hp
        rw [hhead_r]
        exact rangeEntriesRemove_keys_sublist _ _ r
      · refine (hrsub p hp).trans ?_
        rw [show rangeGetEntries (rangeRemove im.range idx (recGet rec col) r)
            p.1 = rangeGetEntries im.range p.1 from
          rangeRemove_get_other im.range idx _ r p.1 (hne_of_mem p hp)]

/-- `IndexManager.on_update`, successful, characterized over the index list
it still has to process: for each index whose column has a recorded delta,
the record moves from the old value's hash bucket to the new value's (and
likewise in the range index); indexes without a delta and unprocessed
indexes are untouched; the coherence side conditions are preserved. -/
theorem on_update_go_spec (r : Rid) (values : List (String × Val × Val)) :
    ∀ (il : List (String × String)) (im im2 : IdxMgr),
      on_update.go r values im il = (im2, Option.none) →
      (il.map Prod.fst).Nodup →
      (∀ p ∈ il, ∀ v r2, r2 ∈ bucketsGet (hashGetBuckets im.hash p.1) v →
        r2 ∈ bucketsGet (rangeGetEntries im.range p.1) v) →
      (∀ p ∈ il, ((rangeGetEntries im.range p.1).map Prod.fst).Pairwise
        (fun a b => valComparable a b = true)) →
      (∀ p ∈ il, ((rangeGetEntries im.range p.1).map Prod.fst).Nodup) →
      (∀ idx, ((hashGetBuckets im.hash idx).map Prod.fst).Nodup) →
      ((∀ idx, idx ∉ il.map Prod.fst →
        hashGetBuckets im2.hash idx = hashGetBuckets im.hash idx ∧
        rangeGetEntries im2.range idx = rangeGetEntries im.range idx) ∧
      (∀ p ∈ il, values.find? (fun q => q.1 = p.2) = Option.none →
        hashGetBuckets im2.hash p.1 = hashGetBuckets im.hash p.1 ∧
        rangeGetEntries im2.range p.1 = rangeGetEntries im.range p.1) ∧
      (∀ p ∈ il, ∀ e, values.find? (fun q => q.1 = p.2) = some e →
        ∀ w r2, r2 ∈ bucketsGet (hashGetBuckets im2.hash p.1) w ↔
          ((r2 ∈ bucketsGet (hashGetBuckets im.hash p.1) w ∧
            ¬ (r2 = r ∧ w = e.2.1)) ∨ (r2 = r ∧ w = e.2.2))) ∧
      (∀ p ∈ il, ∀ v r2, r2 ∈ bucketsGet (hashGetBuckets im2.hash p.1) v →
        r2 ∈ bucketsGet (rangeGetEntries im2.range p.1) v) ∧
      (∀ p ∈ il, ((rangeGetEntries im2.range p.1).map Prod.fst).Pairwise
        (fun a b => valComparable a b = true)) ∧
      (∀ p ∈ il, ((rangeGetEntries im2.range p.1).map Prod.fst).Nodup) ∧
      (∀ idx, ((hashGetBuckets im2.hash idx).map Prod.fst).Nodup)) := by
  intro il
  induction il with
  | nil =>
    intro im im2 h _ _ _ _ hknd
    injection h with h1 h2
    subst h1
    exact ⟨fun idx _ => ⟨rfl, rfl⟩,
      fun p hp => absurd hp (List.not_mem_nil p),
      fun p hp => absurd hp (List.not_mem_nil p),
      fun p hp => absurd hp (List.not_mem_nil p),
      fun p hp => absurd hp (List.not_mem_nil p),
      fun p hp => absurd hp (List.not_mem_nil p), hknd⟩
  | cons q t ih =>
    intro im im2 h hnodup hA5 hA6 hrn hknd
    obtain ⟨idx, col⟩ := q
    rw [List.map_cons] at hnodup
    rcases List.nodup_cons.mp hnodup with ⟨hidxnm, hnodup2⟩
    have hne_of_mem : ∀ p : String × String, p ∈ t → ¬ (p.1 = idx) := by
      intro p hp he
      exact hidxnm (he ▸ List.mem_map.mpr ⟨p, hp, rfl⟩)
    simp only [on_update.go] at h
    split at h
    · rename_i hfindnone
      have hres := ih im im2 h hnodup2
        (fun p hp => hA5 p (List.mem_cons_of_mem _ hp))
        (fun p hp => hA6 p (List.mem_cons_of_mem _ hp))
        (fun p hp => hrn p (List.mem_cons_of_mem _ hp)) hknd
      obtain ⟨hun, hcun, hccov, ha5p, ha6p, hrnp, hkndp⟩ := hres
      refine ⟨?_, ?_, ?_, ?_, ?_, ?_, hkndp⟩
      · intro idx2 hidx2
        rw [List.map_cons] at hidx2
        exact hun idx2 (fun hm => hidx2 (List.mem_cons_of_mem _ hm))
      · intro p hp hnone
        rcases List.mem_cons.mp hp with hp | hp
        · subst hp
          exact hun idx hidxnm
        · exact hcun p hp hnone
      · intro p hp e hsome
        rcases List.mem_cons.mp hp with hp | hp
        · subst hp
          rw [hsome] at hfindnone
          cases hfindnone
        · exact hccov p hp e hsome
      · intro p hp
        rcases List.mem_cons.mp hp with hp | hp
        · subst hp
          intro v r2 hv
          rcases hun idx hidxnm with ⟨h1, h2⟩
          rw [h2]
          rw [h1] at hv
          exact hA5 (idx, col) (List.mem_cons_self _ _) v r2 hv
        · exact ha5p p hp
      · intro p hp
        rcases List.mem_cons.mp hp with hp | hp
        · subst hp
          rw [(hun idx hidxnm).2]
          exact hA6 (idx, col) (List.mem_cons_self _ _)
        · exact ha6p p hp
      · intro p hp
        rcases List.mem_cons.mp hp with hp | hp
        · subst hp
          rw [(hun idx hidxnm).2]
          exact hrn (idx, col) (List.mem_cons_self _ _)
        · exact hrnp p hp
    · rename_i e hfindsome
      split at h
      · rename_i r2 hradd
        rcases rangeAdd_ok_elim _ idx e.2.2 r r2 hradd with ⟨es2, hadd, hr2⟩
        have hr1get : rangeGetEntries (rangeRemove im.range idx e.2.1 r) idx
            = rangeEntriesRemove (rangeGetEntries im.range idx) e.2.1 r :=
          rangeRemove_get_same im.range idx _ r
        rw [hr1get] at hadd
        have hres := ih
          (({ hash := hashAdd (hashRemove im.hash idx e.2.1 r) idx e.2.2 r,
              range := r2 } : IdxMgr)) im2 h hnodup2
          (fun p hp v r3 hv => by
            have hgoal : r3 ∈ bucketsGet (rangeGetEntries r2 p.1) v := by
              rw [hr2, rangeSet_get_other _ idx es2 p.1 (hne_of_mem p hp),
                rangeRemove_get_other _ idx _ r p.1 (hne_of_mem p hp)]
              refine hA5 p (List.mem_cons_of_mem _ hp) v r3 ?_
              have hv2 := hv
              rw [show hashGetBuckets (hashAdd (hashRemove im.hash idx e.2.1 r)
                  idx e.2.2 r) p.1 = hashGetBuckets im.hash p.1 from by
                rw [hashAdd_get_other _ idx _ r p.1 (hne_of_mem p hp),
                  hashRemove_get_other _ idx _ r p.1 (hne_of_mem p hp)]]
                at hv2
              exact hv2
            exact hgoal)
          (fun p hp => by
            have hgoal :
                ((rangeGetEntries r2 p.1).map Prod.fst).Pairwise
                  (fun a b => valComparable a b = true) := by
              rw [hr2, rangeSet_get_other _ idx es2 p.1 (hne_of_mem p hp),
                rangeRemove_get_other _ idx _ r p.1 (hne_of_mem p hp)]
              exact hA6 p (List.mem_cons_of_mem _ hp)
            exact hgoal)
          (fun p hp => by
            have hgoal : ((rangeGetEntries r2 p.1).map Prod.fst).Nodup := by
              rw [hr2, rangeSet_get_other _ idx es2 p.1 (hne_of_mem p hp),
                rangeRemove_get_other _ idx _ r p.1 (hne_of_mem p hp)]
              exact hrn p (List.mem_cons_of_mem _ hp)
            exact hgoal)
          (hashAdd_keys_nodup _ idx _ r
            (hashRemove_keys_nodup im.hash idx _ r hknd))
        obtain ⟨hun, hcun, hccov, ha5p, ha6p, hrnp, hkndp⟩ := hres
        have hgetidx : hashGetBuckets im2.hash idx
            = bucketsAdd (bucketsRemove (hashGetBuckets im.hash idx)
                e.2.1 r) e.2.2 r := by
          rw [(hun idx hidxnm).1]
          rw [show hashGetBuckets (hashAdd (hashRemove im.hash idx e.2.1 r)
              idx e.2.2 r) idx = bucketsAdd (hashGetBuckets
                (hashRemove im.hash idx e.2.1 r) idx) e.2.2 r from
            hashAdd_get_same _ idx _ r]
          rw [hashRemove_get_same im.hash idx _ r]
        have hrgetidx : rangeGetEntries im2.range idx = es2 := by
          rw [(hun idx hidxnm).2, hr2]
          exact rangeSet_get_same _ idx es2
        have hr1nodup : ((rangeEntriesRemove (rangeGetEntries im.range idx)
            e.2.1 r).map Prod.fst).Nodup :=
          (rangeEntriesRemove_keys_sublist _ _ r).nodup
            (hrn (idx, col) (List.mem_cons_self _ _))
        refine ⟨?_, ?_, ?_, ?_, ?_, ?_, hkndp⟩
        · intro idx2 hidx2
          rw [List.map_cons] at hidx2
          have hh : idx2 ≠ idx := fun e2 => hidx2 (e2 ▸ List.mem_cons_self _ _)
          have ht : idx2 ∉ t.map Prod.fst :=
            fun hm => hidx2 (List.mem_cons_of_mem _ hm)
          rcases hun idx2 ht with ⟨h1, h2⟩
          refine ⟨?_, ?_⟩
          · rw [h1, hashAdd_get_other _ idx _ r idx2 hh,
              hashRemove_get_other _ idx _ r idx2 hh]
          · rw [h2, hr2, rangeSet_get_other _ idx es2 idx2 hh,
              rangeRemove_get_other _ idx _ r idx2 hh]
        · intro p hp hnone
          rcases List.mem_cons.mp hp with hp | hp
          · subst hp
            rw [hnone] at hfindsome
            cases hfindsome
          · rcases hcun p hp hnone with ⟨h1, h2⟩
            refine ⟨?_, ?_⟩
            · rw [h1, hashAdd_get_other _ idx _ r p.1 (hne_of_mem p hp),
                hashRemove_get_other _ idx _ r p.1 (hne_of_mem p hp)]
            · rw [h2, hr2, rangeSet_get_other _ idx es2 p.1 (hne_of_mem p hp),
                rangeRemove_get_other _ idx _ r p.1 (hne_of_mem p hp)]
        · intro p hp e2 hsome
          rcases List.mem_cons.mp hp with hp | hp
          · subst hp
            have he2 : e2 = e := by
              have hb : values.find? (fun q => q.1 = col) = some e2 := hsome
              rw [hfindsome] at hb
              injection hb with h3
              exact h3.symm
            subst he2
            intro w r3
            rw [hgetidx]
            rw [mem_bucketsAdd _ _ r w r3]
            rw [mem_bucketsRemove _ _ r w r3 (hknd idx)]
          · rcases hccov p hp e2 hsome with hcov2
            intro w r3
            rw [show hashGetBuckets (hashAdd (hashRemove im.hash idx e.2.1 r)
                idx e.2.2 r) p.1 = hashGetBuckets im.hash p.1 from by
              rw [hashAdd_get_other _ idx _ r p.1 (hne_of_mem p hp),
                hashRemove_get_other _ idx _ r p.1 (hne_of_mem p hp)]] at hcov2
            exact hcov2 w r3
        · intro p hp v r3 hv
          rcases List.mem_cons.mp hp with hp | hp
          · subst hp
            rw [hgetidx] at hv
            rw [hrgetidx]
            rw [rangeEntriesAdd_ok_get _ _ r es2 hadd v]
            rcases (mem_bucketsAdd _ _ r v r3).mp hv with hv2 | ⟨he1, he2⟩
            · rcases (mem_bucketsRemove _ _ r v r3 (hknd idx)).mp hv2 with
                ⟨hpre, hcond⟩
              have hpre2 : r3 ∈ bucketsGet (rangeGetEntries im.range idx) v :=
                hA5 (idx, col) (List.mem_cons_self _ _) v r3 hpre
              have hr1mem : r3 ∈ bucketsGet (rangeEntriesRemove
                  (rangeGetEntries im.range idx) e.2.1 r) v := by
                by_cases hve : v = e.2.1
                · have hr3 : r3 ≠ r := fun e3 => hcond ⟨e3, hve⟩
                  rw [hve] at hpre2 ⊢
                  rw [rangeEntriesRemove_get_same _ _ r
                    (hrn (idx, col) (List.mem_cons_self _ _))]
                  exact (mem_removeFirst_of_ne _ r r3 hr3).mpr hpre2
                · rw [rangeEntriesRemove_get_other _ _ r v hve]
                  exact hpre2
              by_cases hvn : v = e.2.2
              · rw [if_pos hvn]
                rw [hvn] at hr1mem
                exact List.mem_append.mpr (Or.inl hr1mem)
              · rw [if_neg hvn]
                exact hr1mem
            · rw [he1, he2, if_pos rfl]
              exact List.mem_append.mpr (Or.inr (List.mem_singleton.mpr rfl))
          · exact ha5p p hp v r3 hv
        · intro p hp
          rcases List.mem_cons.mp hp with hp | hp
          · subst hp
            rw [hrgetidx]
            have hr1pair : ((rangeEntriesRemove (rangeGetEntries im.range idx)
                e.2.1 r).map Prod.fst).Pairwise
                  (fun a b => valComparable a b = true) :=
              (hA6 (idx, col) (List.mem_cons_self _ _)).sublist
                (rangeEntriesRemove_keys_sublist _ _ r)
            rcases rangeEntriesAdd_ok_keys _ _ r es2 hadd with
              ⟨hkeq, _⟩ | ⟨hperm, habs, hcomp⟩
            · rw [hkeq]
              exact hr1pair
            · rw [hperm.pairwise_iff (fun h2 => by
                rw [valComparable_symm]; exact h2)]
              exact List.pairwise_cons.mpr ⟨hcomp, hr1pair⟩
          · exact ha6p p hp
        · intro p hp
          rcases List.mem_cons.mp hp with hp | hp
          · subst hp
            rw [hrgetidx]
            rcases rangeEntriesAdd_ok_keys _ _ r es2 hadd with
              ⟨hkeq, _⟩ | ⟨hperm, habs, hcomp⟩
            · rw [hkeq]
              exact hr1nodup
            · rw [hperm.nodup_iff]
              exact List.nodup_cons.mpr ⟨habs, hr1nodup⟩
          · exact hrnp p hp
      · rename_i e2 herr
        injection h with h1 h2
        cases h2

/-- A record with no modification entry resolves to no recorded pair. -/
theorem modsFind_none_of_not_mem (mods : List (Rid × List (String × Val × Val)))
    (r : Rid) (f : String) (h : r ∉ mods.map (fun e => e.1)) :
    modsFind mods r f = Option.none := by
  unfold modsFind
  rw [List.find?_eq_none.mpr]
  intro e he he2
  exact h (List.mem_map.mpr ⟨e, he, by simpa using he2⟩)

/-- The expected bucket value ignores other records' entries. -/
theorem expVal_cons_ne (ee : Rid × List (String × Val × Val))
    (l : List (Rid × List (String × Val × Val))) (hp : Heap) (rr : Rid)
    (col : String) (hne : ¬ (ee.1 = rr)) :
    expVal (ee :: l) hp rr col = expVal l hp rr col := by
  unfold expVal
  rw [modsFind_cons_neg ee l rr col hne]

/-- A record with no modification entry is expected at its heap value. -/
theorem expVal_not_mem (l : List (Rid × List (String × Val × Val)))
    (hp : Heap) (rr : Rid) (col : String)
    (h : rr ∉ l.map (fun e => e.1)) :
    expVal l hp rr col = hGet hp rr col := by
  unfold expVal
  rw [modsFind_none_of_not_mem l rr col h]

/-- With duplicate-free field names, lookup of a member's own field finds
that member. -/
theorem entries_find_of_mem (es : List (String × Val × Val))
    (hnd : (es.map (fun m => m.1)).Nodup) (e : String × Val × Val)
    (he : e ∈ es) : es.find? (fun m => m.1 = e.1) = some e := by
  induction es with
  | nil => cases he
  | cons a t ih =>
    rw [List.map_cons] at hnd
    rcases List.nodup_cons.mp hnd with ⟨hnm, hnd2⟩
    rcases List.mem_cons.mp he with he | he
    · subst he
      rw [List.find?_cons_of_pos _ (by simp)]
    · by_cases ha : a.1 = e.1
      · refine absurd ?_ hnm
        rw [ha]
        exact List.mem_map.mpr ⟨e, he, rfl⟩
      · rw [List.find?_cons_of_neg _ (by simp [ha])]
        exact ih hnd2 he

/-- The modification-index phase of `commit()` repairs the hash and range
indexes from the recorded (first old, latest new) deltas: if on entry every
bucket entry sits at its expected value (the recorded old value for fields
still to be processed, the current heap value otherwise) and the coherence
side conditions hold, then after a successful pass every bucket entry sits
at the record's current heap value, and the side conditions still hold. -/
theorem ump_go_coh (sch : Schema)
    (hgnd : ((getIndexes sch).map Prod.fst).Nodup) :
    ∀ (l : List (Rid × List (String × Val × Val))) (s s' : ExecS),
      update_modified_items_indexes.go sch s l = CommitResult.ok s' →
      (l.map (fun ee => ee.1)).Nodup →
      (∀ ee ∈ l, (ee.2.map (fun m => m.1)).Nodup) →
      (∀ ee ∈ l, ee.1 < s.nextRid) →
      (∀ rr col old new, modsFind l rr col = some (old, new) →
        new = hGet s.heap rr col) →
      (∀ ee ∈ l, ∀ m ∈ ee.2, hHas s.heap ee.1 m.1 = true) →
      (∀ p ∈ getIndexes sch, ∀ rr ∈ s.store.data,
        rr ∈ bucketsGet (hashGetBuckets s.store.im.hash p.1)
          (expVal l s.heap rr p.2)) →
      (∀ p ∈ getIndexes sch, ∀ v rr,
        rr ∈ bucketsGet (hashGetBuckets s.store.im.hash p.1) v →
        v = expVal l s.heap rr p.2) →
      (∀ p ∈ getIndexes sch, ∀ v rr,
        rr ∈ bucketsGet (hashGetBuckets s.store.im.hash p.1) v →
        rr ∈ bucketsGet (rangeGetEntries s.store.im.range p.1) v) →
      (∀ p ∈ getIndexes sch,
        ((rangeGetEntries s.store.im.range p.1).map Prod.fst).Pairwise
          (fun a b => valComparable a b = true)) →
      (∀ p ∈ getIndexes sch,
        ((rangeGetEntries s.store.im.range p.1).map Prod.fst).Nodup) →
      (∀ idx, ((hashGetBuckets s.store.im.hash idx).map Prod.fst).Nodup) →
      (∀ p ∈ getIndexes sch, ∀ v rr,
        rr ∈ bucketsGet (hashGetBuckets s.store.im.hash p.1) v →
        rr < s.nextRid) →
      (∀ p ∈ getIndexes sch, ∀ v rr,
        rr ∈ bucketsGet (hashGetBuckets s.store.im.hash p.1) v →
        hHas s.heap rr p.2 = true) →
      ((∀ p ∈ getIndexes sch, ∀ rr ∈ s.store.data,
        rr ∈ bucketsGet (hashGetBuckets s'.store.im.hash p.1)
          (hGet s.heap rr p.2)) ∧
      (∀ p ∈ getIndexes sch, ∀ v rr,
        rr ∈ bucketsGet (hashGetBuckets s'.store.im.hash p.1) v →
        v = hGet s.heap rr p.2) ∧
      (∀ p ∈ getIndexes sch, ∀ v rr,
        rr ∈ bucketsGet (hashGetBuckets s'.store.im.hash p.1) v →
        rr ∈ bucketsGet (rangeGetEntries s'.store.im.range p.1) v) ∧
      (∀ p ∈ getIndexes sch,
        ((rangeGetEntries s'.store.im.range p.1).map Prod.fst).Pairwise
          (fun a b => valComparable a b = true)) ∧
      (∀ p ∈ getIndexes sch,
        ((rangeGetEntries s'.store.im.range p.1).map Prod.fst).Nodup) ∧
      (∀ idx, ((hashGetBuckets s'.store.im.hash idx).map Prod.fst).Nodup) ∧
      (∀ p ∈ getIndexes sch, ∀ v rr,
        rr ∈ bucketsGet (hashGetBuckets s'.store.im.hash p.1) v →
        rr < s.nextRid) ∧
      (∀ p ∈ getIndexes sch, ∀ v rr,
        rr ∈ bucketsGet (hashGetBuckets s'.store.im.hash p.1) v →
        hHas s.heap rr p.2 = true)) := by
  intro l
  induction l with
  | nil =>
    intro s s' h _ _ _ _ _ h1 h2 h5 h6 h7 h8 h9 h10
    injection h with heq
    subst heq
    exact ⟨h1, h2, h5, h6, h7, h8, h9, h10⟩
  | cons ee rest ih =>
    intro s s' h hlnd hfnd hlt hnew hmh h1 h2 h5 h6 h7 h8 h9 h10
    obtain ⟨rr, entries⟩ := ee
    rw [List.map_cons] at hlnd
    rcases List.nodup_cons.mp hlnd with ⟨hrrnm, hlnd2⟩
    have hfe : (entries.map (fun m => m.1)).Nodup :=
      hfnd (rr, entries) (List.mem_cons_self _ _)
    have hmf_rr : ∀ col, modsFind ((rr, entries) :: rest) rr col
        = (entries.find? (fun m => m.1 = col)).map (fun m => m.2) :=
      fun col => modsFind_cons_pos (rr, entries) rest rr col rfl
    have hnew_head : ∀ col m,
        entries.find? (fun mm => mm.1 = col) = some m →
        m.2.2 = hGet s.heap rr col := by
      intro col m hfindm
      refine hnew rr col m.2.1 m.2.2 ?_
      rw [hmf_rr col, hfindm]
      rfl
    have hrest_rr : ∀ col, expVal rest s.heap rr col = hGet s.heap rr col :=
      fun col => expVal_not_mem rest s.heap rr col hrrnm
    have hexp_ne : ∀ rr2 col, ¬ (rr2 = rr) →
        expVal ((rr, entries) :: rest) s.heap rr2 col
          = expVal rest s.heap rr2 col := by
      intro rr2 col hne
      exact expVal_cons_ne (rr, entries) rest s.heap rr2 col
        (fun e => hne e.symm)
    have hnew_rest : ∀ rr2 col old new,
        modsFind rest rr2 col = some (old, new) →
        new = hGet s.heap rr2 col := by
      intro rr2 col old new hm
      by_cases hrr2 : rr2 = rr
      · subst hrr2
        rw [modsFind_none_of_not_mem rest rr2 col hrrnm] at hm
        cases hm
      · refine hnew rr2 col old new ?_
        rw [modsFind_cons_neg (rr, entries) rest rr2 col
          (fun e => hrr2 e.symm)]
        exact hm
    simp only [update_modified_items_indexes.go] at h
    split at h
    · rename_i hempty
      have hall : ∀ m ∈ entries, m.2.1 = m.2.2 := by
        intro m hm
        have hnil := List.isEmpty_iff.mp hempty
        by_contra hne
        have : m ∈ entries.filter (fun e2 => e2.2.1 ≠ e2.2.2) :=
          List.mem_filter.mpr ⟨hm, by simpa using hne⟩
        rw [hnil] at this
        cases this
      have hexp1 : ∀ rr2 col,
          expVal ((rr, entries) :: rest) s.heap rr2 col
            = expVal rest s.heap rr2 col := by
        intro rr2 col
        by_cases hrr2 : rr2 = rr
        · subst hrr2
          unfold expVal
          rw [hmf_rr col, modsFind_none_of_not_mem rest rr2 col hrrnm]
          cases hfindm : entries.find? (fun m => m.1 = col) with
          | none => rfl
          | some m =>
            have h3 := hall m (List.mem_of_find?_eq_some hfindm)
            have h4 := hnew_head col m hfindm
            simpa using h3.trans h4
        · exact hexp_ne rr2 col hrr2
      refine ih s s' h hlnd2
        (fun ee2 he2 => hfnd ee2 (List.mem_cons_of_mem _ he2))
        (fun ee2 he2 => hlt ee2 (List.mem_cons_of_mem _ he2))
        hnew_rest
        (fun ee2 he2 => hmh ee2 (List.mem_cons_of_mem _ he2))
        ?_ ?_ h5 h6 h7 h8 h9 h10
      · intro p hp rr2 hrr2
        have hh := h1 p hp rr2 hrr2
        rw [hexp1 rr2 p.2] at hh
        exact hh
      · intro p hp v rr2 hmem
        have hh := h2 p hp v rr2 hmem
        rw [hexp1 rr2 p.2] at hh
        exact hh
    · split at h
      · rename_i im2 hupd
        have hupd2 : on_update.go rr
            (entries.filter (fun e2 => e2.2.1 ≠ e2.2.2)) s.store.im
            (getIndexes sch) = (im2, Option.none) := hupd
        have hspec := on_update_go_spec rr _ (getIndexes sch) s.store.im im2
          hupd2 hgnd h5 h6 h7 h8
        obtain ⟨hun, hcun, hccov, ha5p, ha6p, hrnp, hkndp⟩ := hspec
        have hfiltered_out : ∀ col,
            (entries.filter (fun e2 => e2.2.1 ≠ e2.2.2)).find?
              (fun q => q.1 = col) = Option.none →
            ∀ m, entries.find? (fun mm => mm.1 = col) = some m →
              m.2.1 = m.2.2 := by
          intro col hc m hfindm
          by_contra hne
          have hmemf : m ∈ entries.filter (fun e2 => e2.2.1 ≠ e2.2.2) :=
            List.mem_filter.mpr
              ⟨List.mem_of_find?_eq_some hfindm, by simpa using hne⟩
          have h3 := List.find?_eq_none.mp hc m hmemf
          have h4 := List.find?_some hfindm
          simp at h3 h4
          exact h3 h4
        have hexp_unc : ∀ col,
            (entries.filter (fun e2 => e2.2.1 ≠ e2.2.2)).find?
              (fun q => q.1 = col) = Option.none →
            ∀ rr2, expVal ((rr, entries) :: rest) s.heap rr2 col
              = expVal rest s.heap rr2 col := by
          intro col hc rr2
          by_cases hrr2 : rr2 = rr
          · subst hrr2
            unfold expVal
            rw [hmf_rr col, modsFind_none_of_not_mem rest rr2 col hrrnm]
            cases hfindm : entries.find? (fun m => m.1 = col) with
            | none => rfl
            | some m =>
              have h3 := hfiltered_out col hc m hfindm
              have h4 := hnew_head col m hfindm
              simpa using h3.trans h4
          · exact hexp_ne rr2 col hrr2
        have hent_cov : ∀ col e,
            (entries.filter (fun e2 => e2.2.1 ≠ e2.2.2)).find?
              (fun q => q.1 = col) = some e →
            entries.find? (fun mm => mm.1 = col) = some e ∧
              e.2.2 = hGet s.heap rr col := by
          intro col e hc
          have hmeme : e ∈ entries :=
            List.mem_of_mem_filter (List.mem_of_find?_eq_some hc)
          have he1 : e.1 = col := by
            have h3 := List.find?_some hc
            simpa using h3
          have hfind2 := entries_find_of_mem entries hfe e hmeme
          rw [he1] at hfind2
          exact ⟨hfind2, hnew_head col e hfind2⟩
        have hexpl_rr : ∀ col e,
            (entries.filter (fun e2 => e2.2.1 ≠ e2.2.2)).find?
              (fun q => q.1 = col) = some e →
            expVal ((rr, entries) :: rest) s.heap rr col = e.2.1 := by
          intro col e hc
          unfold expVal
          rw [hmf_rr col, (hent_cov col e hc).1]
          rfl
        refine ih { s with store := { s.store with im := im2 } } s' h hlnd2
          (fun ee2 he2 => hfnd ee2 (List.mem_cons_of_mem _ he2))
          (fun ee2 he2 => hlt ee2 (List.mem_cons_of_mem _ he2))
          hnew_rest
          (fun ee2 he2 => hmh ee2 (List.mem_cons_of_mem _ he2))
          ?_ ?_ ?_ ?_ ?_ ?_ ?_ ?_
        · show ∀ p ∈ getIndexes sch, ∀ rr2 ∈ s.store.data,
            rr2 ∈ bucketsGet (hashGetBuckets im2.hash p.1)
              (expVal rest s.heap rr2 p.2)
          intro p hp rr2 hrr2
          cases hc : (entries.filter (fun e2 => e2.2.1 ≠ e2.2.2)).find?
              (fun q => q.1 = p.2) with
          | none =>
            rw [(hcun p hp hc).1]
            have hh := h1 p hp rr2 hrr2
            rw [hexp_unc p.2 hc rr2] at hh
            exact hh
          | some e =>
            rw [hccov p hp e hc (expVal rest s.heap rr2 p.2) rr2]
            by_cases hrr2e : rr2 = rr
            · subst hrr2e
              refine Or.inr ⟨rfl, ?_⟩
              rw [hrest_rr p.2]
              exact ((hent_cov p.2 e hc).2).symm
            · refine Or.inl ⟨?_, fun hpair => hrr2e hpair.1⟩
              have hh := h1 p hp rr2 hrr2
              rw [hexp_ne rr2 p.2 hrr2e] at hh
              exact hh
        · show ∀ p ∈ getIndexes sch, ∀ v rr2,
            rr2 ∈ bucketsGet (hashGetBuckets im2.hash p.1) v →
            v = expVal rest s.heap rr2 p.2
          intro p hp v rr2 hmem
          cases hc : (entries.filter (fun e2 => e2.2.1 ≠ e2.2.2)).find?
              (fun q => q.1 = p.2) with
          | none =>
            rw [(hcun p hp hc).1] at hmem
            have hh := h2 p hp v rr2 hmem
            rw [hexp_unc p.2 hc rr2] at hh
            exact hh
          | some e =>
            rcases (hccov p hp e hc v rr2).mp hmem with
              ⟨hpre, hcond⟩ | ⟨he1, he2⟩
            · by_cases hrr2e : rr2 = rr
              · subst hrr2e
                have hh := h2 p hp v rr2 hpre
                rw [hexpl_rr p.2 e hc] at hh
                exact absurd ⟨rfl, hh⟩ hcond
              · have hh := h2 p hp v rr2 hpre
                rw [hexp_ne rr2 p.2 hrr2e] at hh
                exact hh
            · subst he1
              rw [he2, hrest_rr p.2]
              exact ((hent_cov p.2 e hc).2)
        · show ∀ p ∈ getIndexes sch, ∀ v rr2,
            rr2 ∈ bucketsGet (hashGetBuckets im2.hash p.1) v →
            rr2 ∈ bucketsGet (rangeGetEntries im2.range p.1) v
          exact ha5p
        · show ∀ p ∈ getIndexes sch,
            ((rangeGetEntries im2.range p.1).map Prod.fst).Pairwise
              (fun a b => valComparable a b = true)
          exact ha6p
        · show ∀ p ∈ getIndexes sch,
            ((rangeGetEntries im2.range p.1).map Prod.fst).Nodup
          exact hrnp
        · show ∀ idx, ((hashGetBuckets im2.hash idx).map Prod.fst).Nodup
          exact hkndp
        · show ∀ p ∈ getIndexes sch, ∀ v rr2,
            rr2 ∈ bucketsGet (hashGetBuckets im2.hash p.1) v →
            rr2 < s.nextRid
          intro p hp v rr2 hmem
          cases hc : (entries.filter (fun e2 => e2.2.1 ≠ e2.2.2)).find?
              (fun q => q.1 = p.2) with
          | none =>
            rw [(hcun p hp hc).1] at hmem
            exact h9 p hp v rr2 hmem
          | some e =>
            rcases (hccov p hp e hc v rr2).mp hmem with
              ⟨hpre, _⟩ | ⟨he1, _⟩
            · exact h9 p hp v rr2 hpre
            · rw [he1]
              exact hlt (rr, entries) (List.mem_cons_self _ _)
        · show ∀ p ∈ getIndexes sch, ∀ v rr2,
            rr2 ∈ bucketsGet (hashGetBuckets im2.hash p.1) v →
            hHas s.heap rr2 p.2 = true
          intro p hp v rr2 hmem
          cases hc : (entries.filter (fun e2 => e2.2.1 ≠ e2.2.2)).find?
              (fun q => q.1 = p.2) with
          | none =>
            rw [(hcun p hp hc).1] at hmem
            exact h10 p hp v rr2 hmem
          | some e =>
            rcases (hccov p hp e hc v rr2).mp hmem with
              ⟨hpre, _⟩ | ⟨he1, _⟩
            · exact h10 p hp v rr2 hpre
            · have hmeme : e ∈ entries :=
                List.mem_of_mem_filter (List.mem_of_find?_eq_some hc)
              have hek : e.1 = p.2 := by simpa using List.find?_some hc
              have hpres := hmh (rr, entries) (List.mem_cons_self _ _) e hmeme
              rw [he1, ← hek]
              exact hpres
      · cases h

/-- Membership survives the primary-key set deduplication. -/
theorem mem_dedupFirst_go (l : List Val) :
    ∀ (seen : List Val) (x : Val),
      x ∈ dedupFirst.go seen l ↔ (x ∈ l ∧ x ∉ seen) := by
  induction l with
  | nil =>
    intro seen x
    simp [dedupFirst.go]
  | cons a t ih =>
    intro seen x
    by_cases ha : a ∈ seen
    · rw [show dedupFirst.go seen (a :: t) = dedupFirst.go seen t from by
        simp [dedupFirst.go, ha]]
      rw [ih seen x]
      constructor
      · rintro ⟨h1, h2⟩
        exact ⟨List.mem_cons_of_mem _ h1, h2⟩
      · rintro ⟨h1, h2⟩
        rcases List.mem_cons.mp h1 with h1 | h1
        · exact absurd (h1 ▸ ha) h2
        · exact ⟨h1, h2⟩
    · rw [show dedupFirst.go seen (a :: t) = a :: dedupFirst.go (a :: seen) t
        from by simp [dedupFirst.go, ha]]
      rw [List.mem_cons, ih (a :: seen) x]
      constructor
      · rintro (h1 | ⟨h1, h2⟩)
        · exact ⟨h1 ▸ List.mem_cons_self _ _, h1 ▸ ha⟩
        · exact ⟨List.mem_cons_of_mem _ h1,
            fun h3 => h2 (List.mem_cons_of_mem _ h3)⟩
      · rintro ⟨h1, h2⟩
        by_cases hx : x = a
        · exact Or.inl hx
        · rcases List.mem_cons.mp h1 with h1 | h1
          · exact absurd h1 hx
          · exact Or.inr ⟨h1, fun h3 => by
              rcases List.mem_cons.mp h3 with h4 | h4
              · exact hx h4
              · exact h2 h4⟩

/-- Membership in the primary-key set deduplication. -/
theorem mem_dedupFirst (l : List Val) (x : Val) :
    x ∈ dedupFirst l ↔ x ∈ l := by
  rw [show dedupFirst l = dedupFirst.go [] l from rfl, mem_dedupFirst_go]
  simp

/-- A primary-key map write only ever adds the written pair. -/
theorem mem_byPkSet (m : List (Val × Rid)) (pk : Val) (r : Rid)
    (e : Val × Rid) (h : e ∈ byPkSet m pk r) : e ∈ m ∨ e = (pk, r) := by
  induction m with
  | nil =>
    rcases List.mem_singleton.mp h with h2
    exact Or.inr h2
  | cons p t ih =>
    by_cases hp : p.1 = pk
    · rw [show byPkSet (p :: t) pk r = (pk, r) :: t from by
        simp [byPkSet, hp]] at h
      rcases List.mem_cons.mp h with h2 | h2
      · exact Or.inr h2
      · exact Or.inl (List.mem_cons_of_mem _ h2)
    · rw [show byPkSet (p :: t) pk r = p :: byPkSet t pk r from by
        simp [byPkSet, hp]] at h
      rcases List.mem_cons.mp h with h2 | h2
      · exact Or.inl (h2 ▸ List.mem_cons_self _ _)
      · rcases ih h2 with h3 | h3
        · exact Or.inl (List.mem_cons_of_mem _ h3)
        · exact Or.inr h3

/-- A found primary-key pair is a member of the map. -/
theorem byPkGet_mem (m : List (Val × Rid)) (pk : Val) (item : Rid)
    (h : byPkGet m pk = some item) : ∃ e ∈ m, e.2 = item := by
  unfold byPkGet at h
  cases hf : m.find? (fun p => p.1 = pk) with
  | none =>
    rw [hf] at h
    cases h
  | some e =>
    rw [hf] at h
    injection h with h2
    exact ⟨e, List.mem_of_find?_eq_some hf, h2⟩

/-- Setting an attribute of one record leaves every other record alone. -/
theorem hGet_hSet_other_rid (hp : Heap) (r r2 : Rid) (f f2 : String)
    (v : Val) (hne : ¬ (r2 = r)) :
    hGet (hSet hp r f v) r2 f2 = hGet hp r2 f2 := by
  unfold hGet hSet
  rw [heapGet_heapSet_other hp r r2 _ hne]

/-- Primary-key resolution changes the heap at most at the resolved record,
and only where the value was None. -/
theorem assignPk_heap (sch : Schema) (s : ExecS) (r : Rid) (pkv : Val)
    (s1 : ExecS) (h : assignPk sch s r = Except.ok (pkv, s1)) :
    (∀ r2 f, ¬ (r2 = r) → hGet s1.heap r2 f = hGet s.heap r2 f) ∧
    (∀ f, hGet s1.heap r f = hGet s.heap r f ∨
      hGet s.heap r f = Val.none) := by
  simp only [assignPk] at h
  split at h
  · rename_i hcur
    injection h with h2
    injection h2 with ha hb
    subst hb
    refine ⟨?_, ?_⟩
    · intro r2 f hne
      exact hGet_hSet_other_rid s.heap r r2 _ f _ hne
    · intro f
      by_cases hf : f = sch.pkName
      · subst hf
        exact Or.inr hcur
      · left
        show hGet (hSet s.heap r sch.pkName _) r f = hGet s.heap r f
        unfold hGet hSet
        rw [heapGet_heapSet_same]
        exact recGet_recSet_other _ _ f _ hf
  · split at h
    · injection h with h2
      injection h2 with ha hb
      subst hb
      exact ⟨fun r2 f _ => rfl, fun f => Or.inl rfl⟩
    · cases h

/-- Column defaults change the heap at most at the given record. -/
theorem defaults_heap_other (defs : List (String × Val)) :
    ∀ (hp : Heap) (r r2 : Rid) (f : String), ¬ (r2 = r) →
      hGet (defs.foldl (fun h p =>
        if hGet h r p.1 = Val.none then hSet h r p.1 p.2 else h) hp) r2 f
        = hGet hp r2 f := by
  induction defs with
  | nil =>
    intro hp r r2 f _
    rfl
  | cons d t ih =>
    intro hp r r2 f hne
    rw [List.foldl_cons]
    by_cases hd : hGet hp r d.1 = Val.none
    · rw [if_pos hd]
      rw [ih _ r r2 f hne]
      exact hGet_hSet_other_rid hp r r2 d.1 f d.2 hne
    · rw [if_neg hd]
      exact ih hp r r2 f hne

/-- Column defaults only overwrite None values. -/
theorem defaults_heap_self (defs : List (String × Val)) :
    ∀ (hp : Heap) (r : Rid) (f : String),
      hGet (defs.foldl (fun h p =>
        if hGet h r p.1 = Val.none then hSet h r p.1 p.2 else h) hp) r f
        = hGet hp r f ∨ hGet hp r f = Val.none := by
  induction defs with
  | nil =>
    intro hp r f
    exact Or.inl rfl
  | cons d t ih =>
    intro hp r f
    rw [List.foldl_cons]
    by_cases hd : hGet hp r d.1 = Val.none
    · rw [if_pos hd]
      rcases ih (hSet hp r d.1 d.2) r f with h1 | h1
      · by_cases hf : f = d.1
        · subst hf
          exact Or.inr hd
        · left
          rw [h1]
          unfold hGet hSet
          rw [heapGet_heapSet_same]
          exact recGet_recSet_other _ _ f _ hf
      · by_cases hf : f = d.1
        · subst hf
          exact Or.inr hd
        · right
          rw [← h1]
          unfold hGet hSet
          rw [heapGet_heapSet_same]
          exact (recGet_recSet_other _ _ f _ hf).symm
    · rw [if_neg hd]
      exact ih hp r f

/-- Primary-key resolution never removes attributes. -/
theorem assignPk_hasMono (sch : Schema) (s : ExecS) (r : Rid) (pkv : Val)
    (s' : ExecS) (h : assignPk sch s r = Except.ok (pkv, s'))
    (r2 : Rid) (f : String) (hh : hHas s.heap r2 f = true) :
    hHas s'.heap r2 f = true := by
  simp only [assignPk] at h
  split at h
  · injection h with h2
    injection h2 with ha hb
    subst hb
    exact (hHas_hSet s.heap r r2 sch.pkName f _).mpr (Or.inl hh)
  · split at h
    · injection h with h2
      injection h2 with ha hb
      subst hb
      exact hh
    · cases h

/-- Primary-key resolution leaves the key attribute present: it either
assigns it or found it non-NULL (hence present). -/
theorem assignPk_has_pk (sch : Schema) (s : ExecS) (r : Rid) (pkv : Val)
    (s' : ExecS) (h : assignPk sch s r = Except.ok (pkv, s')) :
    hHas s'.heap r sch.pkName = true := by
  simp only [assignPk] at h
  split at h
  · injection h with h2
    injection h2 with ha hb
    subst hb
    exact (hHas_hSet s.heap r r sch.pkName sch.pkName _).mpr
      (Or.inr ⟨rfl, rfl⟩)
  · rename_i hcur
    split at h
    · injection h with h2
      injection h2 with ha hb
      subst hb
      exact hGet_ne_none_has s.heap r sch.pkName hcur
    · cases h

/-- Column defaults never remove attributes. -/
theorem defaults_hasMono (sch : Schema) (hp : Heap) (r r2 : Rid) (f : String)
    (hh : hHas hp r2 f = true) :
    hHas (applyColumnDefaults sch hp r) r2 f = true := by
  rw [show applyColumnDefaults sch hp r = sch.defaults.foldl (fun h2 p =>
    if hGet h2 r p.1 = Val.none then hSet h2 r p.1 p.2 else h2) hp from rfl]
  have haux : ∀ (defs : List (String × Val)) (hp2 : Heap),
      hHas hp2 r2 f = true →
      hHas (defs.foldl (fun h2 p =>
        if hGet h2 r p.1 = Val.none then hSet h2 r p.1 p.2 else h2) hp2) r2 f
        = true := by
    intro defs
    induction defs with
    | nil => intro hp2 hh2; exact hh2
    | cons d t ih =>
      intro hp2 hh2
      rw [List.foldl_cons]
      refine ih _ ?_
      by_cases hc : hGet hp2 r d.1 = Val.none
      · rw [if_pos hc]
        exact (hHas_hSet hp2 r r2 d.1 f d.2).mpr (Or.inl hh2)
      · rw [if_neg hc]
        exact hh2
  exact haux sch.defaults hp hh

/-- A fold of attribute writes never removes attributes. -/
theorem foldl_hSet_hasMono (data : List (String × Val)) :
    ∀ (hp : Heap) (item r2 : Rid) (f : String), hHas hp r2 f = true →
      hHas (data.foldl (fun h p => hSet h item p.1 p.2) hp) r2 f = true := by
  induction data with
  | nil => intro hp item r2 f hh; exact hh
  | cons d t ih =>
    intro hp item r2 f hh
    rw [List.foldl_cons]
    exact ih _ item r2 f ((hHas_hSet hp item r2 d.1 f d.2).mpr (Or.inl hh))

/-- A fold of attribute writes makes every written field present. -/
theorem foldl_hSet_has_mem (data : List (String × Val)) :
    ∀ (hp : Heap) (item : Rid) (f : String), f ∈ data.map Prod.fst →
      hHas (data.foldl (fun h p => hSet h item p.1 p.2) hp) item f
        = true := by
  induction data with
  | nil =>
    intro hp item f hf
    simp at hf
  | cons d t ih =>
    intro hp item f hf
    rw [List.map_cons] at hf
    rw [List.foldl_cons]
    rcases List.mem_cons.mp hf with hf2 | hf2
    · exact foldl_hSet_hasMono t _ item item f
        ((hHas_hSet hp item item d.1 f d.2).mpr (Or.inr ⟨rfl, hf2⟩))
    · exact ih _ item f hf2

/-- The insertion phase never removes attributes. -/
theorem adds_go_hasMono (sch : Schema) :
    ∀ (l added : List Rid) (s s' : ExecS),
      applyAdds.go sch s added l = CommitResult.ok s' →
      ∀ r2 f, hHas s.heap r2 f = true → hHas s'.heap r2 f = true := by
  intro l
  induction l with
  | nil =>
    intro added s s' h r2 f hh
    injection h with h2
    rw [← h2]
    exact hh
  | cons r t ih =>
    intro added s s' h r2 f hh
    simp only [applyAdds.go] at h
    split at h
    · exact ih added s s' h r2 f hh
    · split at h
      · cases h
      · rename_i pkv s1 hassign
        split at h
        · cases h
        · split at h
          · rename_i im2 hins
            refine ih (r :: added) _ s' h r2 f ?_
            show hHas (applyColumnDefaults sch s1.heap r) r2 f = true
            exact defaults_hasMono sch s1.heap r r2 f
              (assignPk_hasMono sch s r pkv s1 hassign r2 f hh)
          · cases h

/-- The update phase never removes attributes. -/
theorem updates_go_hasMono (sch : Schema) :
    ∀ (l : List (Val × List (String × Val))) (s s' : ExecS),
      applyUpdates.go sch s l = CommitResult.ok s' →
      ∀ r2 f, hHas s.heap r2 f = true → hHas s'.heap r2 f = true := by
  intro l
  induction l with
  | nil =>
    intro s s' h r2 f hh
    injection h with h2
    rw [← h2]
    exact hh
  | cons e t ih =>
    intro s s' h r2 f hh
    obtain ⟨pk, data⟩ := e
    simp only [applyUpdates.go] at h
    split at h
    · cases h
    · rename_i item hbpk
      split at h
      · rename_i im2 hupd
        refine ih _ s' h r2 f ?_
        show hHas (data.foldl (fun h2 p => hSet h2 item p.1 p.2) s.heap) r2 f
          = true
        exact foldl_hSet_hasMono data s.heap item r2 f hh
      · cases h

/-- One buffered operation from an `opInitializes` trace preserves the
presence of every allocated record's non-primary-key indexed columns. -/
theorem applyOp_allocPresent (sch : Schema) (s : ExecS) (op : Op)
    (hop : opInitializes sch op = true) (h : AllocPresent sch s) :
    AllocPresent sch (applyOp s op) := by
  cases op with
  | newObj fields =>
    intro r hr p hp hnpk
    have hr1 : r < s.nextRid + 1 := hr
    show hHas (heapSet s.heap s.nextRid (normFields fields)) r p.2 = true
    by_cases hrn : r = s.nextRid
    · subst hrn
      unfold hHas
      rw [heapGet_heapSet_same]
      refine normFields_has fields p.2 ?_
      simp only [opInitializes] at hop
      have h2 := List.all_eq_true.mp hop p hp
      simp at h2
      rcases h2 with h2 | h2
      · exact absurd h2 hnpk
      · rcases h2 with ⟨x, hx⟩
        exact List.mem_map.mpr ⟨(p.2, x), hx, rfl⟩
    · have hr2 : r < s.nextRid :=
        Nat.lt_of_le_of_ne (Nat.lt_succ_iff.mp hr1) hrn
      rw [hHas_heapSet_other _ _ _ _ _ hrn]
      exact h r hr2 p hp hnpk
  | addExisting r2 =>
    by_cases hg : r2 < s.nextRid
    · simp only [applyOp, if_pos hg]
      exact h
    · simp only [applyOp, if_neg hg]
      exact h
  | delete r2 =>
    by_cases hg : r2 < s.nextRid
    · simp only [applyOp, if_pos hg]
      exact h
    · simp only [applyOp, if_neg hg]
      exact h
  | update pk data => exact h
  | setAttr r2 f v =>
    by_cases hg : r2 < s.nextRid
    · have hstep : ∀ (s2 : ExecS), s2.heap = hSet s.heap r2 f v →
          s2.nextRid = s.nextRid → AllocPresent sch s2 := by
        intro s2 hh hn
        intro r hr p hp hnpk
        rw [hh]
        rw [hn] at hr
        exact (hHas_hSet s.heap r2 r f p.2 v).mpr (Or.inl (h r hr p hp hnpk))
      by_cases hpr : hHas s.heap r2 f = false
      · simp only [applyOp, if_pos hg, if_pos hpr]
        exact hstep _ rfl rfl
      · by_cases holdv : hGet s.heap r2 f = v
        · simp only [applyOp, if_pos hg, if_neg hpr, if_pos holdv]
          exact hstep _ rfl rfl
        · simp only [applyOp, if_pos hg, if_neg hpr, if_neg holdv]
          exact hstep _ rfl rfl
    · simp only [applyOp, if_neg hg]
      exact h

/-- Buffering an `opInitializes` transaction preserves allocation-wide
presence of the non-primary-key indexed columns. -/
theorem applyOps_allocPresent (sch : Schema) :
    ∀ (ops : List Op) (s : ExecS), ops.all (opInitializes sch) = true →
      AllocPresent sch s → AllocPresent sch (applyOps s ops) := by
  intro ops
  induction ops with
  | nil =>
    intro s _ h
    exact h
  | cons op t ih =>
    intro s hall h
    rw [List.all_cons] at hall
    have h1 := (Bool.and_eq_true _ _).mp hall
    exact ih (applyOp s op) h1.2 (applyOp_allocPresent sch s op h1.1 h)

/-- The key-deletion loop ends by removing every deleted object from the
indexes, from each object's current attribute values. -/
theorem delKeys_im (sch : Schema) :
    ∀ (pks : List Val) (objs : List Rid) (s s' : ExecS),
      applyDeletes.delKeys sch s pks objs = CommitResult.ok s' →
      s'.store.im = objs.foldl
        (fun im o => on_delete sch im (heapGet s.heap o) o) s.store.im := by
  intro pks
  induction pks with
  | nil =>
    intro objs s s' h
    injection h with h2
    rw [← h2]
  | cons pk t ih =>
    intro objs s s' h
    simp only [applyDeletes.delKeys] at h
    split at h
    · cases h
    · have hres := ih objs _ s' h
      exact hres

/-- Entering `commit()` from a coherent committed state through any buffered
session operations, the modification-index phase restores full index/data
coherence with respect to the current heap. -/
theorem ump_coh (sch : Schema) (hgnd : ((getIndexes sch).map Prod.fst).Nodup)
    (s0 s1 s1' : ExecS) (hc : Coh sch s0) (hops : OpsInv s0 s1)
    (h : update_modified_items_indexes sch s1 = CommitResult.ok s1') :
    Coh sch s1' := by
  have hgo : update_modified_items_indexes.go sch s1 s1.store.pending.mods
      = CommitResult.ok s1' := h
  have hexp0 : ∀ rr, rr < s0.nextRid → ∀ col, hHas s0.heap rr col = true →
      expVal s1.store.pending.mods s1.heap rr col = hGet s0.heap rr col := by
    intro rr hrr col hhc
    unfold expVal
    cases hm : modsFind s1.store.pending.mods rr col with
    | none => exact hops.heap_pres rr col hrr hhc hm
    | some m =>
      have h3 := hops.mods_old rr col m.1 m.2 hrr hhc (by
        show modsFind s1.store.pending.mods rr col = some (m.1, m.2)
        rw [hm])
      exact h3
  have p1 : ∀ p ∈ getIndexes sch, ∀ rr ∈ s1.store.data,
      rr ∈ bucketsGet (hashGetBuckets s1.store.im.hash p.1)
        (expVal s1.store.pending.mods s1.heap rr p.2) := by
    intro p hp rr hrr
    rw [hops.data_eq] at hrr
    have hlt := hc.data_lt rr hrr
    have hhc := hc.mem_has p hp (hGet s0.heap rr p.2) rr
      (hc.live_in p hp rr hrr)
    rw [hops.im_eq, hexp0 rr hlt p.2 hhc]
    exact hc.live_in p hp rr hrr
  have p2 : ∀ p ∈ getIndexes sch, ∀ v rr,
      rr ∈ bucketsGet (hashGetBuckets s1.store.im.hash p.1) v →
      v = expVal s1.store.pending.mods s1.heap rr p.2 := by
    intro p hp v rr hmem
    rw [hops.im_eq] at hmem
    have hlt := hc.mem_lt p hp v rr hmem
    have hhc := hc.mem_has p hp v rr hmem
    rw [hexp0 rr hlt p.2 hhc]
    exact (hc.mem_val p hp v rr hmem).symm
  have p5 : ∀ p ∈ getIndexes sch, ∀ v rr,
      rr ∈ bucketsGet (hashGetBuckets s1.store.im.hash p.1) v →
      rr ∈ bucketsGet (rangeGetEntries s1.store.im.range p.1) v := by
    intro p hp v rr hmem
    rw [hops.im_eq] at hmem ⊢
    exact hc.hash_range p hp v rr hmem
  have p6 : ∀ p ∈ getIndexes sch,
      ((rangeGetEntries s1.store.im.range p.1).map Prod.fst).Pairwise
        (fun a b => valComparable a b = true) := by
    intro p hp
    rw [hops.im_eq]
    exact hc.range_comp p hp
  have p7 : ∀ p ∈ getIndexes sch,
      ((rangeGetEntries s1.store.im.range p.1).map Prod.fst).Nodup := by
    intro p hp
    rw [hops.im_eq]
    exact hc.range_nodup p hp
  have p8 : ∀ idx, ((hashGetBuckets s1.store.im.hash idx).map Prod.fst).Nodup
      := by
    intro idx
    rw [hops.im_eq]
    exact hc.keys_nodup idx
  have p9 : ∀ p ∈ getIndexes sch, ∀ v rr,
      rr ∈ bucketsGet (hashGetBuckets s1.store.im.hash p.1) v →
      rr < s1.nextRid := by
    intro p hp v rr hmem
    rw [hops.im_eq] at hmem
    exact lt_of_lt_of_le (hc.mem_lt p hp v rr hmem) hops.nextRid_le
  have p10 : ∀ p ∈ getIndexes sch, ∀ v rr,
      rr ∈ bucketsGet (hashGetBuckets s1.store.im.hash p.1) v →
      hHas s1.heap rr p.2 = true := by
    intro p hp v rr hmem
    rw [hops.im_eq] at hmem
    exact hops.has_mono rr p.2 (hc.mem_lt p hp v rr hmem)
      (hc.mem_has p hp v rr hmem)
  have hres := ump_go_coh sch hgnd s1.store.pending.mods s1 s1' hgo
    hops.mods_nodup hops.modsF_nodup hops.mods_rid_lt
    (fun rr col old new hm => hops.mods_new rr col old new hm)
    hops.mods_has
    p1 p2 p5 p6 p7 p8 p9 p10
  obtain ⟨c1, c2, c5, c6, c7, c8, c9, c10⟩ := hres
  rcases ump_frame sch s1 s1' h with ⟨hfd, hfb, _, _, hfh, hfn, _⟩
  refine ⟨?_, ?_, ?_, c6, c7, c8, ?_, ?_, ?_, ?_⟩
  · intro p hp rr hrr
    rw [hfd] at hrr
    rw [hfh]
    exact c1 p hp rr hrr
  · intro p hp v rr hmem
    rw [hfh]
    exact (c2 p hp v rr hmem).symm
  · exact c5
  · intro p hp v rr hmem
    rw [hfn]
    exact c9 p hp v rr hmem
  · intro rr hrr
    rw [hfd, hops.data_eq] at hrr
    rw [hfn]
    exact lt_of_lt_of_le (hc.data_lt rr hrr) hops.nextRid_le
  · intro e he
    rw [hfb, hops.byPk_eq] at he
    rw [hfn]
    exact lt_of_lt_of_le (hc.byPk_lt e he) hops.nextRid_le
  · intro p hp v rr hmem
    rw [hfh]
    exact c10 p hp v rr hmem

/-- Removing a batch of objects from the indexes keeps every coherence side
condition and every surviving record's bucket entries. -/
theorem on_delete_objs_coh (sch : Schema)
    (hgnd : ((getIndexes sch).map Prod.fst).Nodup) (hp : Heap) (nr : Rid) :
    ∀ (objs : List Rid) (im : IdxMgr),
      (∀ p ∈ getIndexes sch, ∀ v r2,
        r2 ∈ bucketsGet (hashGetBuckets im.hash p.1) v →
        hGet hp r2 p.2 = v) →
      (∀ p ∈ getIndexes sch, ∀ v r2,
        r2 ∈ bucketsGet (hashGetBuckets im.hash p.1) v →
        hHas hp r2 p.2 = true) →
      (∀ p ∈ getIndexes sch, ∀ v r2,
        r2 ∈ bucketsGet (hashGetBuckets im.hash p.1) v →
        r2 ∈ bucketsGet (rangeGetEntries im.range p.1) v) →
      (∀ p ∈ getIndexes sch,
        ((rangeGetEntries im.range p.1).map Prod.fst).Pairwise
          (fun a b => valComparable a b = true)) →
      (∀ p ∈ getIndexes sch,
        ((rangeGetEntries im.range p.1).map Prod.fst).Nodup) →
      (∀ idx, ((hashGetBuckets im.hash idx).map Prod.fst).Nodup) →
      (∀ p ∈ getIndexes sch, ∀ v r2,
        r2 ∈ bucketsGet (hashGetBuckets im.hash p.1) v → r2 < nr) →
      ((∀ p ∈ getIndexes sch, ∀ v r2,
        r2 ∈ bucketsGet (hashGetBuckets (objs.foldl
          (fun im o => on_delete sch im (heapGet hp o) o) im).hash p.1) v →
        hGet hp r2 p.2 = v) ∧
      (∀ p ∈ getIndexes sch, ∀ v r2,
        r2 ∈ bucketsGet (hashGetBuckets (objs.foldl
          (fun im o => on_delete sch im (heapGet hp o) o) im).hash p.1) v →
        hHas hp r2 p.2 = true) ∧
      (∀ p ∈ getIndexes sch, ∀ v r2,
        r2 ∈ bucketsGet (hashGetBuckets (objs.foldl
          (fun im o => on_delete sch im (heapGet hp o) o) im).hash p.1) v →
        r2 ∈ bucketsGet (rangeGetEntries (objs.foldl
          (fun im o => on_delete sch im (heapGet hp o) o) im).range p.1) v) ∧
      (∀ p ∈ getIndexes sch,
        ((rangeGetEntries (objs.foldl
          (fun im o => on_delete sch im (heapGet hp o) o) im).range
            p.1).map Prod.fst).Pairwise
          (fun a b => valComparable a b = true)) ∧
      (∀ p ∈ getIndexes sch,
        ((rangeGetEntries (objs.foldl
          (fun im o => on_delete sch im (heapGet hp o) o) im).range
            p.1).map Prod.fst).Nodup) ∧
      (∀ idx, ((hashGetBuckets (objs.foldl
          (fun im o => on_delete sch im (heapGet hp o) o) im).hash
            idx).map Prod.fst).Nodup) ∧
      (∀ p ∈ getIndexes sch, ∀ v r2,
        r2 ∈ bucketsGet (hashGetBuckets (objs.foldl
          (fun im o => on_delete sch im (heapGet hp o) o) im).hash p.1) v →
        r2 < nr) ∧
      (∀ p ∈ getIndexes sch, ∀ v rr, rr ∉ objs →
        rr ∈ bucketsGet (hashGetBuckets im.hash p.1) v →
        rr ∈ bucketsGet (hashGetBuckets (objs.foldl
          (fun im o => on_delete sch im (heapGet hp o) o) im).hash p.1) v)) := by
  intro objs
  induction objs with
  | nil =>
    intro im h1 h1p h2 h3 h4 h5 h6
    exact ⟨h1, h1p, h2, h3, h4, h5, h6, fun p hp2 v rr _ hmem => hmem⟩
  | cons o t ih =>
    intro im hmv hhv hA5 hA6 hrn hknd hbd
    have hspec := on_delete_fold_spec (heapGet hp o) o (getIndexes sch) im
      hgnd hknd (fun p hp2 => hrn p hp2)
    obtain ⟨hun, hmem, hrkeep, hrsub, hkndp⟩ := hspec
    have hmv1 : ∀ p ∈ getIndexes sch, ∀ v r2,
        r2 ∈ bucketsGet (hashGetBuckets
          (on_delete sch im (heapGet hp o) o).hash p.1) v →
        hGet hp r2 p.2 = v := by
      intro p hp2 v r2 hm
      exact hmv p hp2 v r2 ((hmem p hp2 v r2).mp hm).1
    have hhv1 : ∀ p ∈ getIndexes sch, ∀ v r2,
        r2 ∈ bucketsGet (hashGetBuckets
          (on_delete sch im (heapGet hp o) o).hash p.1) v →
        hHas hp r2 p.2 = true := by
      intro p hp2 v r2 hm
      exact hhv p hp2 v r2 ((hmem p hp2 v r2).mp hm).1
    have hA51 : ∀ p ∈ getIndexes sch, ∀ v r2,
        r2 ∈ bucketsGet (hashGetBuckets
          (on_delete sch im (heapGet hp o) o).hash p.1) v →
        r2 ∈ bucketsGet (rangeGetEntries
          (on_delete sch im (heapGet hp o) o).range p.1) v := by
      intro p hp2 v r2 hm
      have hm2 := (hmem p hp2 v r2).mp hm
      exact hrkeep p hp2 v r2 (hA5 p hp2 v r2 hm2.1) hm2.2
    have hA61 : ∀ p ∈ getIndexes sch,
        ((rangeGetEntries (on_delete sch im (heapGet hp o) o).range
          p.1).map Prod.fst).Pairwise
            (fun a b => valComparable a b = true) := by
      intro p hp2
      exact (hA6 p hp2).sublist (hrsub p hp2)
    have hrn1 : ∀ p ∈ getIndexes sch,
        ((rangeGetEntries (on_delete sch im (heapGet hp o) o).range
          p.1).map Prod.fst).Nodup := by
      intro p hp2
      exact (hrsub p hp2).nodup (hrn p hp2)
    have hknd1 : ∀ idx, ((hashGetBuckets
        (on_delete sch im (heapGet hp o) o).hash idx).map Prod.fst).Nodup :=
      hkndp
    have hbd1 : ∀ p ∈ getIndexes sch, ∀ v r2,
        r2 ∈ bucketsGet (hashGetBuckets
          (on_delete sch im (heapGet hp o) o).hash p.1) v → r2 < nr := by
      intro p hp2 v r2 hm
      exact hbd p hp2 v r2 ((hmem p hp2 v r2).mp hm).1
    have hres := ih (on_delete sch im (heapGet hp o) o)
      hmv1 hhv1 hA51 hA61 hrn1 hknd1 hbd1
    obtain ⟨c1, c1p, c2, c3, c4, c5, c6, c7⟩ := hres
    rw [List.foldl_cons]
    refine ⟨c1, c1p, c2, c3, c4, c5, c6, ?_⟩
    intro p hp2 v rr hnm hm
    have hno : rr ≠ o := fun e => hnm (e ▸ List.mem_cons_self _ _)
    have hnt : rr ∉ t := fun hm2 => hnm (List.mem_cons_of_mem _ hm2)
    refine c7 p hp2 v rr hnt ?_
    exact (hmem p hp2 v rr).mpr ⟨hm, fun hpair => hno hpair.1⟩

/-- The key-deletion loop only shrinks the primary-key map. -/
theorem delKeys_byPk_sub (sch : Schema) :
    ∀ (pks : List Val) (objs : List Rid) (s s' : ExecS),
      applyDeletes.delKeys sch s pks objs = CommitResult.ok s' →
      ∀ e ∈ s'.store.byPk, e ∈ s.store.byPk := by
  intro pks
  induction pks with
  | nil =>
    intro objs s s' h e he
    injection h with h2
    rw [← h2] at he
    exact he
  | cons pk t ih =>
    intro objs s s' h e he
    simp only [applyDeletes.delKeys] at h
    split at h
    · cases h
    · have hres := ih objs _ s' h e he
      exact List.mem_of_mem_filter hres

/-- The deletion phase of `commit()` preserves index/data coherence. -/
theorem deletes_coh (sch : Schema)
    (hgnd : ((getIndexes sch).map Prod.fst).Nodup) (s s2 : ExecS)
    (hc : Coh sch s) (h : applyDeletes sch s = CommitResult.ok s2) :
    Coh sch s2 := by
  simp only [applyDeletes] at h
  split at h
  · injection h with h2
    rw [← h2]
    exact hc
  · have him := delKeys_im sch _ _ _ s2 h
    have hsub := delKeys_byPk_sub sch _ _ _ s2 h
    rcases delKeys_frame sch _ _ _ s2 h with ⟨hfd, _, _, hfh, hfn, _⟩
    have hres := on_delete_objs_coh sch hgnd s.heap s.nextRid
      s.store.pending.toDelete s.store.im
      hc.mem_val hc.mem_has hc.hash_range hc.range_comp hc.range_nodup
      hc.keys_nodup hc.mem_lt
    obtain ⟨cmv, chv, cA5, cpair, crn, cknd, cbd, ckeep⟩ := hres
    have himv : s2.store.im = s.store.pending.toDelete.foldl
        (fun im o => on_delete sch im (heapGet s.heap o) o) s.store.im := him
    refine ⟨?_, ?_, ?_, ?_, ?_, ?_, ?_, ?_, ?_, ?_⟩
    · intro p hp rr hrr
      have hrr2 : rr ∈ s.store.data.filter (fun row =>
          hGet s.heap row sch.pkName ∉ dedupFirst
            (s.store.pending.toDelete.map
              (fun o => hGet s.heap o sch.pkName))) := by
        rw [hfd] at hrr
        exact hrr
      rcases List.mem_filter.mp hrr2 with ⟨hrr3, hcond⟩
      have hnotdel : rr ∉ s.store.pending.toDelete := by
        intro hdel
        have hpk : hGet s.heap rr sch.pkName ∈ dedupFirst
            (s.store.pending.toDelete.map
              (fun o => hGet s.heap o sch.pkName)) :=
          (mem_dedupFirst _ _).mpr (List.mem_map.mpr ⟨rr, hdel, rfl⟩)
        simp at hcond
        exact hcond hpk
      have hlive := hc.live_in p hp rr hrr3
      have hmem2 := ckeep p hp (hGet s.heap rr p.2) rr hnotdel hlive
      rw [himv]
      have hheq : s2.heap = s.heap := hfh
      rw [hheq]
      exact hmem2
    · intro p hp v rr hmem
      rw [himv] at hmem
      have hheq : s2.heap = s.heap := hfh
      rw [hheq]
      exact cmv p hp v rr hmem
    · intro p hp v rr hmem
      rw [himv] at hmem ⊢
      exact cA5 p hp v rr hmem
    · intro p hp
      rw [himv]
      exact cpair p hp
    · intro p hp
      rw [himv]
      exact crn p hp
    · intro idx
      rw [himv]
      exact cknd idx
    · intro p hp v rr hmem
      rw [himv] at hmem
      have hneq : s2.nextRid = s.nextRid := hfn
      rw [hneq]
      exact cbd p hp v rr hmem
    · intro rr hrr
      have hrr2 : rr ∈ s.store.data.filter (fun row =>
          hGet s.heap row sch.pkName ∉ dedupFirst
            (s.store.pending.toDelete.map
              (fun o => hGet s.heap o sch.pkName))) := by
        rw [hfd] at hrr
        exact hrr
      have hneq : s2.nextRid = s.nextRid := hfn
      rw [hneq]
      exact hc.data_lt rr (List.mem_of_mem_filter hrr2)
    · intro e he
      have hneq : s2.nextRid = s.nextRid := hfn
      rw [hneq]
      exact hc.byPk_lt e (hsub e he)
    · intro p hp v rr hmem
      rw [himv] at hmem
      have hheq : s2.heap = s.heap := hfh
      rw [hheq]
      exact chv p hp v rr hmem

/-- The insertion phase of `commit()` preserves index/data coherence.  The
heap changes it makes (primary-key assignment, column defaults) only turn
None values into set ones, so any stale hash entry of an inserted record
would sit under a None key whose range insert of the new non-None value
must raise — a successful pass therefore leaves every record's entries at
its current values. -/
theorem adds_go_coh (sch : Schema)
    (hgnd : ((getIndexes sch).map Prod.fst).Nodup) :
    ∀ (l added : List Rid) (s s' : ExecS),
      applyAdds.go sch s added l = CommitResult.ok s' →
      (∀ r ∈ l, r < s.nextRid) →
      AllocPresent sch s →
      Coh sch s → Coh sch s' := by
  intro l
  induction l with
  | nil =>
    intro added s s' h _ _ hc
    injection h with h2
    rw [← h2]
    exact hc
  | cons r t ih =>
    intro added s s' h hbnd hap hc
    simp only [applyAdds.go] at h
    split at h
    · exact ih added s s' h
        (fun r2 h2 => hbnd r2 (List.mem_cons_of_mem _ h2)) hap hc
    · split at h
      · cases h
      · rename_i pkv s1 hassign
        split at h
        · cases h
        · split at h
          · rename_i im2 hins
            have hrlt : r < s.nextRid := hbnd r (List.mem_cons_self _ _)
            rcases assignPk_frame sch s r pkv s1 hassign with
              ⟨hfd1, hfb1, hfim1, hfp1, hfn1⟩
            rcases assignPk_heap sch s r pkv s1 hassign with ⟨hho, hhs⟩
            have hdo : ∀ r2 f, ¬ (r2 = r) →
                hGet (applyColumnDefaults sch s1.heap r) r2 f
                  = hGet s.heap r2 f := by
              intro r2 f hne
              rw [show applyColumnDefaults sch s1.heap r
                  = sch.defaults.foldl (fun h2 p =>
                    if hGet h2 r p.1 = Val.none then hSet h2 r p.1 p.2
                    else h2) s1.heap from rfl]
              rw [defaults_heap_other sch.defaults s1.heap r r2 f hne]
              exact hho r2 f hne
            have hds : ∀ f,
                hGet (applyColumnDefaults sch s1.heap r) r f
                  = hGet s.heap r f ∨ hGet s.heap r f = Val.none := by
              intro f
              have h3 : hGet (applyColumnDefaults sch s1.heap r) r f
                  = hGet s1.heap r f ∨ hGet s1.heap r f = Val.none :=
                defaults_heap_self sch.defaults s1.heap r f
              rcases h3 with h3 | h3
              · rcases hhs f with h4 | h4
                · exact Or.inl (h3.trans h4)
                · exact Or.inr h4
              · rcases hhs f with h4 | h4
                · exact Or.inr (h4 ▸ h3)
                · exact Or.inr h4
            have hchange : ∀ col,
                hGet s.heap r col
                  ≠ recGet (heapGet (applyColumnDefaults sch s1.heap r) r) col →
                hGet s.heap r col = Val.none := by
              intro col hne
              rcases hds col with h3 | h3
              · exact absurd h3.symm (by simpa using hne)
              · exact h3
            have hins2 : on_insert.go
                (heapGet (applyColumnDefaults sch s1.heap r) r) r
                s1.store.im (getIndexes sch) = (im2, Option.none) := hins
            rw [hfim1] at hins2
            have hspec := on_insert_go_spec
              (heapGet (applyColumnDefaults sch s1.heap r) r) r
              (fun col => hGet s.heap r col) hchange (getIndexes sch)
              s.store.im im2 hins2 hgnd
              (fun p hp v hv => (hc.mem_val p hp v r hv).symm)
              hc.hash_range hc.range_comp hc.range_nodup hc.keys_nodup
            obtain ⟨hun, hmem, hstale, ha5p, ha6p, hrnp, hkndp⟩ := hspec
            have hstale2 : ∀ p ∈ getIndexes sch, ∀ v,
                r ∈ bucketsGet (hashGetBuckets s.store.im.hash p.1) v →
                v = hGet (applyColumnDefaults sch s1.heap r) r p.2 :=
              hstale
            have hhas_r : ∀ p ∈ getIndexes sch,
                hHas (applyColumnDefaults sch s1.heap r) r p.2 = true := by
              intro p hp
              by_cases hpk : p.2 = sch.pkName
              · rw [hpk]
                exact defaults_hasMono sch s1.heap r r sch.pkName
                  (assignPk_has_pk sch s r pkv s1 hassign)
              · exact defaults_hasMono sch s1.heap r r p.2
                  (assignPk_hasMono sch s r pkv s1 hassign r p.2
                    (hap r hrlt p hp hpk))
            have hcoh3 : Coh sch { s1 with
                heap := applyColumnDefaults sch s1.heap r,
                store := { s1.store with
                  data := s1.store.data ++ [r],
                  byPk := byPkSet s1.store.byPk pkv r,
                  im := im2 } } := by
              refine ⟨?_, ?_, ?_, ?_, ?_, ?_, ?_, ?_, ?_, ?_⟩
              · intro p hp rr hrr
                show rr ∈ bucketsGet (hashGetBuckets im2.hash p.1)
                  (hGet (applyColumnDefaults sch s1.heap r) rr p.2)
                rcases List.mem_append.mp hrr with hrr | hrr
                · rw [hfd1] at hrr
                  have hpre := hc.live_in p hp rr hrr
                  by_cases hrr2 : rr = r
                  · subst hrr2
                    rw [← hstale2 p hp _ hpre]
                    exact (hmem p hp _ rr).mpr (Or.inl hpre)
                  · rw [hdo rr p.2 hrr2]
                    exact (hmem p hp _ rr).mpr (Or.inl hpre)
                · have hrr2 : rr = r := List.mem_singleton.mp hrr
                  subst hrr2
                  exact (hmem p hp _ rr).mpr (Or.inr ⟨rfl, rfl⟩)
              · intro p hp v rr hmm
                show hGet (applyColumnDefaults sch s1.heap r) rr p.2 = v
                rcases (hmem p hp v rr).mp hmm with hpre | ⟨he1, he2⟩
                · by_cases hrr2 : rr = r
                  · subst hrr2
                    exact (hstale2 p hp v hpre).symm
                  · rw [hdo rr p.2 hrr2]
                    exact hc.mem_val p hp v rr hpre
                · subst he1
                  rw [he2]
                  rfl
              · exact ha5p
              · exact ha6p
              · exact hrnp
              · exact hkndp
              · intro p hp v rr hmm
                show rr < s1.nextRid
                rw [hfn1]
                rcases (hmem p hp v rr).mp hmm with hpre | ⟨he1, _⟩
                · exact hc.mem_lt p hp v rr hpre
                · exact he1 ▸ hrlt
              · intro rr hrr
                show rr < s1.nextRid
                rw [hfn1]
                rcases List.mem_append.mp hrr with hrr | hrr
                · rw [hfd1] at hrr
                  exact hc.data_lt rr hrr
                · exact (List.mem_singleton.mp hrr) ▸ hrlt
              · intro e he
                show e.2 < s1.nextRid
                rw [hfn1]
                rcases mem_byPkSet s1.store.byPk pkv r e he with h3 | h3
                · rw [hfb1] at h3
                  exact hc.byPk_lt e h3
                · rw [h3]
                  exact hrlt
              · intro p hp v rr hmm
                show hHas (applyColumnDefaults sch s1.heap r) rr p.2 = true
                rcases (hmem p hp v rr).mp hmm with hpre | ⟨he1, _⟩
                · by_cases hrr2 : rr = r
                  · subst hrr2
                    exact hhas_r p hp
                  · exact defaults_hasMono sch s1.heap r rr p.2
                      (assignPk_hasMono sch s r pkv s1 hassign rr p.2
                        (hc.mem_has p hp v rr hpre))
                · subst he1
                  exact hhas_r p hp
            have hbnd3 : ∀ r2 ∈ t, r2 < ({ s1 with
                heap := applyColumnDefaults sch s1.heap r,
                store := { s1.store with
                  data := s1.store.data ++ [r],
                  byPk := byPkSet s1.store.byPk pkv r,
                  im := im2 } } : ExecS).nextRid := by
              intro r2 h2
              show r2 < s1.nextRid
              rw [hfn1]
              exact hbnd r2 (List.mem_cons_of_mem _ h2)
            have hap3 : AllocPresent sch { s1 with
                heap := applyColumnDefaults sch s1.heap r,
                store := { s1.store with
                  data := s1.store.data ++ [r],
                  byPk := byPkSet s1.store.byPk pkv r,
                  im := im2 } } := by
              intro r2 hr2 p hp hnpk
              show hHas (applyColumnDefaults sch s1.heap r) r2 p.2 = true
              have hr2b : r2 < s.nextRid := by
                have h3 : r2 < s1.nextRid := hr2
                rw [hfn1] at h3
                exact h3
              exact defaults_hasMono sch s1.heap r r2 p.2
                (assignPk_hasMono sch s r pkv s1 hassign r2 p.2
                  (hap r2 hr2b p hp hnpk))
            have hres := ih (r :: added) _ s' h hbnd3 hap3 hcoh3
            exact hres
          · cases h

/-- A fold of attribute writes to one record leaves other records alone. -/
theorem foldl_hSet_other (data : List (String × Val)) :
    ∀ (hp : Heap) (item r2 : Rid) (f : String), ¬ (r2 = item) →
      hGet (data.foldl (fun h p => hSet h item p.1 p.2) hp) r2 f
        = hGet hp r2 f := by
  induction data with
  | nil =>
    intro hp item r2 f _
    rfl
  | cons d t ih =>
    intro hp item r2 f hne
    rw [List.foldl_cons, ih _ item r2 f hne]
    exact hGet_hSet_other hp item r2 d.1 f d.2 (Or.inl hne)

/-- A fold of attribute writes with duplicate-free field names reads back
as the written value, or the old one for untouched fields. -/
theorem foldl_hSet_self (data : List (String × Val)) :
    ∀ (hp : Heap) (item : Rid) (col : String),
      (data.map Prod.fst).Nodup →
      hGet (data.foldl (fun h p => hSet h item p.1 p.2) hp) item col =
        match data.find? (fun p => p.1 = col) with
        | some p => p.2
        | Option.none => hGet hp item col := by
  induction data with
  | nil =>
    intro hp item col _
    rfl
  | cons d t ih =>
    intro hp item col hnd
    rw [List.map_cons] at hnd
    rcases List.nodup_cons.mp hnd with ⟨hnm, hnd2⟩
    rw [List.foldl_cons, ih _ item col hnd2]
    by_cases hd : d.1 = col
    · rw [List.find?_cons_of_pos _ (by simp [hd])]
      rw [List.find?_eq_none.mpr (fun p hp2 hp3 => hnm (by
        rw [hd]
        have h3 : p.1 = col := by simpa using hp3
        exact h3 ▸ List.mem_map.mpr ⟨p, hp2, rfl⟩))]
      rw [← hd, hGet_hSet_same]
    · rw [List.find?_cons_of_neg _ (by simp [hd])]
      cases hf : t.find? (fun p => p.1 = col) with
      | some p => rfl
      | none =>
        exact hGet_hSet_other hp item item d.1 col d.2
          (Or.inr (fun e => hd e.symm))

/-- The update phase of `commit()` preserves index/data coherence: each
updated record's entries move from the bucket of its pre-update value (where
coherence placed them) to its new value's. -/
theorem updates_go_coh (sch : Schema)
    (hgnd : ((getIndexes sch).map Prod.fst).Nodup) :
    ∀ (l : List (Val × List (String × Val))) (s s' : ExecS),
      applyUpdates.go sch s l = CommitResult.ok s' →
      (∀ e ∈ l, (e.2.map Prod.fst).Nodup) →
      Coh sch s → Coh sch s' := by
  intro l
  induction l with
  | nil =>
    intro s s' h _ hc
    injection h with h2
    rw [← h2]
    exact hc
  | cons e0 t ih =>
    intro s s' h hnd hc
    obtain ⟨pk, data⟩ := e0
    have hdnd : (data.map Prod.fst).Nodup := by
      simpa using hnd (pk, data) (List.mem_cons_self _ _)
    simp only [applyUpdates.go] at h
    split at h
    · cases h
    · rename_i item hbpk
      split at h
      · rename_i im2 hupd
        have hitem : item < s.nextRid := by
          rcases byPkGet_mem s.store.byPk pk item hbpk with ⟨e2, he2, he3⟩
          exact he3 ▸ hc.byPk_lt e2 he2
        have hupd2 : on_update.go item
            (data.map (fun p => (p.1, hGet s.heap item p.1, p.2)))
            s.store.im (getIndexes sch) = (im2, Option.none) := hupd
        have hspec := on_update_go_spec item _ (getIndexes sch) s.store.im
          im2 hupd2 hgnd hc.hash_range hc.range_comp hc.range_nodup
          hc.keys_nodup
        obtain ⟨hun, hcun, hccov, ha5p, ha6p, hrnp, hkndp⟩ := hspec
        have hHo : ∀ r2 f, ¬ (r2 = item) →
            hGet (data.foldl (fun h2 p => hSet h2 item p.1 p.2) s.heap) r2 f
              = hGet s.heap r2 f :=
          fun r2 f hne => foldl_hSet_other data s.heap item r2 f hne
        have hvf : ∀ col,
            (data.map (fun p => (p.1, hGet s.heap item p.1, p.2))).find?
              (fun q => q.1 = col)
              = (data.find? (fun p => p.1 = col)).map
                (fun p => (p.1, hGet s.heap item p.1, p.2)) := by
          intro col
          rw [List.find?_map]
          rfl
        have hcov_old : ∀ col e,
            (data.map (fun p => (p.1, hGet s.heap item p.1, p.2))).find?
              (fun q => q.1 = col) = some e →
            e.2.1 = hGet s.heap item col ∧
            hGet (data.foldl (fun h2 p => hSet h2 item p.1 p.2) s.heap)
              item col = e.2.2 := by
          intro col e hce
          rw [hvf col] at hce
          cases hf : data.find? (fun p => p.1 = col) with
          | none =>
            rw [hf] at hce
            cases hce
          | some p0 =>
            rw [hf] at hce
            injection hce with hce2
            have hp01 : p0.1 = col := by
              have h3 := List.find?_some hf
              simpa using h3
            refine ⟨?_, ?_⟩
            · rw [← hce2]
              show hGet s.heap item p0.1 = hGet s.heap item col
              rw [hp01]
            · rw [foldl_hSet_self data s.heap item col hdnd, hf, ← hce2]
        have hunc_heap : ∀ col,
            (data.map (fun p => (p.1, hGet s.heap item p.1, p.2))).find?
              (fun q => q.1 = col) = Option.none →
            hGet (data.foldl (fun h2 p => hSet h2 item p.1 p.2) s.heap)
              item col = hGet s.heap item col := by
          intro col hce
          rw [hvf col] at hce
          cases hf : data.find? (fun p => p.1 = col) with
          | none =>
            rw [foldl_hSet_self data s.heap item col hdnd, hf]
          | some p0 =>
            rw [hf] at hce
            cases hce
        have hcoh1 : Coh sch { s with
            heap := data.foldl (fun h2 p => hSet h2 item p.1 p.2) s.heap,
            store := { s.store with im := im2 } } := by
          refine ⟨?_, ?_, ?_, ?_, ?_, ?_, ?_, ?_, ?_, ?_⟩
          · intro p hp rr hrr
            show rr ∈ bucketsGet (hashGetBuckets im2.hash p.1)
              (hGet (data.foldl (fun h2 p => hSet h2 item p.1 p.2) s.heap)
                rr p.2)
            have hpre := hc.live_in p hp rr hrr
            by_cases hri : rr = item
            · subst hri
              cases hce : (data.map
                  (fun p => (p.1, hGet s.heap rr p.1, p.2))).find?
                  (fun q => q.1 = p.2) with
              | none =>
                rw [(hcun p hp hce).1, hunc_heap p.2 hce]
                exact hpre
              | some e =>
                rcases hcov_old p.2 e hce with ⟨_, hnew⟩
                rw [hccov p hp e hce _ rr]
                exact Or.inr ⟨rfl, hnew⟩
            · rw [hHo rr p.2 hri]
              cases hce : (data.map
                  (fun p => (p.1, hGet s.heap item p.1, p.2))).find?
                  (fun q => q.1 = p.2) with
              | none =>
                rw [(hcun p hp hce).1]
                exact hpre
              | some e =>
                rw [hccov p hp e hce _ rr]
                exact Or.inl ⟨hpre, fun hpair => hri hpair.1⟩
          · intro p hp v rr hmm
            have hmm2 : rr ∈ bucketsGet (hashGetBuckets im2.hash p.1) v := hmm
            show hGet (data.foldl (fun h2 p => hSet h2 item p.1 p.2) s.heap)
              rr p.2 = v
            cases hce : (data.map
                (fun p => (p.1, hGet s.heap item p.1, p.2))).find?
                (fun q => q.1 = p.2) with
            | none =>
              rw [(hcun p hp hce).1] at hmm2
              have hpre := hc.mem_val p hp v rr hmm2
              by_cases hri : rr = item
              · subst hri
                rw [hunc_heap p.2 hce]
                exact hpre
              · rw [hHo rr p.2 hri]
                exact hpre
            | some e =>
              rcases (hccov p hp e hce v rr).mp hmm2 with
                ⟨hpre, hcond⟩ | ⟨he1, he2⟩
              · by_cases hri : rr = item
                · subst hri
                  rcases hcov_old p.2 e hce with ⟨hold, _⟩
                  have hpre2 := hc.mem_val p hp v rr hpre
                  exact absurd ⟨rfl, hpre2.symm.trans hold.symm⟩ hcond
                · rw [hHo rr p.2 hri]
                  exact hc.mem_val p hp v rr hpre
              · subst he1
                rcases hcov_old p.2 e hce with ⟨_, hnew⟩
                rw [he2]
                exact hnew
          · exact ha5p
          · exact ha6p
          · exact hrnp
          · exact hkndp
          · intro p hp v rr hmm
            have hmm2 : rr ∈ bucketsGet (hashGetBuckets im2.hash p.1) v := hmm
            show rr < s.nextRid
            cases hce : (data.map
                (fun p => (p.1, hGet s.heap item p.1, p.2))).find?
                (fun q => q.1 = p.2) with
            | none =>
              rw [(hcun p hp hce).1] at hmm2
              exact hc.mem_lt p hp v rr hmm2
            | some e =>
              rcases (hccov p hp e hce v rr).mp hmm2 with ⟨hpre, _⟩ | ⟨he1, _⟩
              · exact hc.mem_lt p hp v rr hpre
              · exact he1 ▸ hitem
          · intro rr hrr
            exact hc.data_lt rr hrr
          · intro e2 he2
            exact hc.byPk_lt e2 he2
          · intro p hp v rr hmm
            have hmm2 : rr ∈ bucketsGet (hashGetBuckets im2.hash p.1) v := hmm
            show hHas (data.foldl (fun h2 p => hSet h2 item p.1 p.2) s.heap)
              rr p.2 = true
            cases hce : (data.map
                (fun p => (p.1, hGet s.heap item p.1, p.2))).find?
                (fun q => q.1 = p.2) with
            | none =>
              rw [(hcun p hp hce).1] at hmm2
              exact foldl_hSet_hasMono data s.heap item rr p.2
                (hc.mem_has p hp v rr hmm2)
            | some e =>
              rcases (hccov p hp e hce v rr).mp hmm2 with
                ⟨hpre, _⟩ | ⟨he1, _⟩
              · exact foldl_hSet_hasMono data s.heap item rr p.2
                  (hc.mem_has p hp v rr hpre)
              · rw [hvf p.2] at hce
                cases hf : data.find? (fun p2 => p2.1 = p.2) with
                | none =>
                  rw [hf] at hce
                  cases hce
                | some p0 =>
                  have hp01 : p0.1 = p.2 := by
                    simpa using List.find?_some hf
                  have hmemk : p.2 ∈ data.map Prod.fst :=
                    hp01 ▸ List.mem_map.mpr
                      ⟨p0, List.mem_of_find?_eq_some hf, rfl⟩
                  rw [he1]
                  exact foldl_hSet_has_mem data s.heap item p.2 hmemk
        have hres := ih _ s' h
          (fun e2 he2 => hnd e2 (List.mem_cons_of_mem _ he2)) hcoh1
        exact hres
      · cases h

/-- The fresh store is coherent. -/
theorem coh_init (sch : Schema) : Coh sch ExecS.init := by
  refine ⟨?_, ?_, ?_, ?_, ?_, ?_, ?_, ?_, ?_, ?_⟩
  · intro p hp r hr
    exact absurd hr (List.not_mem_nil r)
  · intro p hp v r hr
    exact absurd hr (List.not_mem_nil r)
  · intro p hp v r hr
    exact absurd hr (List.not_mem_nil r)
  · intro p hp
    exact List.Pairwise.nil
  · intro p hp
    exact List.nodup_nil
  · intro idx
    exact List.nodup_nil
  · intro p hp v r hr
    exact absurd hr (List.not_mem_nil r)
  · intro r hr
    exact absurd hr (List.not_mem_nil r)
  · intro e he
    exact absurd he (List.not_mem_nil e)
  · intro p hp v r hr
    exact absurd hr (List.not_mem_nil r)

/-- A successful `commit()` preserves allocation-wide presence of the
non-primary-key indexed columns: its heap writes are attribute
assignments, never removals, and it allocates nothing. -/
theorem commit_allocPresent (sch : Schema) (s s' : ExecS)
    (h : commit sch s = CommitResult.ok s') (hap : AllocPresent sch s) :
    AllocPresent sch s' := by
  unfold commit at h
  split at h
  · cases h
  · rename_i s1 hump
    split at h
    · cases h
    · rename_i s2 hdel
      split at h
      · cases h
      · rename_i s3 hadds
        split at h
        · cases h
        · rename_i s4 hupds
          injection h with h2
          rcases ump_frame sch s s1 hump with ⟨_, _, _, _, hh1, hn1, _⟩
          rcases deletes_frame sch s1 s2 hdel with ⟨_, _, hh2, hn2, _⟩
          rcases adds_go_frame sch _ [] s2 s3 hadds with ⟨_, hn3⟩
          rcases updates_go_frame sch _ s3 s4 hupds with ⟨_, _, _, _, hn4, _⟩
          intro r hr p hp hnpk
          rw [← h2]
          show hHas s4.heap r p.2 = true
          have hr0 : r < s.nextRid := by
            have he : s'.nextRid = s.nextRid := by
              rw [← h2]
              show s4.nextRid = s.nextRid
              rw [hn4, hn3, hn2, hn1]
            rw [he] at hr
            exact hr
          have hpres1 : hHas s1.heap r p.2 = true := by
            rw [hh1]
            exact hap r hr0 p hp hnpk
          have hpres2 : hHas s2.heap r p.2 = true := by
            rw [hh2]
            exact hpres1
          have hpres3 : hHas s3.heap r p.2 = true :=
            adds_go_hasMono sch _ [] s2 s3 hadds r p.2 hpres2
          exact updates_go_hasMono sch _ s3 s4 hupds r p.2 hpres3

/-- A successful `commit()` from a coherent committed state (through any
buffered session operations) yields a coherent state.  The buffered state
must keep every allocated record's non-primary-key indexed columns present
(`AllocPresent`), which `opInitializes` traces guarantee: the insertion
phase indexes each added record under all indexed columns, and a column
absent from the object would be bucketed under NULL with later first sets
untracked. -/
theorem commit_coh (sch : Schema)
    (hgnd : ((getIndexes sch).map Prod.fst).Nodup) (s0 s1 s' : ExecS)
    (hc : Coh sch s0) (hops : OpsInv s0 s1) (hap1 : AllocPresent sch s1)
    (h : commit sch s1 = CommitResult.ok s') : Coh sch s' := by
  unfold commit at h
  split at h
  · cases h
  · rename_i s1' hump
    split at h
    · cases h
    · rename_i s2 hdel
      split at h
      · cases h
      · rename_i s3 hadds
        split at h
        · cases h
        · rename_i s4 hupds
          injection h with h2
          have hc1 : Coh sch s1' := ump_coh sch hgnd s0 s1 s1' hc hops hump
          have hc2 : Coh sch s2 := deletes_coh sch hgnd s1' s2 hc1 hdel
          rcases ump_frame sch s1 s1' hump with ⟨_, _, _, hp1, hh1, hn1, _⟩
          rcases deletes_frame sch s1' s2 hdel with ⟨_, hp2, hh2, hn2, _⟩
          have hadds2 : applyAdds.go sch s2 [] s2.store.pending.toAdd
              = CommitResult.ok s3 := hadds
          have hbnd : ∀ r ∈ s2.store.pending.toAdd, r < s2.nextRid := by
            intro r hr
            rw [hp2, hp1] at hr
            rw [hn2, hn1]
            exact hops.toAdd_lt r hr
          have hap2 : AllocPresent sch s2 := by
            intro r2 hr2 p hp hnpk
            rw [hh2, hh1]
            rw [hn2, hn1] at hr2
            exact hap1 r2 hr2 p hp hnpk
          have hc3 : Coh sch s3 :=
            adds_go_coh sch hgnd _ [] s2 s3 hadds2 hbnd hap2 hc2
          rcases adds_go_frame sch _ [] s2 s3 hadds2 with ⟨hp3, _⟩
          have hupnd : ∀ e ∈ s3.store.pending.toUpdate,
              (e.2.map Prod.fst).Nodup := by
            intro e he
            rw [hp3, hp2, hp1] at he
            exact hops.upd_nodup e he
          have hupds2 : applyUpdates.go sch s3 s3.store.pending.toUpdate
              = CommitResult.ok s4 := hupds
          have hc4 : Coh sch s4 :=
            updates_go_coh sch hgnd _ s3 s4 hupds2 hupnd hc3
          rw [← h2]
          exact ⟨hc4.live_in, hc4.mem_val, hc4.hash_range, hc4.range_comp,
            hc4.range_nodup, hc4.keys_nodup, hc4.mem_lt, hc4.data_lt,
            hc4.byPk_lt, hc4.mem_has⟩

/-- Every state reachable by a sequence of committed transactions from a
coherent committed state is coherent, provided every constructed object
initializes every non-primary-key indexed column. -/
theorem runFrom_coh (sch : Schema)
    (hgnd : ((getIndexes sch).map Prod.fst).Nodup) :
    ∀ (txns : List (List Op)) (s s' : ExecS),
      runFrom sch s txns = some s' →
      txnsInitialize sch txns = true →
      Coh sch s → AllocPresent sch s →
      s.store.pending = Pending.empty → Coh sch s' := by
  intro txns
  induction txns with
  | nil =>
    intro s s' h _ hc _ _
    injection h with h2
    rw [← h2]
    exact hc
  | cons ops rest ih =>
    intro s s' h hini hc hap hpend
    simp only [runFrom] at h
    simp only [txnsInitialize, List.all_cons] at hini
    have hini2 := (Bool.and_eq_true _ _).mp hini
    split at h
    · rename_i s2 hcommit
      have hops := opsInv_applyOps s ops hpend
      have hap1 : AllocPresent sch (applyOps s ops) :=
        applyOps_allocPresent sch ops s hini2.1 hap
      have hc2 := commit_coh sch hgnd s (applyOps s ops) s2 hc hops hap1
        hcommit
      have hap2 : AllocPresent sch s2 :=
        commit_allocPresent sch (applyOps s ops) s2 hcommit hap1
      exact ih s2 s' h hini2.2 hc2 hap2 (commit_ok_pending sch _ s2 hcommit)
    · cases h

/-- **C1** (amended): index/data agreement.  For every schema whose index
names are distinct, for every trace whose constructed objects initialize
every non-primary-key indexed column (`txnsInitialize` — the primary key is
resolved by the insert itself), every indexed column (the implicit
primary-key index included) and every record live after any sequence of
committed transactions of buffered inserts, deletes, updates and in-place
mutations: the hash-index bucket for the record's current column value
contains the record, and no bucket for a different value contains it.
Without the initialization proviso the agreement fails: an object inserted
with an indexed column absent from its `__dict__` is bucketed under NULL,
and a later first in-place set of that column is untracked (`NO_VALUE`
guard), so no commit moves the live record out of the stale NULL bucket
(see the counterexample). -/
theorem index_data_agreement (sch : Schema) (txns : List (List Op))
    (s : ExecS) (hgnd : ((getIndexes sch).map Prod.fst).Nodup)
    (hini : txnsInitialize sch txns = true)
    (h : run sch txns = some s) :
    ∀ p ∈ getIndexes sch, ∀ r ∈ s.store.data,
      r ∈ hashQuery s.store.im.hash p.1 (hGet s.heap r p.2) ∧
      ∀ v, v ≠ hGet s.heap r p.2 → r ∉ hashQuery s.store.im.hash p.1 v := by
  have hc := runFrom_coh sch hgnd txns ExecS.init s h hini (coh_init sch)
    (fun r hr p hp hnpk => absurd hr (Nat.not_lt_zero r)) rfl
  intro p hp r hr
  refine ⟨hc.live_in p hp r hr, ?_⟩
  intro v hv hmem
  exact hv ((hc.mem_val p hp v r hmem).symm)

/-- `index_data_agreement` instantiated on `stateX`: two committed records
with distinct values of the indexed `cat` column and auto-assigned keys in
the implicit `id` index. -/
theorem index_data_agreement_witness :
    ((getIndexes schX).map Prod.fst).Nodup ∧
    txnsInitialize schX txnsX = true ∧
    run schX txnsX = some stateX ∧
    (∀ p ∈ getIndexes schX, ∀ r ∈ stateX.store.data,
      r ∈ hashQuery stateX.store.im.hash p.1 (hGet stateX.heap r p.2) ∧
      ∀ v, v ≠ hGet stateX.heap r p.2 →
        r ∉ hashQuery stateX.store.im.hash p.1 v) :=
  ⟨by decide, by decide, by rfl,
   index_data_agreement schX txnsX stateX (by decide) (by decide) (by rfl)⟩

/-- C1, the claim as stated (without the initialization proviso) is false:
on `txnsStale` the record is inserted without its indexed `cat` column and
indexed under NULL; the later first in-place set `cat := 'B'` is skipped by
the listener's `NO_VALUE` guard (`store.py:231`), so the next commit moves
no index entry: the live record's current `cat` is `'B'`, yet it is absent
from the `'B'` bucket and still sits in the NULL bucket. -/
theorem index_stale_counterexample :
    run schX txnsStale = some stateStale ∧
    (0 : Rid) ∈ stateStale.store.data ∧
    hGet stateStale.heap 0 "cat" = Val.str "B" ∧
    (0 : Rid) ∉ hashQuery stateStale.store.im.hash "cat" (Val.str "B") ∧
    (0 : Rid) ∈ hashQuery stateStale.store.im.hash "cat" Val.none :=
  ⟨by rfl, by decide, by rfl, by decide, by decide⟩

/-- Membership in the first-seen deduplication. -/
theorem mem_dedupFirstSeen (seen l : List Rid) (r : Rid) :
    r ∈ dedupFirstSeen seen l ↔ r ∈ l ∧ r ∉ seen := by
  induction l generalizing seen with
  | nil => simp [dedupFirstSeen]
  | cons x t ih =>
    by_cases hx : x ∈ seen
    · simp only [dedupFirstSeen, if_pos hx, ih, List.mem_cons]
      constructor
      · rintro ⟨h1, h2⟩; exact ⟨Or.inr h1, h2⟩
      · rintro ⟨h1 | h1, h2⟩
        · exact absurd (h1 ▸ hx) h2
        · exact ⟨h1, h2⟩
    · simp only [dedupFirstSeen, if_neg hx, List.mem_cons, ih, List.mem_cons]
      constructor
      · rintro (h | ⟨h1, h2⟩)
        · exact ⟨Or.inl h, h ▸ hx⟩
        · exact ⟨Or.inr h1, fun hc => h2 (Or.inr hc)⟩
      · rintro ⟨h1 | h1, h2⟩
        · exact Or.inl h1
        · by_cases hr : r = x
          · exact Or.inl hr
          · exact Or.inr ⟨h1, fun hc => (hc.elim hr h2)⟩

/-- The first-seen deduplication never repeats an element. -/
theorem nodup_dedupFirstSeen (seen l : List Rid) :
    (dedupFirstSeen seen l).Nodup := by
  induction l generalizing seen with
  | nil => simp [dedupFirstSeen]
  | cons x t ih =>
    by_cases hx : x ∈ seen
    · simpa [dedupFirstSeen, if_pos hx] using ih seen
    · simp only [dedupFirstSeen, if_neg hx]
      refine List.nodup_cons.mpr ⟨?_, ih (x :: seen)⟩
      intro hc
      exact ((mem_dedupFirstSeen _ _ _).mp hc).2 (List.mem_cons_self x seen)

/-- The first-seen deduplication is a sublist of its input, hence preserves
the first-seen order. -/
theorem dedupFirstSeen_sublist (seen l : List Rid) :
    (dedupFirstSeen seen l).Sublist l := by
  induction l generalizing seen with
  | nil => simp [dedupFirstSeen]
  | cons x t ih =>
    by_cases hx : x ∈ seen
    · simpa [dedupFirstSeen, if_pos hx] using (ih seen).trans (List.sublist_cons_self x t)
    · simpa [dedupFirstSeen, if_neg hx] using (ih (x :: seen)).cons₂ x

/-- The fallback scan with a total (never-raising) predicate is the plain
list filter. -/
theorem filterE_ok (p : Rid → Bool) (l : List Rid) :
    filterE (fun i => Except.ok (p i)) l = Except.ok (l.filter p) := by
  induction l with
  | nil => rfl
  | cons y t ih =>
    simp only [filterE, ih, List.filter_cons]
    by_cases h : p y <;> simp [h, Except.bind, Except.map] <;> rfl

/-- The unindexed fallback for `!=` is a total filter. -/
theorem filterE_ne (heap : Heap) (col : String) (x : Val) (stream : List Rid) :
    filterE (fun item => pyOpEval Cop.ne (hGet heap item col) (RVal.v x))
        stream =
      Except.ok (stream.filter (fun i => hGet heap i col ≠ x)) := by
  have h : (fun item => pyOpEval Cop.ne (hGet heap item col) (RVal.v x)) =
      (fun item => Except.ok (decide (hGet heap item col ≠ x))) := by
    funext item; simp [pyOpEval]
  rw [h, filterE_ok]

/-- The unindexed fallback for `not in` is a total filter. -/
theorem filterE_notin (heap : Heap) (col : String) (xs : List Val)
    (stream : List Rid) :
    filterE (fun item =>
        pyOpEval Cop.notinOp (hGet heap item col) (RVal.tup xs)) stream =
      Except.ok (stream.filter (fun i => hGet heap i col ∉ xs)) := by
  have h : (fun item => pyOpEval Cop.notinOp (hGet heap item col)
        (RVal.tup xs)) =
      (fun item => Except.ok (decide (hGet heap item col ∉ xs))) := by
    funext item; simp [pyOpEval]
  rw [h, filterE_ok]

/-- C7, the claim as stated is false: the engine does not emit the
complement for a NOT node — it raises `NotImplementedError`.  Dispatched on
`stateX`'s two live records with a NOT of an indexed equality, evaluation
returns the raised error, not the complement `[1]`. -/
theorem notNode_counterexample :
    applyCondition schX stateX.store stateX.heap
        (Cond.notNode (Cond.binary "cat" Cop.eq (RVal.v (Val.str "A"))))
        [0, 1] false =
      Except.error "NotImplementedError: Unsupported condition type" := by
  rfl

/-- C7 (amended): NOT predicate nodes are not supported — `_apply_condition`
handles groupings, binary comparisons and AND/OR clause lists only, and
raises `NotImplementedError` on a NOT (`UnaryExpression`) node, whatever the
wrapped condition and stream. -/
theorem notNode_raises (sch : Schema) (st : Store) (heap : Heap) (c : Cond)
    (stream : List Rid) (isFirst : Bool) :
    applyCondition sch st heap (Cond.notNode c) stream isFirst =
      Except.error "NotImplementedError: Unsupported condition type" := by
  rfl

/-- C9: an OR node evaluates each sub-condition against the same starting
stream (collected by `applyCondsSame`) and yields the union in first-seen
order with duplicates removed: the output is a sublist of the concatenated
branch results, contains exactly the records matching some branch, and
yields a record matching any number of branches exactly once. -/
theorem or_union_dedup (sch : Schema) (st : Store) (heap : Heap)
    (cs : List Cond) (stream : List Rid) (outs : List (List Rid))
    (isFirst : Bool)
    (h : applyCondsSame sch st heap cs stream = Except.ok outs) :
    applyCondition sch st heap (Cond.boolOr cs) stream isFirst =
        Except.ok (dedupChain outs) ∧
      (dedupChain outs).Sublist outs.flatten ∧
      (∀ r, r ∈ dedupChain outs ↔ ∃ l ∈ outs, r ∈ l) ∧
      ∀ r ∈ outs.flatten, (dedupChain outs).count r = 1 := by
  refine ⟨by simp [applyCondition, h, Except.map], dedupFirstSeen_sublist _ _,
    ?_, ?_⟩
  · intro r
    rw [show dedupChain outs = dedupFirstSeen [] outs.flatten from rfl,
      mem_dedupFirstSeen]
    simp [List.mem_flatten]
  · intro r hr
    have hm : r ∈ dedupChain outs := by
      rw [show dedupChain outs = dedupFirstSeen [] outs.flatten from rfl,
        mem_dedupFirstSeen]
      simp [hr]
    exact List.count_eq_one_of_mem (nodup_dedupFirstSeen _ _) hm

/-- Witness for `or_union_dedup`: on `stateX`, the branches `cat in (A, B)`
and `id >= 1` both match both records; the OR yields each exactly once. -/
theorem or_union_dedup_witness :
    applyCondsSame schX stateX.store stateX.heap
        [Cond.binary "cat" Cop.inOp (RVal.tup [Val.str "A", Val.str "B"]),
         Cond.binary "id" Cop.ge (RVal.v (Val.int 1))] [0, 1] =
        Except.ok [[0, 1], [0, 1]] ∧
      applyCondition schX stateX.store stateX.heap
        (Cond.boolOr
          [Cond.binary "cat" Cop.inOp (RVal.tup [Val.str "A", Val.str "B"]),
           Cond.binary "id" Cop.ge (RVal.v (Val.int 1))]) [0, 1] false =
        Except.ok [0, 1] :=
  ⟨by rfl,
    (or_union_dedup schX stateX.store stateX.heap _ [0, 1] [[0, 1], [0, 1]]
      false (by rfl)).1⟩

/-- C10, the claim as stated is false when NULL itself is among the compared
values: on `stateNull` (one live record whose indexed `cat` is NULL), the
query `cat NOT IN (NULL)` excludes the record — its bucket is exactly the
bucket being subtracted — whereas the claim says a NULL-valued candidate is
always included. -/
theorem null_notin_counterexample :
    stateNull.store.data = [0] ∧
      hGet stateNull.heap 0 "cat" = Val.none ∧
      columnToIndex schX "cat" = some "cat" ∧
      executeQuery schX stateNull.store stateNull.heap
        ⟨[Cond.binary "cat" Cop.notinOp (RVal.tup [Val.none])], [],
          Option.none, Option.none⟩ = Except.ok [] :=
  ⟨by decide, by decide, by decide, by rfl⟩

/-- C10 (amended): for a not-equal or not-in comparison, a candidate whose
column value is NULL is included in the result — unlike SQL three-valued
semantics — provided NULL is not itself among the compared value(s).  On the
index path this holds because only the buckets of the compared values are
subtracted (given the index places the record only under its actual value);
on the unindexed fallback path because Python's `!=` and `not in` are true
for `None` against non-None values. -/
theorem null_neq_included (sch : Schema) (st : Store) (heap : Heap)
    (stream : List Rid) (r : Rid) (col : String) (op : Cop) (value : RVal)
    (isFirst : Bool)
    (hshape : (op = Cop.ne ∧ ∃ x, value = RVal.v x) ∨
      (op = Cop.notinOp ∧ ∃ xs, value = RVal.tup xs))
    (hnull : Val.none ∉ comparedVals value)
    (hr : r ∈ stream)
    (hval : hGet heap r col = Val.none)
    (hsound : ∀ idx, columnToIndex sch col = some idx →
      ∀ w ∈ comparedVals value, r ∈ hashQuery st.im.hash idx w →
        w = hGet heap r col) :
    ∃ out, applyBinaryCondition sch st heap col op value stream isFirst =
        Except.ok out ∧ r ∈ out := by
  rcases hshape with ⟨hop, x, hv⟩ | ⟨hop, xs, hv⟩
  · subst hop; subst hv
    simp only [comparedVals, List.mem_singleton] at hnull
    cases hidx : columnToIndex sch col with
    | none =>
      refine ⟨stream.filter (fun i => hGet heap i col ≠ x), ?_, ?_⟩
      · simp only [applyBinaryCondition, imQuery, hidx]
        exact filterE_ne heap col x stream
      · simp only [List.mem_filter, decide_eq_true_eq]
        exact ⟨hr, by rw [hval]; exact hnull⟩
    | some idx =>
      refine ⟨stream.filter (fun i => i ∉ hashQuery st.im.hash idx x), ?_, ?_⟩
      · simp [applyBinaryCondition, imQuery, hidx]
      · simp only [List.mem_filter, decide_eq_true_eq]
        refine ⟨hr, fun hc => ?_⟩
        have := hsound idx hidx x (List.mem_singleton_self x) hc
        rw [hval] at this
        exact hnull this.symm
  · subst hop; subst hv
    simp only [comparedVals] at hnull
    cases hidx : columnToIndex sch col with
    | none =>
      refine ⟨stream.filter (fun i => hGet heap i col ∉ xs), ?_, ?_⟩
      · simp only [applyBinaryCondition, imQuery, hidx]
        exact filterE_notin heap col xs stream
      · simp only [List.mem_filter, decide_eq_true_eq]
        exact ⟨hr, by rw [hval]; exact hnull⟩
    | some idx =>
      refine ⟨stream.filter
        (fun i => i ∉ xs.flatMap (fun v => hashQuery st.im.hash idx v)), ?_, ?_⟩
      · simp [applyBinaryCondition, imQuery, hidx]
      · simp only [List.mem_filter, decide_eq_true_eq]
        refine ⟨hr, fun hc => ?_⟩
        rcases List.mem_flatMap.mp hc with ⟨w, hw, hmem⟩
        have := hsound idx hidx w hw hmem
        rw [hval] at this
        exact hnull (this ▸ hw)

/-- Witness for `null_neq_included`: on `stateNull`, `cat != "A"` keeps the
NULL-valued record on the index path. -/
theorem null_neq_included_witness :
    ∃ out, applyBinaryCondition schX stateNull.store stateNull.heap "cat"
        Cop.ne (RVal.v (Val.str "A")) [0] false = Except.ok out ∧ 0 ∈ out :=
  null_neq_included schX stateNull.store stateNull.heap [0] 0 "cat" Cop.ne
    (RVal.v (Val.str "A")) false (Or.inl ⟨rfl, _, rfl⟩) (by decide)
    (by decide) (by decide)
    (by
      intro idx hidx w hw hmem
      have h2 : (some "cat" : Option String) = some idx := by
        rw [← hidx]; decide
      injection h2 with h3
      subst h3
      simp only [comparedVals, List.mem_singleton] at hw
      subst hw
      exact absurd hmem (by decide))

/-- Membership through stable insertion. -/
theorem mem_pyInsert {α : Type} (le : α → α → Bool) (a x : α) (l : List α) :
    x ∈ pyInsert le a l ↔ x = a ∨ x ∈ l := by
  induction l with
  | nil => simp [pyInsert]
  | cons b t ih =>
    by_cases h : le a b
    · simp [pyInsert, h, List.mem_cons]
    · simp [pyInsert, h, List.mem_cons, ih]
      tauto

/-- Stable insertion permutes the element onto the list. -/
theorem pyInsert_perm {α : Type} (le : α → α → Bool) (a : α) (l : List α) :
    (pyInsert le a l).Perm (a :: l) := by
  induction l with
  | nil => rfl
  | cons b t ih =>
    by_cases h : le a b
    · simp [pyInsert, h]
    · simp only [pyInsert, h, if_neg]
      exact (ih.cons b).trans (List.Perm.swap a b t)

/-- The stable sort is a permutation of its input. -/
theorem pySorted_perm {α : Type} (le : α → α → Bool) (l : List α) :
    (pySorted le l).Perm l := by
  induction l with
  | nil => rfl
  | cons a t ih =>
    exact (pyInsert_perm le a (pySorted le t)).trans (ih.cons a)

/-- Stability of insertion: inserting `a` into a list sorted with all its
ties `R`-after `a` keeps the list sorted and keeps every tie with `a` in
`R`-order. -/
theorem pyInsert_pairwise {α : Type} (le : α → α → Bool) (R : α → α → Prop)
    (htot : ∀ x y, le x y = true ∨ le y x = true)
    (htrans : ∀ x y z, le x y = true → le y z = true → le x z = true)
    (a : α) {l : List α}
    (hl : l.Pairwise (fun x y => le x y = true ∧ (le y x = true → R x y)))
    (ha : ∀ b ∈ l, R a b) :
    (pyInsert le a l).Pairwise
      (fun x y => le x y = true ∧ (le y x = true → R x y)) := by
  induction l with
  | nil => simp [pyInsert]
  | cons b t ih =>
    rcases List.pairwise_cons.mp hl with ⟨hbt, ht⟩
    by_cases h : le a b
    · simp only [pyInsert, h, if_pos]
      refine List.pairwise_cons.mpr ⟨?_, hl⟩
      intro y hy
      rcases List.mem_cons.mp hy with rfl | hyt
      · exact ⟨h, fun _ => ha y (List.mem_cons_self _ _)⟩
      · exact ⟨htrans a b y h (hbt y hyt).1,
          fun _ => ha y (List.mem_cons.mpr (Or.inr hyt))⟩
    · simp only [pyInsert, h, if_neg]
      refine List.pairwise_cons.mpr ⟨?_, ih ht
        (fun c hc => ha c (List.mem_cons.mpr (Or.inr hc)))⟩
      intro y hy
      rcases (mem_pyInsert le a y t).mp hy with hya | hyt
      · subst hya
        refine ⟨?_, fun hc => absurd hc h⟩
        rcases htot y b with hab | hba
        · exact absurd hab h
        · exact hba
      · exact hbt y hyt

/-- Stability of the sort: sorting a list whose original order satisfies `R`
pairwise produces a sorted list whose ties remain `R`-ordered (Python's
stable `sorted`). -/
theorem pySorted_pairwise {α : Type} (le : α → α → Bool) (R : α → α → Prop)
    (htot : ∀ x y, le x y = true ∨ le y x = true)
    (htrans : ∀ x y z, le x y = true → le y z = true → le x z = true)
    {l : List α} (hl : l.Pairwise R) :
    (pySorted le l).Pairwise
      (fun x y => le x y = true ∧ (le y x = true → R x y)) := by
  induction l with
  | nil => simp [pySorted]
  | cons a t ih =>
    rcases List.pairwise_cons.mp hl with ⟨hat, ht⟩
    exact pyInsert_pairwise le R htot htrans a (ih ht)
      (fun b hb => hat b ((pySorted_perm le t).mem_iff.mp hb))

/-- The sort model's total value order is total. -/
theorem valLeB_total (a b : Val) : valLeB a b = true ∨ valLeB b a = true := by
  cases a <;> cases b <;> simp [valLeB] <;> first
    | exact Int.le_total _ _
    | exact le_total _ _

/-- The sort model's total value order is transitive. -/
theorem valLeB_trans (a b c : Val) (h1 : valLeB a b = true)
    (h2 : valLeB b c = true) : valLeB a c = true := by
  cases a <;> cases b <;> cases c <;> simp_all [valLeB] <;>
    exact le_trans h1 h2

/-- One order-by pass's relation is total. -/
theorem obRel_total (heap : Heap) (col : String) (desc : Bool) (x y : Rid) :
    obRel heap col desc x y = true ∨ obRel heap col desc y x = true := by
  unfold obRel
  cases desc
  · simpa using valLeB_total (hGet heap x col) (hGet heap y col)
  · simpa using valLeB_total (hGet heap y col) (hGet heap x col)

/-- One order-by pass's relation is transitive. -/
theorem obRel_trans (heap : Heap) (col : String) (desc : Bool) (x y z : Rid)
    (h1 : obRel heap col desc x y = true)
    (h2 : obRel heap col desc y z = true) :
    obRel heap col desc x z = true := by
  unfold obRel at h1 h2 ⊢
  cases desc
  · simp only [if_neg Bool.false_ne_true] at h1 h2 ⊢
    exact valLeB_trans _ _ _ h1 h2
  · simp only [if_pos rfl] at h1 h2 ⊢
    exact valLeB_trans _ _ _ h2 h1

/-- A list is vacuously pairwise under the trivial relation. -/
theorem pairwise_trivial {α : Type} (l : List α) :
    l.Pairwise (fun _ _ => True) := by
  induction l with
  | nil => exact List.Pairwise.nil
  | cons a t ih => exact List.pairwise_cons.mpr ⟨fun _ _ => trivial, ih⟩

/-- Unfolding one order-by clause: the first-declared clause's pass runs
last. -/
theorem sortPasses_cons (heap : Heap) (k : String × Bool)
    (rest : List (String × Bool)) (l : List Rid) :
    sortPasses heap (k :: rest) l =
      pySorted (obRel heap k.1 k.2) (sortPasses heap rest l) := by
  simp [sortPasses, List.foldl_append]

/-- The order-by passes permute the filtered records. -/
theorem sortPasses_perm (heap : Heap) (obys : List (String × Bool))
    (l : List Rid) : (sortPasses heap obys l).Perm l := by
  induction obys with
  | nil => rfl
  | cons k rest ih =>
    rw [sortPasses_cons]
    exact (pySorted_perm _ _).trans ih

/-- The radix argument: applying one stable pass per order-by clause in
reverse declaration order leaves the records sorted by the lexicographic
order in which the first-declared key dominates. -/
theorem sortPasses_pairwise (heap : Heap) (obys : List (String × Bool))
    (l : List Rid) :
    (sortPasses heap obys l).Pairwise (lexLe heap obys) := by
  induction obys with
  | nil => exact pairwise_trivial _
  | cons k rest ih =>
    rw [sortPasses_cons]
    have h := pySorted_pairwise (obRel heap k.1 k.2) (lexLe heap rest)
      (obRel_total heap k.1 k.2) (obRel_trans heap k.1 k.2) ih
    refine h.imp ?_
    rintro x y ⟨h1, h2⟩
    by_cases hyx : obRel heap k.1 k.2 y x = true
    · exact Or.inr ⟨h1, hyx, h2 hyx⟩
    · exact Or.inl ⟨h1, hyx⟩

/-- C8, the claim as stated is false for a limit of 0: `_execute_query`
guards the slicing stage with the truthiness of the limit and offset, so
`LIMIT 0` (with no offset) yields every record instead of at most 0.  On
`stateX`'s two live records, a query with `limit = 0` returns both. -/
theorem limit_zero_counterexample :
    stateX.store.data = [0, 1] ∧
      executeQuery schX stateX.store stateX.heap
        ⟨[], [], Option.none, some 0⟩ = Except.ok [0, 1] :=
  ⟨by decide, by rfl⟩

/-- C8 (amended): for a query with an order-by list, offset `N` and a
nonzero limit `M`, whose filtered records' order-by key values are pairwise
order-compatible per order-by column — the proviso under which Python's
`sorted` cannot raise; without it the source raises `TypeError` (e.g. when
two of the keys are NULL), while the model's `valLeB` totalizes the
comparison — the filtered records are passed through one stable sort per
order-by clause in reverse declaration order, leaving them a permutation of
the filtered stream sorted by the lexicographic order in which the
first-declared key dominates (ascending or descending per clause); then the
first `N` are dropped and at most `M` are taken.  (A limit of 0 is treated
as "no limit" by the source's truthiness checks, per the counterexample.) -/
theorem order_offset_limit (sch : Schema) (st : Store) (heap : Heap)
    (q : QuerySpec) (N M : Nat) (out : List Rid) (keys : List Rat)
    (fil : List Rid)
    (hoff : q.offset = some N) (hlim : q.limit = some M) (hM : M ≠ 0)
    (hk : mapE (condSelectivity sch st) q.conds = Except.ok keys)
    (hf : applyCondsTop sch st heap
      ((pySorted (fun a b => a.2 ≤ b.2) (q.conds.zip keys)).map
        (fun p => p.1)) st.data = Except.ok fil)
    (hcomp : ∀ ob ∈ q.orderBy,
      (fil.map (fun r => hGet heap r ob.1)).Pairwise
        (fun a b => valComparable a b = true))
    (hout : executeQuery sch st heap q = Except.ok out) :
    (sortPasses heap q.orderBy fil).Perm fil ∧
    (sortPasses heap q.orderBy fil).Pairwise (lexLe heap q.orderBy) ∧
    out = ((sortPasses heap q.orderBy fil).drop N).take M := by
  unfold executeQuery at hout
  split at hout
  · exact absurd hout (by simp)
  · rename_i keys2 hk2
    split at hout
    · exact absurd hout (by simp)
    · rename_i fil2 hf2
      have hkeq := hk.symm.trans hk2
      injection hkeq with hkeq2
      subst hkeq2
      have hfeq := hf.symm.trans hf2
      injection hfeq with hfeq2
      subst hfeq2
      refine ⟨sortPasses_perm heap q.orderBy fil,
        sortPasses_pairwise heap q.orderBy fil, ?_⟩
      rw [hoff, hlim] at hout
      simp [hM] at hout
      exact hout.symm

/-- Witness for `order_offset_limit`: on `stateX`, ordering by `id`
descending with offset 1 and limit 1 yields the record with the smaller id;
the two order-by keys are the integers 1 and 2, order-compatible. -/
theorem order_offset_limit_witness :
    (sortPasses stateX.heap [("id", true)] [0, 1]).Perm [0, 1] ∧
    (sortPasses stateX.heap [("id", true)] [0, 1]).Pairwise
      (lexLe stateX.heap [("id", true)]) ∧
    [0] = ((sortPasses stateX.heap [("id", true)] [0, 1]).drop 1).take 1 :=
  order_offset_limit schX stateX.store stateX.heap
    ⟨[Cond.binary "cat" Cop.inOp (RVal.tup [Val.str "A", Val.str "B"])],
      [("id", true)], some 1, some 1⟩ 1 1 [0] [2] [0, 1]
    rfl rfl (by decide) (by rfl) (by rfl) (by decide) (by rfl)

/-- The unindexed fallback for `=` is a total filter. -/
theorem filterE_eq (heap : Heap) (col : String) (x : Val) (stream : List Rid) :
    filterE (fun item => pyOpEval Cop.eq (hGet heap item col) (RVal.v x))
        stream =
      Except.ok (stream.filter (fun i => hGet heap i col = x)) := by
  have h : (fun item => pyOpEval Cop.eq (hGet heap item col) (RVal.v x)) =
      (fun item => Except.ok (decide (hGet heap item col = x))) := by
    funext item; simp [pyOpEval]
  rw [h, filterE_ok]

/-- An unindexed equality leaf is filter-like on every stream and on the
full table. -/
theorem unindexed_eq_filterLike (sch : Schema) (st : Store) (heap : Heap)
    (col : String) (x : Val) (hidx : columnToIndex sch col = Option.none) :
    FilterLike sch st heap (Cond.binary col Cop.eq (RVal.v x))
        (fun r => hGet heap r col = x) ∧
      FirstLike sch st heap (Cond.binary col Cop.eq (RVal.v x))
        (fun r => hGet heap r col = x) := by
  have hall : ∀ (stream : List Rid) (b : Bool),
      applyCondition sch st heap (Cond.binary col Cop.eq (RVal.v x)) stream b =
        Except.ok (stream.filter (fun r => hGet heap r col = x)) := by
    intro stream b
    show applyBinaryCondition sch st heap col Cop.eq (RVal.v x) stream b = _
    simp only [applyBinaryCondition, imQuery, hidx]
    exact filterE_eq heap col x stream
  exact ⟨fun stream => hall stream false,
    ⟨st.data.filter (fun r => hGet heap r col = x), hall st.data true,
      List.Perm.refl _⟩⟩

/-- An unindexed inequality leaf is filter-like on every stream and on the
full table. -/
theorem unindexed_ne_filterLike (sch : Schema) (st : Store) (heap : Heap)
    (col : String) (x : Val) (hidx : columnToIndex sch col = Option.none) :
    FilterLike sch st heap (Cond.binary col Cop.ne (RVal.v x))
        (fun r => hGet heap r col ≠ x) ∧
      FirstLike sch st heap (Cond.binary col Cop.ne (RVal.v x))
        (fun r => hGet heap r col ≠ x) := by
  have hall : ∀ (stream : List Rid) (b : Bool),
      applyCondition sch st heap (Cond.binary col Cop.ne (RVal.v x)) stream b =
        Except.ok (stream.filter (fun r => hGet heap r col ≠ x)) := by
    intro stream b
    show applyBinaryCondition sch st heap col Cop.ne (RVal.v x) stream b = _
    simp only [applyBinaryCondition, imQuery, hidx]
    exact filterE_ne heap col x stream
  exact ⟨fun stream => hall stream false,
    ⟨st.data.filter (fun r => hGet heap r col ≠ x), hall st.data true,
      List.Perm.refl _⟩⟩

/-- `mapE` preserves length on success. -/
theorem mapE_ok_length {α β : Type} (f : α → Except String β) :
    ∀ (l : List α) (ys : List β), mapE f l = Except.ok ys →
      ys.length = l.length := by
  intro l
  induction l with
  | nil =>
    intro ys h
    injection h with h2
    simp [← h2]
  | cons a t ih =>
    intro ys h
    unfold mapE at h
    cases hf : f a with
    | error e =>
      rw [hf] at h
      exact absurd h (by intro hc; cases hc)
    | ok b =>
      rw [hf] at h
      cases ht : mapE f t with
      | error e =>
        rw [ht] at h
        exact absurd h (by intro hc; cases hc)
      | ok bs =>
        rw [ht] at h
        injection h with h2
        simp [← h2, ih bs ht]

/-- `List.all` only depends on the multiset of elements. -/
theorem perm_all_eq {α : Type} {l1 l2 : List α} (h : l1.Perm l2)
    (f : α → Bool) : l1.all f = l2.all f := by
  by_cases h1 : ∀ c ∈ l1, f c = true
  · rw [List.all_eq_true.mpr h1,
      List.all_eq_true.mpr (fun c hc => h1 c (h.mem_iff.mpr hc))]
  · have h2 : ¬ ∀ c ∈ l2, f c = true := by
      intro hc; exact h1 (fun c hm => hc c (h.mem_iff.mp hm))
    rw [Bool.eq_false_iff.mpr (fun hc => h1 (List.all_eq_true.mp hc)),
      Bool.eq_false_iff.mpr (fun hc => h2 (List.all_eq_true.mp hc))]

/-- Sequential application of filter-like conditions filters by their
conjunction. -/
theorem applyCondsSeq_filter (sch : Schema) (st : Store) (heap : Heap)
    (preds : Cond → Rid → Bool) :
    ∀ (cs : List Cond) (stream : List Rid),
      (∀ c ∈ cs, FilterLike sch st heap c (preds c)) →
      applyCondsSeq sch st heap cs stream =
        Except.ok (stream.filter (fun r => cs.all (fun c => preds c r))) := by
  intro cs
  induction cs with
  | nil => intro stream _; simp [applyCondsSeq]
  | cons c t ih =>
    intro stream hp
    have hc := hp c (List.mem_cons_self _ _) stream
    have hstep : applyCondsSeq sch st heap (c :: t) stream =
        applyCondsSeq sch st heap t (stream.filter (preds c)) := by
      show (do
        let s2 ← applyCondition sch st heap c stream false
        applyCondsSeq sch st heap t s2) = _
      rw [hc]
      rfl
    rw [hstep, ih _ (fun d hd => hp d (List.mem_cons.mpr (Or.inr hd)))]
    congr 1
    rw [List.filter_filter]
    apply List.filter_congr
    intro r _
    simp [List.all_cons, Bool.and_comm]

/-- Applying a condition list to the full live data, the first with the
full-table flag, yields a permutation of the data filtered by the
conjunction. -/
theorem applyCondsTop_perm (sch : Schema) (st : Store) (heap : Heap)
    (preds : Cond → Rid → Bool) (cs : List Cond)
    (hp : ∀ c ∈ cs, FilterLike sch st heap c (preds c) ∧
      FirstLike sch st heap c (preds c)) :
    ∃ out, applyCondsTop sch st heap cs st.data = Except.ok out ∧
      out.Perm (st.data.filter (fun r => cs.all (fun c => preds c r))) := by
  cases cs with
  | nil => exact ⟨st.data, rfl, by simp⟩
  | cons c t =>
    obtain ⟨out0, hout0, hperm0⟩ := (hp c (List.mem_cons_self _ _)).2
    have hseq := applyCondsSeq_filter sch st heap preds t out0
      (fun d hd => (hp d (List.mem_cons.mpr (Or.inr hd))).1)
    refine ⟨out0.filter (fun r => t.all (fun c => preds c r)), ?_, ?_⟩
    · show (do
        let s1 ← applyCondition sch st heap c st.data true
        applyCondsSeq sch st heap t s1) = _
      rw [hout0]
      exact hseq
    · refine (hperm0.filter _).trans ?_
      rw [List.filter_filter]
      refine List.Perm.of_eq ?_
      apply List.filter_congr
      intro r _
      simp [List.all_cons, Bool.and_comm]

/-- C6 (amended): for filter-like conditions — those whose application to
any stream filters it by a fixed per-record predicate, with the first
(full-table) application a permutation of the filtered data — applying a
conjunction's conditions sequentially in any two permuted orders yields
permutation-equal result streams, both a permutation of the live data
filtered by the conjunction; and the selectivity-sorted order the engine
actually uses is itself a permutation of the declared order, hence covered.
The restriction is necessary: an index-served first condition draws on the
bucket rather than the live stream, and a bucket can hold a dead record
(re-indexed by an in-place mutation after its delete), making the orders
disagree — see the counterexample. -/
theorem selectivity_order_independent (sch : Schema) (st : Store)
    (heap : Heap) (preds : Cond → Rid → Bool) (cs1 cs2 : List Cond)
    (hperm : cs1.Perm cs2)
    (hp : ∀ c ∈ cs1, FilterLike sch st heap c (preds c) ∧
      FirstLike sch st heap c (preds c)) :
    (∃ out1 out2,
      applyCondsTop sch st heap cs1 st.data = Except.ok out1 ∧
      applyCondsTop sch st heap cs2 st.data = Except.ok out2 ∧
      out1.Perm out2 ∧
      out1.Perm (st.data.filter (fun r => cs1.all (fun c => preds c r)))) ∧
    ∀ keys, mapE (condSelectivity sch st) cs1 = Except.ok keys →
      ((pySorted (fun a b => a.2 ≤ b.2) (cs1.zip keys)).map
        (fun p => p.1)).Perm cs1 := by
  constructor
  · obtain ⟨out1, h1, hp1⟩ := applyCondsTop_perm sch st heap preds cs1 hp
    obtain ⟨out2, h2, hp2⟩ := applyCondsTop_perm sch st heap preds cs2
      (fun c hc => hp c (hperm.mem_iff.mpr hc))
    refine ⟨out1, out2, h1, h2, ?_, hp1⟩
    have heq : st.data.filter (fun r => cs2.all (fun c => preds c r)) =
        st.data.filter (fun r => cs1.all (fun c => preds c r)) := by
      apply List.filter_congr
      intro r _
      exact (perm_all_eq hperm _).symm
    exact hp1.trans (heq ▸ hp2).symm
  · intro keys hk
    have hlen : keys.length = cs1.length := mapE_ok_length _ cs1 keys hk
    show (List.map Prod.fst
      (pySorted (fun a b => decide (a.2 ≤ b.2)) (cs1.zip keys))).Perm cs1
    refine ((pySorted_perm (fun a b => decide (a.2 ≤ b.2))
      (cs1.zip keys)).map Prod.fst).trans ?_
    rw [List.map_fst_zip cs1 keys (by omega)]

/-- C6, the claim as stated is false on a reachable state: on `stateDead` —
a record inserted, deleted and committed, then mutated in place, which the
next commit re-indexes dead into the `cat = 'B'` bucket
(`update_modified_items_indexes` has no liveness check) — the conjunction
`[cat = 'B', name = 'x']` yields the dead record `[0]` when the indexed
condition comes first (its bucket replaces the empty full-table stream),
but `[]` when the unindexed `name = 'x'` comes first; the two orders
disagree. -/
theorem selectivity_order_counterexample :
    run schX txnsDead = some stateDead ∧
    stateDead.store.data = [] ∧
    applyCondsTop schX stateDead.store stateDead.heap [condCatB, condNameX]
      stateDead.store.data = Except.ok [0] ∧
    applyCondsTop schX stateDead.store stateDead.heap [condNameX, condCatB]
      stateDead.store.data = Except.ok [] :=
  ⟨by rfl, by rfl, by rfl, by rfl⟩


/-- Satisfying Python equality. -/
theorem pyOpEval_eq_true (a x : Val) :
    pyOpEval Cop.eq a (RVal.v x) = Except.ok true ↔ a = x := by
  simp [pyOpEval]

/-- Satisfying Python inequality. -/
theorem pyOpEval_ne_true (a x : Val) :
    pyOpEval Cop.ne a (RVal.v x) = Except.ok true ↔ a ≠ x := by
  simp [pyOpEval]

/-- Satisfying Python membership. -/
theorem pyOpEval_in_true (a : Val) (xs : List Val) :
    pyOpEval Cop.inOp a (RVal.tup xs) = Except.ok true ↔ a ∈ xs := by
  simp [pyOpEval]

/-- Satisfying Python non-membership. -/
theorem pyOpEval_notin_true (a : Val) (xs : List Val) :
    pyOpEval Cop.notinOp a (RVal.tup xs) = Except.ok true ↔ a ∉ xs := by
  simp [pyOpEval]

/-- C2 (supporting theorem, against the intent model — the source as given
cannot run this path at all: `query.py:198` passes the keyword
`collection_is_full_table` to `store.query_index`, which `store.py:205`
defines without that parameter, so the literal code raises `TypeError` on
every leaf comparison): for the hash-backed operators `=`, `≠`, `in`,
`not-in` on an indexed column, with the hash buckets coherent with the live
data and the candidate stream drawn from the live data (and the full-table
flag accurate), the surviving records are exactly the candidates whose
column value satisfies the Python operator. -/
theorem leaf_hash_exact (sch : Schema) (st : Store) (heap : Heap)
    (stream : List Rid) (col : String) (op : Cop) (value : RVal)
    (isFirst : Bool) (idx : String)
    (hidx : columnToIndex sch col = some idx)
    (hops : (op = Cop.eq ∨ op = Cop.ne) ∧ (∃ x, value = RVal.v x) ∨
      (op = Cop.inOp ∨ op = Cop.notinOp) ∧ (∃ xs, value = RVal.tup xs))
    (hfirst : isFirst = true → stream = st.data)
    (hsub : ∀ r ∈ stream, r ∈ st.data)
    (hcoh : ∀ v r, r ∈ hashQuery st.im.hash idx v ↔
      r ∈ st.data ∧ hGet heap r col = v) :
    ∃ out, applyBinaryCondition sch st heap col op value stream isFirst =
        Except.ok out ∧
      ∀ r, r ∈ out ↔ r ∈ stream ∧
        pyOpEval op (hGet heap r col) value = Except.ok true := by
  rcases hops with ⟨hop, x, hv⟩ | ⟨hop, xs, hv⟩
  · subst hv
    rcases hop with rfl | rfl
    · cases isFirst with
      | true =>
        refine ⟨hashQuery st.im.hash idx x, ?_, ?_⟩
        · simp [applyBinaryCondition, imQuery, hidx]
        · intro r
          rw [hcoh, ← hfirst rfl, pyOpEval_eq_true]
      | false =>
        refine ⟨stream.filter (fun i => i ∈ hashQuery st.im.hash idx x),
          by simp [applyBinaryCondition, imQuery, hidx], ?_⟩
        intro r
        simp only [List.mem_filter, decide_eq_true_eq, pyOpEval_eq_true, hcoh]
        constructor
        · rintro ⟨hs, _, hval⟩
          exact ⟨hs, hval⟩
        · rintro ⟨hs, hval⟩
          exact ⟨hs, hsub r hs, hval⟩
    · refine ⟨stream.filter (fun i => i ∉ hashQuery st.im.hash idx x),
        by simp [applyBinaryCondition, imQuery, hidx], ?_⟩
      intro r
      simp only [List.mem_filter, decide_eq_true_eq, pyOpEval_ne_true, hcoh]
      constructor
      · rintro ⟨hs, hne⟩
        exact ⟨hs, fun hval => hne ⟨hsub r hs, hval⟩⟩
      · rintro ⟨hs, hval⟩
        exact ⟨hs, fun hc => hval hc.2⟩
  · subst hv
    have hmemflat : ∀ r,
        r ∈ xs.flatMap (fun v => hashQuery st.im.hash idx v) ↔
          r ∈ st.data ∧ hGet heap r col ∈ xs := by
      intro r
      rw [List.mem_flatMap]
      constructor
      · rintro ⟨v, hvx, hmem⟩
        rcases (hcoh v r).mp hmem with ⟨hd, hval⟩
        exact ⟨hd, hval ▸ hvx⟩
      · rintro ⟨hd, hval⟩
        exact ⟨hGet heap r col, hval, (hcoh _ r).mpr ⟨hd, rfl⟩⟩
    rcases hop with rfl | rfl
    · cases isFirst with
      | true =>
        refine ⟨xs.flatMap (fun v => hashQuery st.im.hash idx v), ?_, ?_⟩
        · simp [applyBinaryCondition, imQuery, hidx]
        · intro r
          rw [hmemflat, ← hfirst rfl, pyOpEval_in_true]
      | false =>
        refine ⟨stream.filter
          (fun i => i ∈ xs.flatMap (fun v => hashQuery st.im.hash idx v)),
          by simp [applyBinaryCondition, imQuery, hidx], ?_⟩
        intro r
        simp only [List.mem_filter, decide_eq_true_eq, pyOpEval_in_true,
          hmemflat]
        constructor
        · rintro ⟨hs, _, hval⟩
          exact ⟨hs, hval⟩
        · rintro ⟨hs, hval⟩
          exact ⟨hs, hsub r hs, hval⟩
    · refine ⟨stream.filter
        (fun i => i ∉ xs.flatMap (fun v => hashQuery st.im.hash idx v)),
        by simp [applyBinaryCondition, imQuery, hidx], ?_⟩
      intro r
      simp only [List.mem_filter, decide_eq_true_eq, pyOpEval_notin_true,
        hmemflat]
      constructor
      · rintro ⟨hs, hne⟩
        exact ⟨hs, fun hval => hne ⟨hsub r hs, hval⟩⟩
      · rintro ⟨hs, hval⟩
        exact ⟨hs, fun hc => hval hc.2⟩

/-- Evaluating a bucket lookup one entry at a time. -/
theorem bucketsGet_cons (v w : Val) (b : List Rid)
    (t : List (Val × List Rid)) :
    bucketsGet ((w, b) :: t) v = if w = v then b else bucketsGet t v := by
  by_cases h : w = v <;> simp [bucketsGet, List.find?, h]

/-- Witness for `leaf_hash_exact`: `cat = "A"` on `stateX`, whose hash
index is coherent with its two live records. -/
theorem leaf_hash_exact_witness :
    ∃ out, applyBinaryCondition schX stateX.store stateX.heap "cat" Cop.eq
        (RVal.v (Val.str "A")) [0, 1] false = Except.ok out ∧
      ∀ r, r ∈ out ↔ r ∈ [0, 1] ∧
        pyOpEval Cop.eq (hGet stateX.heap r "cat") (RVal.v (Val.str "A")) =
          Except.ok true :=
  leaf_hash_exact schX stateX.store stateX.heap [0, 1] "cat" Cop.eq
    (RVal.v (Val.str "A")) false "cat" (by decide)
    (Or.inl ⟨Or.inl rfl, _, rfl⟩)
    (fun h => nomatch h)
    (by decide)
    (by
      intro v r
      have hb : hashGetBuckets stateX.store.im.hash "cat" =
          [(Val.str "A", [0]), (Val.str "B", [1])] := by decide
      have hdl : stateX.store.data = [0, 1] := by decide
      show r ∈ bucketsGet (hashGetBuckets stateX.store.im.hash "cat") v ↔ _
      rw [hb, bucketsGet_cons, bucketsGet_cons]
      by_cases h1 : Val.str "A" = v
      · subst h1
        rw [if_pos rfl]
        constructor
        · intro h
          have hr : r = 0 := by simpa using h
          subst hr
          exact ⟨by decide, by decide⟩
        · rintro ⟨hd, hv⟩
          rw [hdl] at hd
          rcases (by simpa using hd : r = 0 ∨ r = 1) with rfl | rfl
          · exact List.mem_singleton_self 0
          · exact absurd hv (by decide)
      · rw [if_neg h1]
        by_cases h2 : Val.str "B" = v
        · subst h2
          rw [if_pos rfl]
          constructor
          · intro h
            have hr : r = 1 := by simpa using h
            subst hr
            exact ⟨by decide, by decide⟩
          · rintro ⟨hd, hv⟩
            rw [hdl] at hd
            rcases (by simpa using hd : r = 0 ∨ r = 1) with rfl | rfl
            · exact absurd hv (by decide)
            · exact List.mem_singleton_self 1
        · rw [if_neg h2]
          constructor
          · intro h
            exact absurd h (List.not_mem_nil r)
          · rintro ⟨hd, hv⟩
            exfalso
            rw [hdl] at hd
            rcases (by simpa using hd : r = 0 ∨ r = 1) with rfl | rfl
            · exact h1 ((by decide :
                hGet stateX.heap 0 "cat" = Val.str "A").symm.trans hv)
            · exact h2 ((by decide :
                hGet stateX.heap 1 "cat" = Val.str "B").symm.trans hv))

/-- Witness for `selectivity_order_independent`: the two unindexed `name`
conditions on `stateX`, in both orders. -/
theorem selectivity_order_independent_witness :
    (∃ out1 out2,
      applyCondsTop schX stateX.store stateX.heap [condNameEq, condNameNe]
        stateX.store.data = Except.ok out1 ∧
      applyCondsTop schX stateX.store stateX.heap [condNameNe, condNameEq]
        stateX.store.data = Except.ok out2 ∧
      out1.Perm out2 ∧
      out1.Perm (stateX.store.data.filter
        (fun r => ([condNameEq, condNameNe] : List Cond).all
          (fun c => predsX c r)))) ∧
    ∀ keys, mapE (condSelectivity schX stateX.store)
        [condNameEq, condNameNe] = Except.ok keys →
      ((pySorted (fun a b => a.2 ≤ b.2)
        (([condNameEq, condNameNe] : List Cond).zip keys)).map
          (fun p => p.1)).Perm [condNameEq, condNameNe] :=
  selectivity_order_independent schX stateX.store stateX.heap predsX
    [condNameEq, condNameNe] [condNameNe, condNameEq]
    (List.Perm.swap condNameNe condNameEq [])
    (by
      intro c hc
      rcases List.mem_cons.mp hc with rfl | hc2
      · exact unindexed_eq_filterLike schX stateX.store stateX.heap "name"
          (Val.str "foo") (by decide)
      · rcases List.mem_cons.mp hc2 with rfl | hc3
        · exact unindexed_ne_filterLike schX stateX.store stateX.heap "name"
            (Val.str "bar") (by decide)
        · exact absurd hc3 (List.not_mem_nil c))

end SqlMem
